import Mathlib

/-
  Verification development for a small deployment-configuration toolkit:
  a renderer that rewrites tagged regions of an XML server descriptor
  template, and a checker that compares environment-variable defaults
  declared in two shell scripts.

  Strings are modelled as lists of characters.  Fallible operations
  return Except values: an error result models a fatal abort
  (SystemExit / ValueError) raised before the output file is written,
  so an error result entails that no output file is produced.
-/

set_option maxRecDepth 100000

namespace BitRiver

/-- Strings of the modelled programs, as lists of characters. -/
abbrev Str := List Char

/-- Whitespace characters recognised by the str.strip method and by the
regex whitespace class, restricted to ASCII. -/
def isPySpace (c : Char) : Bool :=
  c = ' ' || c = '\t' || c = '\n' || c = '\r' ||
    c = Char.ofNat 11 || c = Char.ofNat 12

/-- Values free of the opening angle bracket; escaped substitution values
have this property. -/
def noLt (v : Str) : Prop := ∀ c ∈ v, c ≠ '<'

instance (v : Str) : Decidable (noLt v) := by
  unfold noLt; infer_instance

/-- Index of the first occurrence of pat in data, mirroring the str.find
method of Python (none models the -1 result). -/
def findSub : Str → Str → Option Nat
  | [], pat => if pat.isPrefixOf ([] : Str) then some 0 else none
  | c :: rest, pat =>
    if pat.isPrefixOf (c :: rest) then some 0
    else (findSub rest pat).map (· + 1)

/-- Index of the first occurrence of pat in data at or after position
start, mirroring the two-argument str.find method. -/
def findFrom (data pat : Str) (start : Nat) : Option Nat :=
  (findSub (data.drop start) pat).map (· + start)

/-- Containment of pat in data as a substring, mirroring the in operator
of Python on strings. -/
def containsSub (data pat : Str) : Bool := (findSub data pat).isSome

/-- Occurrence of pat at index i of l. -/
def occAt (pat l : Str) (i : Nat) : Prop := pat <+: l.drop i

instance (pat l : Str) (i : Nat) : Decidable (occAt pat l i) :=
  decidable_of_iff (pat.isPrefixOf (l.drop i) = true) (by simp [occAt])

/-- Occurrence of pat somewhere inside l. -/
def hasOcc (pat l : Str) : Prop := ∃ i, occAt pat l i

theorem findSub_some_occAt {l pat : Str} {i : Nat}
    (h : findSub l pat = some i) : occAt pat l i := by
  induction l generalizing i with
  | nil =>
    by_cases hp : pat.isPrefixOf ([] : Str)
    · unfold findSub at h; rw [if_pos hp] at h; cases h
      simpa [occAt] using List.isPrefixOf_iff_prefix.mp hp
    · unfold findSub at h; rw [if_neg hp] at h; cases h
  | cons c rest ih =>
    by_cases hp : pat.isPrefixOf (c :: rest)
    · unfold findSub at h; rw [if_pos hp] at h; cases h
      simpa [occAt] using List.isPrefixOf_iff_prefix.mp hp
    · unfold findSub at h; rw [if_neg hp] at h
      rcases Option.map_eq_some'.mp h with ⟨j, hj, rfl⟩
      have := ih hj
      simpa [occAt] using this

theorem findSub_min {l pat : Str} {i : Nat}
    (h : findSub l pat = some i) : ∀ k, k < i → ¬ occAt pat l k := by
  induction l generalizing i with
  | nil =>
    by_cases hp : pat.isPrefixOf ([] : Str)
    · unfold findSub at h; rw [if_pos hp] at h; cases h
      intro k hk; omega
    · unfold findSub at h; rw [if_neg hp] at h; cases h
  | cons c rest ih =>
    by_cases hp : pat.isPrefixOf (c :: rest)
    · unfold findSub at h; rw [if_pos hp] at h; cases h
      intro k hk; omega
    · unfold findSub at h; rw [if_neg hp] at h
      rcases Option.map_eq_some'.mp h with ⟨j, hj, rfl⟩
      intro k hk
      match k with
      | 0 =>
        intro hocc
        exact hp (List.isPrefixOf_iff_prefix.mpr (by simpa [occAt] using hocc))
      | k + 1 =>
        intro hocc
        exact ih hj k (by omega) (by simpa [occAt] using hocc)

theorem findSub_none_no_occ {l pat : Str}
    (h : findSub l pat = none) : ∀ k, ¬ occAt pat l k := by
  induction l with
  | nil =>
    by_cases hp : pat.isPrefixOf ([] : Str)
    · unfold findSub at h; rw [if_pos hp] at h; cases h
    · intro k hocc
      have hnil : pat <+: ([] : Str) := by simpa [occAt] using hocc
      exact hp (List.isPrefixOf_iff_prefix.mpr (by simpa using hnil))
  | cons c rest ih =>
    by_cases hp : pat.isPrefixOf (c :: rest)
    · unfold findSub at h; rw [if_pos hp] at h; cases h
    · unfold findSub at h; rw [if_neg hp] at h
      intro k hocc
      match k with
      | 0 =>
        exact hp (List.isPrefixOf_iff_prefix.mpr (by simpa [occAt] using hocc))
      | k + 1 =>
        have h2 : findSub rest pat = none := by
          cases h3 : findSub rest pat with
          | none => rfl
          | some j => rw [h3] at h; simp at h
        exact ih h2 k (by simpa [occAt] using hocc)

theorem findSub_eq_some {l pat : Str} {i : Nat}
    (hocc : occAt pat l i) (hmin : ∀ k, k < i → ¬ occAt pat l k) :
    findSub l pat = some i := by
  cases h : findSub l pat with
  | none => exact absurd hocc (findSub_none_no_occ h i)
  | some j =>
    rcases Nat.lt_trichotomy i j with hlt | heq | hgt
    · exact absurd hocc (findSub_min h i hlt)
    · rw [heq]
    · exact absurd (findSub_some_occAt h) (hmin j hgt)

theorem hasOcc_iff_findSub {pat l : Str} :
    hasOcc pat l ↔ (findSub l pat).isSome = true := by
  constructor
  · rintro ⟨i, hi⟩
    cases h : findSub l pat with
    | none => exact absurd hi (findSub_none_no_occ h i)
    | some j => simp
  · intro h
    cases h2 : findSub l pat with
    | none => rw [h2] at h; cases h
    | some j => exact ⟨j, findSub_some_occAt h2⟩

instance (pat l : Str) : Decidable (hasOcc pat l) :=
  decidable_of_iff _ hasOcc_iff_findSub.symm

theorem findSub_eq_none {l pat : Str} (h : ¬ hasOcc pat l) :
    findSub l pat = none := by
  cases h2 : findSub l pat with
  | none => rfl
  | some j => exact absurd ⟨j, findSub_some_occAt h2⟩ h

theorem occAt_drop {pat l : Str} {s i : Nat} :
    occAt pat (l.drop s) i ↔ occAt pat l (s + i) := by
  unfold occAt
  rw [List.drop_drop]

theorem findFrom_eq_some {data pat : Str} {s j : Nat}
    (hs : s ≤ j) (hocc : occAt pat data j)
    (hmin : ∀ k, s ≤ k → k < j → ¬ occAt pat data k) :
    findFrom data pat s = some j := by
  unfold findFrom
  have h1 : findSub (data.drop s) pat = some (j - s) := by
    apply findSub_eq_some
    · rw [occAt_drop]
      have he : s + (j - s) = j := by omega
      rw [he]; exact hocc
    · intro k hk
      rw [occAt_drop]
      exact hmin (s + k) (by omega) (by omega)
  rw [h1]
  have he : j - s + s = j := by omega
  simp [he]

theorem findFrom_some_occAt {data pat : Str} {s j : Nat}
    (h : findFrom data pat s = some j) : s ≤ j ∧ occAt pat data j := by
  unfold findFrom at h
  rcases Option.map_eq_some'.mp h with ⟨i, hi, rfl⟩
  have h2 := findSub_some_occAt hi
  rw [occAt_drop] at h2
  exact ⟨by omega, by simpa [Nat.add_comm] using h2⟩

/-- Prefix fact for take, stated locally to keep a uniform toolkit. -/
theorem takeIsPre (n : Nat) (l : Str) : l.take n <+: l :=
  ⟨l.drop n, l.take_append_drop n⟩

theorem dropIsSuf (n : Nat) (l : Str) : l.drop n <:+ l :=
  ⟨l.take n, l.take_append_drop n⟩

theorem occAt_append_left {pat a : Str} (b : Str) {i : Nat}
    (h : occAt pat a i) : occAt pat (a ++ b) i := by
  unfold occAt at h ⊢
  rw [List.drop_append_eq_append_drop]
  exact h.trans (List.prefix_append _ _)

theorem occAt_append_right (a : Str) {pat b : Str} {i : Nat}
    (h : occAt pat b i) : occAt pat (a ++ b) (a.length + i) := by
  unfold occAt at h ⊢
  rw [List.drop_append]
  exact h

theorem hasOcc_append_left {pat a : Str} (b : Str)
    (h : hasOcc pat a) : hasOcc pat (a ++ b) := by
  rcases h with ⟨i, hi⟩; exact ⟨i, occAt_append_left b hi⟩

theorem hasOcc_append_right (a : Str) {pat b : Str}
    (h : hasOcc pat b) : hasOcc pat (a ++ b) := by
  rcases h with ⟨i, hi⟩; exact ⟨a.length + i, occAt_append_right a hi⟩

theorem hasOcc_of_infix {pat x l : Str} (hx : x <:+: l)
    (h : hasOcc pat x) : hasOcc pat l := by
  rcases hx with ⟨u, v, rfl⟩
  exact hasOcc_append_left v (hasOcc_append_right u h)

/-- Decomposition of an occurrence inside an append: it lies in the left
part, in the right part, or crosses the junction, in which case a
nonempty piece of the pattern is a suffix of the left part and the
nonempty rest of the pattern is a prefix of the right part. -/
theorem occAt_split {pat a b : Str} {i : Nat}
    (h : occAt pat (a ++ b) i) :
    (i + pat.length ≤ a.length ∧ occAt pat a i) ∨
    (a.length ≤ i ∧ occAt pat b (i - a.length)) ∨
    (i < a.length ∧ a.length < i + pat.length ∧
      a.drop i <:+ a ∧ a.drop i <+: pat ∧ a.drop i ≠ [] ∧
      pat.drop (a.length - i) <+: b ∧ pat.drop (a.length - i) ≠ []) := by
  unfold occAt at h
  rw [List.drop_append_eq_append_drop] at h
  by_cases hge : a.length ≤ i
  · right; left
    refine ⟨hge, ?_⟩
    unfold occAt
    have hnil : a.drop i = [] := List.drop_eq_nil_of_le hge
    rw [hnil] at h
    simpa using h
  · push_neg at hge
    have hd : b.drop (i - a.length) = b := by
      have hz : i - a.length = 0 := by omega
      rw [hz]; rfl
    rw [hd] at h
    have hlen : (a.drop i).length = a.length - i := by simp
    by_cases hle : i + pat.length ≤ a.length
    · left
      refine ⟨hle, ?_⟩
      unfold occAt
      have hplen : pat.length ≤ (a.drop i).length := by omega
      have h2 := List.prefix_iff_eq_take.mp h
      rw [List.take_append_of_le_length hplen] at h2
      exact List.prefix_iff_eq_take.mpr h2
    · right; right
      push_neg at hle
      have hlt : (a.drop i).length < pat.length := by omega
      rcases h with ⟨t, ht⟩
      have h1 : a.drop i <+: pat := by
        have e := congrArg (List.take (a.drop i).length) ht
        rw [List.take_append_of_le_length (by omega), List.take_left] at e
        exact List.prefix_iff_eq_take.mpr (by rw [hlen] at e ⊢; exact e.symm)
      have h2 : pat.drop (a.drop i).length ++ t = b := by
        have e := congrArg (List.drop (a.drop i).length) ht
        rw [List.drop_append_of_le_length (by omega), List.drop_left] at e
        exact e
      refine ⟨hge, by omega, dropIsSuf i a, h1, ?_, ?_, ?_⟩
      · intro hnil
        have := congrArg List.length hnil
        simp at this
        omega
      · rw [← hlen]; exact ⟨t, h2⟩
      · intro hnil
        have := congrArg List.length hnil
        simp at this
        omega

/-! ## The env-defaults consistency checker (test-quickstart-env.py) -/

/-- Whitespace stripping from both ends, as in the str.strip method. -/
def pyStrip (l : Str) : Str :=
  ((l.dropWhile isPySpace).reverse.dropWhile isPySpace).reverse

/-- Removal of trailing newline characters, mirroring rstrip with the
newline argument. -/
def pyRstripNl (l : Str) : Str :=
  (l.reverse.dropWhile (fun c => c = '\n')).reverse

/-- Collection phase of the block extractor: once the start marker was
seen, lines are collected until a line stripping to the end marker. -/
def collectAfter (endM : Str) : List Str → List Str
  | [] => []
  | l :: ls => if pyStrip l = endM then [] else pyRstripNl l :: collectAfter endM ls

/-- Scan phase of the block extractor: lines are skipped until one strips
to the start marker. -/
def extractBlockList (lines : List Str) (startM endM : Str) : List Str :=
  match lines with
  | [] => []
  | l :: ls =>
    if pyStrip l = startM then collectAfter endM ls
    else extractBlockList ls startM endM

/-- Error message raised by the block extractor. -/
def blockErrMsg (startM : Str) : Str :=
  "Unable to find block starting with ".data ++
    [Char.ofNat 39] ++ startM ++ [Char.ofNat 39]

/-- Block extraction, mirroring the private extractor of the checker: it
raises exactly when the collected block is the empty list. -/
def extract_block (lines : List Str) (startM endM : Str) :
    Except Str (List Str) :=
  let b := extractBlockList lines startM endM
  if b = [] then Except.error (blockErrMsg startM) else Except.ok b

/-- Lines strictly between the first start-marker line and the next
end-marker line, written from the words of the claim (the collected
lines as the code returns them, i.e. with trailing newlines removed). -/
def blockBetween (lines : List Str) (startM endM : Str) : List Str :=
  match lines with
  | [] => []
  | l :: ls =>
    if pyStrip l = startM then
      (ls.takeWhile (fun x => ¬ (pyStrip x = endM))).map pyRstripNl
    else blockBetween ls startM endM

/-- Placeholder used by the checker when a required key is absent from
the env_defaults mapping. -/
def missLeft : Str := "<missing in env_defaults>".data

/-- Placeholder used by the checker when a required key is absent from
the seeded .env mapping. -/
def missRight : Str := "<missing in test-quickstart .env>".data

/-- Loop of diff_values, carrying the accumulated mismatch list exactly
as the Python loop appends to it. -/
def diffGo (defaults seedEnv : Str → Option Str) :
    List Str → List (Str × Str × Str) → List (Str × Str × Str)
  | [], acc => acc
  | k :: ks, acc =>
    match defaults k, seedEnv k with
    | none, sv => diffGo defaults seedEnv ks (acc ++ [(k, missLeft, sv.getD [])])
    | some dv, none => diffGo defaults seedEnv ks (acc ++ [(k, dv, missRight)])
    | some dv, some sv =>
      if dv = sv then diffGo defaults seedEnv ks acc
      else diffGo defaults seedEnv ks (acc ++ [(k, dv, sv)])

/-- Mismatch collection of the checker over the required keys. -/
def diff_values (defaults seedEnv : Str → Option Str) (keys : List Str) :
    List (Str × Str × Str) :=
  diffGo defaults seedEnv keys []

/-- Mismatch entry for a single key, written as a per-key specification:
none exactly when both mappings carry the key with equal values. -/
def mismatchSpec (defaults seedEnv : Str → Option Str) (k : Str) :
    Option (Str × Str × Str) :=
  match defaults k, seedEnv k with
  | none, sv => some (k, missLeft, sv.getD [])
  | some dv, none => some (k, dv, missRight)
  | some dv, some sv => if dv = sv then none else some (k, dv, sv)

/-- Exit code of the checker process: non-zero exactly on a non-empty
mismatch list, as in the main function. -/
def checkerExit (mismatches : List (Str × Str × Str)) : Nat :=
  if mismatches.isEmpty then 0 else 1

theorem diffGo_spec (defaults seedEnv : Str → Option Str) (ks : List Str)
    (acc : List (Str × Str × Str)) :
    diffGo defaults seedEnv ks acc = acc ++ ks.filterMap (mismatchSpec defaults seedEnv) := by
  induction ks generalizing acc with
  | nil => simp [diffGo]
  | cons k ks ih =>
    have step : diffGo defaults seedEnv (k :: ks) acc =
        diffGo defaults seedEnv ks (acc ++ (mismatchSpec defaults seedEnv k).toList) := by
      rw [diffGo.eq_def]
      cases hd : defaults k with
      | none => simp [mismatchSpec, hd]
      | some dv =>
        cases hs : seedEnv k with
        | none => simp [mismatchSpec, hd, hs]
        | some sv => by_cases he : dv = sv <;> simp [mismatchSpec, hd, hs, he]
    rw [step, ih]
    cases hm : mismatchSpec defaults seedEnv k <;>
      simp [List.filterMap_cons, hm]

theorem collectAfter_eq (eM : Str) (ls : List Str) :
    collectAfter eM ls =
      (ls.takeWhile (fun x => ¬ (pyStrip x = eM))).map pyRstripNl := by
  induction ls with
  | nil => rfl
  | cons x xs ih =>
    unfold collectAfter
    by_cases hx : pyStrip x = eM
    · rw [if_pos hx]; simp [List.takeWhile_cons, hx]
    · rw [if_neg hx]; simp [List.takeWhile_cons, hx, ih]

/-- C7: for every defaults mapping, seed-env mapping and required-key
list, the diff collects exactly one entry for each required key whose
value is missing in either mapping or differs between them, and no entry
for a key carried by both mappings with equal values; the process exit
status is non-zero exactly when the mismatch list is non-empty, and in
particular it is zero on matching inputs. -/
theorem C7_diff_values_exact (defaults seedEnv : Str → Option Str) (keys : List Str) :
    diff_values defaults seedEnv keys = keys.filterMap (mismatchSpec defaults seedEnv) ∧
    (∀ k, mismatchSpec defaults seedEnv k = none ↔
      ∃ v, defaults k = some v ∧ seedEnv k = some v) ∧
    (checkerExit (diff_values defaults seedEnv keys) ≠ 0 ↔
      diff_values defaults seedEnv keys ≠ []) := by
  refine ⟨by simpa [diff_values] using diffGo_spec defaults seedEnv keys [], ?_, ?_⟩
  · intro k
    unfold mismatchSpec
    cases hd : defaults k with
    | none => simp
    | some dv =>
      cases hs : seedEnv k with
      | none => simp
      | some sv =>
        by_cases he : dv = sv
        · subst he; simp
        · simp only [if_neg he]
          constructor
          · intro h; cases h
          · rintro ⟨v, hv1, hv2⟩
            cases hv1; cases hv2
            exact absurd rfl he
  · rcases hl : diff_values defaults seedEnv keys with _ | ⟨x, xs⟩ <;>
      simp [checkerExit]

/-- C8 (amended): block extraction returns the collected lines after the
first line that strips to the start marker, up to but excluding the next
line that strips to the end marker or through the end of the input, and
it raises exactly when this collection is empty. -/
theorem C8_extract_block_amended (lines : List Str) (sM eM : Str) :
    extract_block lines sM eM =
      if blockBetween lines sM eM = [] then Except.error (blockErrMsg sM)
      else Except.ok (blockBetween lines sM eM) := by
  have he : extractBlockList lines sM eM = blockBetween lines sM eM := by
    induction lines with
    | nil => rfl
    | cons l ls ih =>
      unfold extractBlockList blockBetween
      by_cases h : pyStrip l = sM
      · rw [if_pos h, if_pos h]
        exact collectAfter_eq eM ls
      · rw [if_neg h, if_neg h]; exact ih
  unfold extract_block
  rw [he]

/-- C8 counterexample: when the start-marker line is immediately followed
by the end-marker line, the block of lines strictly between them exists
and is empty, but the extractor raises instead of returning it, so the
claimed failure condition (only when no block is found) is wrong. -/
theorem C8_counterexample :
    blockBetween ["begin".data, "done".data] "begin".data "done".data = [] ∧
    extract_block ["begin".data, "done".data] "begin".data "done".data =
      Except.error (blockErrMsg "begin".data) ∧
    extract_block ["begin".data, "done".data] "begin".data "done".data ≠
      Except.ok (blockBetween ["begin".data, "done".data] "begin".data "done".data) := by
  refine ⟨rfl, rfl, ?_⟩
  intro h
  rw [show extract_block ["begin".data, "done".data] "begin".data "done".data =
    Except.error (blockErrMsg "begin".data) from rfl] at h
  exact Except.noConfusion h

/-! ## The image-tag version gate (render_ome_config.py) -/

/-- Leading run of ASCII digits. -/
def digitsTake (l : Str) : Str := l.takeWhile (fun c => c.isDigit)

/-- Numeric value of a digit string, as the int constructor computes it. -/
def digitsVal (ds : Str) : Nat := ds.foldl (fun a c => a * 10 + (c.toNat - 48)) 0

/-- Major, minor and patch components of a leading semver triple, the
anchored regex match of digits separated by dots. -/
def semverCore (l : Str) : Option (Nat × Nat × Nat) :=
  let d1 := digitsTake l
  if d1.isEmpty then none else
  match l.drop d1.length with
  | '.' :: r1 =>
    let d2 := digitsTake r1
    if d2.isEmpty then none else
    match r1.drop d2.length with
    | '.' :: r2 =>
      let d3 := digitsTake r2
      if d3.isEmpty then none
      else some (digitsVal d1, digitsVal d2, digitsVal d3)
    | _ => none
  | _ => none

/-- Anchored match of the optionally v-prefixed semver triple; when the
string starts with v the prefix is consumed, and backtracking to the
unconsumed alternative cannot succeed because v is not a digit. -/
def semverPrefixMatch (s : Str) : Option (Nat × Nat × Nat) :=
  match s with
  | 'v' :: r => semverCore r
  | _ => semverCore s

/-- Version gate for managers authentication: absent tag means supported;
unparsable tag means unsupported; a parsed version below 0.16 means
unsupported. -/
def managers_authentication_supported : Option Str → Bool
  | none => true
  | some s =>
    match semverPrefixMatch s with
    | none => false
    | some (mj, mn, _) => if mj = 0 ∧ mn < 16 then false else true

/-! ## The template renderer (render_ome_config.py): core string rewrites -/

/-- Removal of a literal from the front of a string. -/
def stripLit : Str → Str → Option Str
  | [], l => some l
  | _ :: _, [] => none
  | p :: ps, d :: l => if d = p then stripLit ps l else none

/-- Length of the leading whitespace run. -/
def wsCount : Str → Nat
  | [] => 0
  | c :: r => if isPySpace c then wsCount r + 1 else 0

/-- Opening tag text for a tag name. -/
def openTagOf (tag : Str) : Str := '<' :: (tag ++ ['>'])

/-- Closing tag text for a tag name. -/
def closeTagOf (tag : Str) : Str := '<' :: '/' :: (tag ++ ['>'])

/-- Replacement of the content of the first tag occurrence: the first
opening tag is located, then the first closing tag at or after it, and
the region between them is replaced; a missing tag is a fatal error. -/
def replace_tag_content (data tag value : Str) : Except Str Str :=
  match findSub data (openTagOf tag) with
  | none => Except.error ("missing ".data ++ openTagOf tag ++ " in template".data)
  | some start =>
    match findFrom data (closeTagOf tag) start with
    | none => Except.error ("missing ".data ++ closeTagOf tag ++ " in template".data)
    | some e =>
      Except.ok (data.take (start + (openTagOf tag).length) ++ value ++ data.drop e)

/-- Removal of the first whole tag block together with the surrounding
whitespace runs, substituting a single newline; without a match the
document is returned unchanged.  This mirrors the single lazy regex
substitution of the source: the leftmost viable opening tag, the first
closing tag after it, and the maximal whitespace runs on both sides. -/
def remove_first_tag_block (data tag : Str) : Str :=
  match findSub data (openTagOf tag) with
  | none => data
  | some i =>
    match findFrom data (closeTagOf tag) (i + (openTagOf tag).length) with
    | none => data
    | some j =>
      let ce := j + (closeTagOf tag).length
      let lo := i - wsCount (data.take i).reverse
      let hi := ce + wsCount (data.drop ce)
      data.take lo ++ ['\n'] ++ data.drop hi

/-- Escape of one character for embedding in tagged text, with the two
extra quote entities the renderer passes to the escape helper. -/
def escapeChar (c : Char) : Str :=
  if c = '&' then "&amp;".data
  else if c = '>' then "&gt;".data
  else if c = '<' then "&lt;".data
  else if c = Char.ofNat 39 then "&apos;".data
  else if c = Char.ofNat 34 then "&quot;".data
  else [c]

/-- Escape of a whole value, as the renderer applies it to every
substituted parameter. -/
def xml_escape (s : Str) : Str := s.flatMap escapeChar

/-- Matcher for one legacy spelled bind tag at the head of the input:
an angle bracket (with a slash for the closing form), optional
whitespace, the legacy name, optional whitespace and the closing angle
bracket; the remainder after the match is returned. -/
def matchServerBind (closing : Bool) (l : Str) : Option Str :=
  (stripLit (if closing then "</".data else "<".data) l).bind fun r1 =>
  (stripLit "Server.bind".data (r1.drop (wsCount r1))).bind fun r3 =>
  match r3.drop (wsCount r3) with
  | '>' :: r5 => some r5
  | _ => none

/-- Fuel-driven scanner for the global legacy-spelling substitution;
the fuel is instantiated with the input length, which always suffices. -/
def subSBFuel (closing : Bool) (repl : Str) : Nat → Str → Str
  | 0, l => l
  | _ + 1, [] => []
  | fuel + 1, c :: rest =>
    match matchServerBind closing (c :: rest) with
    | some r => repl ++ subSBFuel closing repl fuel r
    | none => c :: subSBFuel closing repl fuel rest

/-- Global substitution of one legacy spelled bind tag form, mirroring a
left-to-right non-overlapping regex substitution. -/
def subServerBind (closing : Bool) (repl l : Str) : Str :=
  subSBFuel closing repl l.length l

/-- Normalisation of legacy bind spellings, opening form first and then
the closing form, as the renderer performs before any other rewrite. -/
def normalizeServerBind (text : Str) : Str :=
  subServerBind true "</Bind>".data (subServerBind false "<Bind>".data text)

/-- Matcher for one all-occurrences tag triple at the head of the input:
the opening tag, a maximal run of content free of angle brackets, and
the closing tag; the content and the remainder are returned. -/
def matchTagTriple (tag : Str) (l : Str) : Option (Str × Str) :=
  (stripLit (openTagOf tag) l).bind fun r1 =>
  let content := r1.takeWhile (fun c => !(c = '<' : Bool))
  (stripLit (closeTagOf tag) (r1.drop content.length)).map fun r2 => (content, r2)

/-- Fuel-driven scanner replacing every tag triple and counting the
replacements, mirroring the counting regex substitution. -/
def subnAllFuel (tag value : Str) : Nat → Str → (Str × Nat)
  | 0, l => (l, 0)
  | _ + 1, [] => ([], 0)
  | fuel + 1, c :: rest =>
    match matchTagTriple tag (c :: rest) with
    | some (_, r) =>
      let p := subnAllFuel tag value fuel r
      (openTagOf tag ++ value ++ closeTagOf tag ++ p.1, p.2 + 1)
    | none =>
      let p := subnAllFuel tag value fuel rest
      (c :: p.1, p.2)

/-- Replacement of every tag occurrence whose content is bracket-free,
with the number of replacements made. -/
def subnAllTag (tag value l : Str) : Str × Nat := subnAllFuel tag value l.length l

/-- Replacement of all tag occurrences; with the required flag set and
no occurrence found the operation is a fatal error. -/
def replace_all_tag_content (data tag value : Str) (required : Bool) : Except Str Str :=
  let p := subnAllTag tag value data
  if p.2 = 0 ∧ required = true then
    Except.error ("missing ".data ++ openTagOf tag ++ " in template".data)
  else Except.ok p.1

/-- Non-required all-occurrences replacement, the form the legacy
control-module rewrite uses; it never fails. -/
def replace_all_optional (data tag value : Str) : Str := (subnAllTag tag value data).1

theorem replace_all_not_required (data tag value : Str) :
    replace_all_tag_content data tag value false =
      Except.ok (replace_all_optional data tag value) := by
  unfold replace_all_tag_content replace_all_optional
  simp

/-- Matcher for one lazy block at the head of the input: the opening
literal followed by the shortest content reaching the closing literal;
the content and the remainder after the close are returned. -/
def matchLazyBlock (opTag clTag : Str) (l : Str) : Option (Str × Str) :=
  (stripLit opTag l).bind fun r1 =>
  (findSub r1 clTag).map fun k => (r1.take k, r1.drop (k + clTag.length))

/-- Opening signalling wrapper literal. -/
def sigOpen : Str := "<Signalling>".data

/-- Closing signalling wrapper literal. -/
def sigClose : Str := "</Signalling>".data

/-- Fuel-driven scanner rewriting the port pair inside every signalling
wrapper; a missing port inside a wrapper is a fatal error, as the
per-match rewriter of the source raises through the substitution. -/
def subnSigFuel (port tlsPort : Str) : Nat → Str → Except Str (Str × Nat)
  | 0, l => Except.ok (l, 0)
  | _ + 1, [] => Except.ok ([], 0)
  | fuel + 1, c :: rest =>
    match matchLazyBlock sigOpen sigClose (c :: rest) with
    | some (inner, r) => do
      let i1 ← replace_tag_content inner "Port".data port
      let i2 ← replace_tag_content i1 "TLSPort".data tlsPort
      let p ← subnSigFuel port tlsPort fuel r
      Except.ok (sigOpen ++ i2 ++ sigClose ++ p.1, p.2 + 1)
    | none => do
      let p ← subnSigFuel port tlsPort fuel rest
      Except.ok (c :: p.1, p.2)

/-- Counting substitution over the signalling wrappers. -/
def subnSignalling (port tlsPort l : Str) : Except Str (Str × Nat) :=
  subnSigFuel port tlsPort l.length l

/-- Backward search for the last occurrence index not exceeding the
given bound, mirroring str.rfind on a prefix slice. -/
def rfindAux (data pat : Str) : Nat → Option Nat
  | 0 => if pat.isPrefixOf data then some 0 else none
  | k + 1 =>
    if pat.isPrefixOf (data.drop (k + 1)) then some (k + 1)
    else rfindAux data pat k

/-- Index of the last occurrence of pat in data, mirroring str.rfind. -/
def rfindSub (data pat : Str) : Option Nat := rfindAux data pat data.length

/-- Head matcher for the root server element: the literal server opening,
everything up to the first closing angle bracket, then a greedy body
reaching the last server closing tag.  The relative body span is
returned. -/
def serverHeadSplit (l : Str) : Option (Nat × Nat) :=
  (stripLit "<Server".data l).bind fun r1 =>
  (findSub r1 ['>']).bind fun g =>
  let bodyStart := "<Server".data.length + g + 1
  (rfindSub (l.drop bodyStart) "</Server>".data).map fun k => (bodyStart, bodyStart + k)

/-- Scan for the leftmost root server element; the absolute body span is
returned. -/
def serverScan : Str → Option (Nat × Nat)
  | [] => none
  | c :: rest =>
    match serverHeadSplit (c :: rest) with
    | some p => some p
    | none => (serverScan rest).map fun p => (p.1 + 1, p.2 + 1)

/-- Search result for the root server element of a template. -/
def serverSplit (text : Str) : Option (Nat × Nat) := serverScan text

/-- Content span of the first bind section: the first bind opening tag
and the first bind closing tag after it, lazily as in the source. -/
def bindSplit (body : Str) : Option (Nat × Nat) :=
  (findSub body "<Bind>".data).bind fun i =>
  (findFrom body "</Bind>".data (i + 6)).map fun j => (i + 6, j)

/-- Address selection inside the bind body: the modern tag is preferred,
the legacy tag is the fallback, and with neither present the body is
left unchanged. -/
def bindAddressStep (bindBody address : Str) : Except Str Str :=
  if containsSub bindBody (openTagOf "Address".data) then
    replace_tag_content bindBody "Address".data address
  else if containsSub bindBody (openTagOf "IP".data) then
    replace_tag_content bindBody "IP".data address
  else Except.ok bindBody

/-- Port rewriting inside the bind body: every signalling wrapper is
rewritten when present, and otherwise the first port and TLS-port tags
are rewritten directly. -/
def bindPortsStep (bindBody port tlsPort : Str) : Except Str Str := do
  let p ← subnSignalling port tlsPort bindBody
  if p.2 = 0 then do
    let b1 ← replace_tag_content p.1 "Port".data port
    replace_tag_content b1 "TLSPort".data tlsPort
  else Except.ok p.1

/-- Rewrite of the server-level bind configuration: the root server
element and its first bind section are located, the address field and
the port fields are rewritten, and the result is spliced back. -/
def replaceRootBindings (text address port tlsPort : Str) : Except Str Str :=
  match serverSplit text with
  | none => Except.error "missing <Server> root element in template".data
  | some (s, e) =>
    let body := (text.take e).drop s
    match bindSplit body with
    | none => Except.error "missing <Bind> section under <Server> in template".data
    | some (bi, be) => do
      let bb2 ← bindAddressStep ((body.take be).drop bi) address
      let bb3 ← bindPortsStep bb2 port tlsPort
      Except.ok (text.take s ++ (body.take bi ++ bb3 ++ body.drop be) ++ text.drop e)

/-- Opening tag of the root-level IP field. -/
def ipOpen : Str := "<IP>".data

/-- Closing tag of the root-level IP field. -/
def ipClose : Str := "</IP>".data

/-- Backward-search test for an unclosed opening tag in a prefix slice:
an opening occurrence exists and the last closing occurrence, if any,
precedes the last opening occurrence. -/
def unclosedIn (t opT clT : Str) : Bool :=
  match rfindSub t opT, rfindSub t clT with
  | none, _ => false
  | some _, none => true
  | some o, some c => decide (c < o)

/-- Skip test of the root-IP scan at a content position: the position
lies after an unclosed bind opening or an unclosed virtual-hosts
opening. -/
def skipAt (body : Str) (p : Nat) : Bool :=
  unclosedIn (body.take p) "<Bind>".data "</Bind>".data ||
  unclosedIn (body.take p) "<VirtualHosts>".data "</VirtualHosts>".data

/-- Fuel-driven scan over the IP fields of the server body: nested
occurrences are skipped, the first non-nested occurrence has its content
replaced and the scan returns at once; with no acceptable occurrence the
scan reports none. -/
def rootIpFuel (body ip : Str) : Nat → Str → Nat → Option Str
  | 0, _, _ => none
  | _ + 1, [], _ => none
  | fuel + 1, c :: rest, off =>
    match matchLazyBlock ipOpen ipClose (c :: rest) with
    | some (inner, r) =>
      let ipStart := off + 4
      let ipEnd := ipStart + inner.length
      if skipAt body ipStart then rootIpFuel body ip fuel r (ipEnd + 5)
      else some (body.take ipStart ++ ip ++ body.drop ipEnd)
    | none => rootIpFuel body ip fuel rest (off + 1)

/-- Rewrite of the root-level IP field: the first IP occurrence directly
under the server element is replaced; occurrences inside bind or
virtual-hosts sections are skipped, and absence leaves the document
unchanged. -/
def replaceRootIp (text ip : Str) : Except Str Str :=
  match serverSplit text with
  | none => Except.error "missing <Server> root element in template".data
  | some (s, e) =>
    let body := (text.take e).drop s
    match rootIpFuel body ip body.length body 0 with
    | some newBody => Except.ok (text.take s ++ newBody ++ text.drop e)
    | none => Except.ok text

/-- Full span of the first legacy control module, lazily matched. -/
def controlSplit (text : Str) : Option (Nat × Nat) :=
  (findSub text "<Control>".data).bind fun i =>
  (findFrom text "</Control>".data (i + 9)).map fun j => (i, j + 10)

/-- Full span of the first plain server element inside the control
module, lazily matched. -/
def innerServerSplit (cb : Str) : Option (Nat × Nat) :=
  (findSub cb "<Server>".data).bind fun i =>
  (findFrom cb "</Server>".data (i + 8)).map fun j => (i, j + 9)

/-- Legacy rewrite of the control-module bind fields: inside the control
module server element, every bind, IP and address tag is rewritten when
present, none of them being required; with no control module or no
nested server element the document is returned unchanged. -/
def scopedReplaceControlBindings (text bind : Str) : Str :=
  match controlSplit text with
  | none => text
  | some (cs, ce) =>
    let cb := (text.take ce).drop cs
    match innerServerSplit cb with
    | none => text
    | some (ss, se) =>
      let sb := (cb.take se).drop ss
      let sb1 := if containsSub sb (openTagOf "Bind".data) then
        replace_all_optional sb "Bind".data bind else sb
      let sb2 := if containsSub sb1 (openTagOf "IP".data) then
        replace_all_optional sb1 "IP".data bind else sb1
      let sb3 := if containsSub sb2 (openTagOf "Address".data) then
        replace_all_optional sb2 "Address".data bind else sb2
      text.take cs ++ (cb.take ss ++ sb3 ++ cb.drop se) ++ text.drop ce

/-- Stages of the renderer before the authentication branch: legacy
spelling normalisation, the bind rewrite, the root-IP rewrite, the
legacy control rewrite, and the two required credential rewrites. -/
def renderPre (text bind serverIp port tlsPort username password : Str) :
    Except Str Str := do
  let t2 ← replaceRootBindings (normalizeServerBind text)
    (xml_escape bind) (xml_escape port) (xml_escape tlsPort)
  let t3 ← replaceRootIp t2 (xml_escape serverIp)
  let t5 ← replace_tag_content (scopedReplaceControlBindings t3 (xml_escape bind))
    "ID".data (xml_escape username)
  replace_tag_content t5 "Password".data (xml_escape password)

/-- Authentication branch of the renderer: without managers
authentication both blocks are removed; otherwise a non-empty token is
written into the token tag, and an empty token removes the token
block. -/
def authStage (text apiToken : Str) (includeManagersAuth : Bool) : Except Str Str :=
  if includeManagersAuth = false then
    Except.ok (remove_first_tag_block
      (remove_first_tag_block text "AccessTokens".data) "Authentication".data)
  else if apiToken ≠ [] then
    replace_tag_content text "AccessToken".data (xml_escape apiToken)
  else
    Except.ok (remove_first_tag_block text "AccessTokens".data)

/-- Whole rendering pipeline over the template text; an ok result is the
text written to the output file, and an error result models the fatal
abort raised before any write. -/
def render (template bind serverIp port tlsPort username password apiToken : Str)
    (includeManagersAuth : Bool) : Except Str Str := do
  let t ← renderPre template bind serverIp port tlsPort username password
  authStage t apiToken includeManagersAuth

/-- Command-line entry logic: the public IP defaults to the bind address,
the version gate decides managers authentication, the opt-out flag can
disable it, and an unsupported version blanks the token. -/
def mainRender (template bind : Str) (serverIpOpt : Option Str)
    (username password apiToken port tlsPort : Str)
    (omitManagersAuth : Bool) (imageTag : Option Str) : Except Str Str :=
  let serverIp := serverIpOpt.getD bind
  let supported := managers_authentication_supported imageTag
  let includeAuth := supported && !omitManagersAuth
  let token := if supported then apiToken else []
  render template bind serverIp port tlsPort username password token includeAuth

/-! ## Toolkit: decompositions and pattern bookkeeping -/

theorem stripLit_eq {p l r : Str} (h : stripLit p l = some r) : l = p ++ r := by
  induction p generalizing l with
  | nil => cases h; rfl
  | cons a ps ih =>
    cases l with
    | nil => cases h
    | cons d l2 =>
      unfold stripLit at h
      by_cases hd : d = a
      · rw [if_pos hd] at h; subst hd; rw [List.cons_append, ← ih h]
      · rw [if_neg hd] at h; cases h

theorem stripLit_all (p l : Str) : stripLit p (p ++ l) = some l := by
  induction p with
  | nil => rfl
  | cons a ps ih =>
    show (if a = a then stripLit ps (ps ++ l) else none) = some l
    rw [if_pos rfl]
    exact ih

/-- Head condition for a decomposition: the first part is all whitespace
and the second starts with a non-whitespace character or is empty. -/
def headNotWs (l : Str) : Prop := ∀ c, l.head? = some c → isPySpace c = false

instance (l : Str) : Decidable (headNotWs l) := by
  unfold headNotWs
  cases l with
  | nil => exact isTrue (by intro c hc; cases hc)
  | cons a t =>
    by_cases h : isPySpace a = false
    · exact isTrue (by intro c hc; cases hc; exact h)
    · exact isFalse (by intro hh; exact h (hh a rfl))

theorem wsCount_exact {ws rest : Str} (hws : ∀ c ∈ ws, isPySpace c = true)
    (hr : headNotWs rest) : wsCount (ws ++ rest) = ws.length := by
  induction ws with
  | nil =>
    cases rest with
    | nil => rfl
    | cons c t =>
      show (if isPySpace c = true then wsCount t + 1 else 0) = 0
      rw [hr c rfl]
      simp
  | cons a ws2 ih =>
    show (if isPySpace a = true then wsCount (ws2 ++ rest) + 1 else 0) = (a :: ws2).length
    rw [hws a (List.mem_cons_self _ _)]
    simp [ih (fun c hc => hws c (List.mem_cons_of_mem _ hc))]

/-- Patterns of interest: a tag-shaped text beginning with an opening
angle bracket, with no further opening bracket, a closing bracket only
at the end, and no whitespace or newline characters. -/
def patGood (pat : Str) : Prop :=
  pat.head? = some '<' ∧ '<' ∉ pat.tail ∧ '>' ∉ pat.take (pat.length - 1) ∧
  '\n' ∉ pat ∧ ∀ c ∈ pat, isPySpace c = false

instance (pat : Str) : Decidable (patGood pat) := by
  unfold patGood; infer_instance

theorem head?_mem {l : Str} {c : Char} (h : l.head? = some c) : c ∈ l := by
  cases l with
  | nil => cases h
  | cons a t => cases h; exact List.mem_cons_self _ _

theorem mem_of_mem_drop {l : Str} {n : Nat} {c : Char} (h : c ∈ l.drop n) : c ∈ l :=
  List.drop_subset n l h

theorem occAt_head {pat l : Str} {i : Nat} {c : Char} (h : occAt pat l i)
    (hc : pat.head? = some c) : (l.drop i).head? = some c := by
  rcases h with ⟨t, ht⟩
  rw [← ht]
  cases pat with
  | nil => cases hc
  | cons a ps => cases hc; rfl

theorem pre_head {s z : Str} {c : Char} (hp : s <+: z) (hne : s ≠ [])
    (hz : z.head? = some c) : s.head? = some c := by
  rcases hp with ⟨t, ht⟩
  cases s with
  | nil => exact absurd rfl hne
  | cons a s2 =>
    rw [← ht] at hz
    simpa using hz

theorem getLast?_mem {l : Str} {c : Char} (h : l.getLast? = some c) : c ∈ l := by
  induction l with
  | nil => cases h
  | cons a t ih =>
    cases t with
    | nil => cases h; exact List.mem_cons_self _ _
    | cons b t2 =>
      rw [List.getLast?_cons_cons] at h
      exact List.mem_cons_of_mem _ (ih h)

theorem suf_getLast {s u : Str} {c : Char} (hs : s <:+ u) (hne : s ≠ [])
    (hu : u.getLast? = some c) : s.getLast? = some c := by
  rcases hs with ⟨t, ht⟩
  rw [← ht, List.getLast?_append] at hu
  cases hsl : s.getLast? with
  | none =>
    rw [List.getLast?_eq_none_iff] at hsl
    exact absurd hsl hne
  | some x =>
    rw [hsl] at hu
    simpa using hu

/-- Kill: a pattern with bracket head cannot occur inside bracket-free
text. -/
theorem no_occ_in_noLt {pat v : Str} (hpat : pat.head? = some '<') (hv : noLt v) :
    ¬ hasOcc pat v := by
  rintro ⟨i, hi⟩
  exact hv '<' (mem_of_mem_drop (head?_mem (occAt_head hi hpat))) rfl

/-- Kill: a nonempty prefix of a bracket-headed pattern cannot be a
suffix of bracket-free text. -/
theorem no_cross_from_noLt {pat v s : Str} (hpat : pat.head? = some '<') (hv : noLt v)
    (hs : s <:+ v) (hp : s <+: pat) (hne : s ≠ []) : False := by
  have hh := pre_head hp hne hpat
  exact hv '<' (hs.subset (head?_mem hh)) rfl

/-- Kill: the rest of a pattern after a nonempty cut has a non-bracket
head, so it cannot be a prefix of text starting with a bracket. -/
theorem no_cross_into_lt {pat z : Str} {m : Nat} (hlt : '<' ∉ pat.tail)
    (hm : 0 < m) (ht : pat.drop m <+: z) (hne : pat.drop m ≠ [])
    (hz : z.head? = some '<') : False := by
  have hh := pre_head ht hne hz
  have h1 : '<' ∈ pat.drop m := head?_mem hh
  have h2 : pat.drop m = pat.tail.drop (m - 1) := by
    rw [← List.drop_one, List.drop_drop]
    congr 1
    omega
  rw [h2] at h1
  exact hlt (mem_of_mem_drop h1)

/-- Kill: a proper nonempty prefix of a good pattern cannot be a suffix
of text ending with the closing bracket. -/
theorem no_cross_from_gtEnd {pat u s : Str} (hgt : '>' ∉ pat.take (pat.length - 1))
    (hu : u.getLast? = some '>') (hs : s <:+ u) (hp : s <+: pat) (hne : s ≠ [])
    (hproper : s.length < pat.length) : False := by
  have hl : s.getLast? = some '>' := suf_getLast hs hne hu
  have hst : s = pat.take s.length := List.prefix_iff_eq_take.mp hp
  have hmem : '>' ∈ s := getLast?_mem hl
  apply hgt
  rw [hst] at hmem
  have heq : pat.take s.length = (pat.take (pat.length - 1)).take s.length := by
    rw [List.take_take]
    congr 1
    omega
  rw [heq] at hmem
  exact List.take_subset _ _ hmem

/-- Elimination of an occurrence over an append into the three cases. -/
theorem hasOcc_append_elim {pat a b : Str} (h : hasOcc pat (a ++ b)) :
    hasOcc pat a ∨ hasOcc pat b ∨
    ∃ s t, s ++ t = pat ∧ s ≠ [] ∧ t ≠ [] ∧ s <:+ a ∧ t <+: b ∧
      s.length < pat.length := by
  rcases h with ⟨i, hi⟩
  rcases occAt_split hi with ⟨_, h1⟩ | ⟨_, h1⟩ | ⟨hi1, hi2, hsuf, hpre, hne, htpre, htne⟩
  · exact Or.inl ⟨i, h1⟩
  · exact Or.inr (Or.inl ⟨_, h1⟩)
  · right; right
    have hlen : (a.drop i).length = a.length - i := by simp
    have hds : a.drop i = pat.take (a.length - i) := by
      have h2 := List.prefix_iff_eq_take.mp hpre
      rw [h2, hlen]
    refine ⟨a.drop i, pat.drop (a.length - i), ?_, hne, htne, hsuf, htpre, ?_⟩
    · rw [hds, List.take_append_drop]
    · omega

/-- Values free of whitespace, bracket-head and pattern overlap on the
right: the rest of a good pattern cannot begin at a whitespace
character. -/
theorem no_cross_into_ws {pat z : Str} {m : Nat}
    (hws : ∀ c ∈ pat, isPySpace c = false)
    (ht : pat.drop m <+: z) (hne : pat.drop m ≠ [])
    {c : Char} (hz : z.head? = some c) (hc : isPySpace c = true) : False := by
  have hh := pre_head ht hne hz
  have h1 : c ∈ pat := mem_of_mem_drop (head?_mem hh)
  rw [hws c h1] at hc
  cases hc

/-- Escaped values contain no opening bracket. -/
theorem escapeChar_noLt (c : Char) : noLt (escapeChar c) := by
  unfold escapeChar
  split_ifs with h1 h2 h3 h4 h5
  · decide
  · decide
  · decide
  · decide
  · decide
  · intro ch hch
    have : ch = c := by simpa using hch
    subst this
    exact h3

theorem xml_escape_noLt (s : Str) : noLt (xml_escape s) := by
  induction s with
  | nil => intro c hc; simp [xml_escape] at hc
  | cons a t ih =>
    intro c hc
    unfold xml_escape at hc
    rw [List.flatMap_cons] at hc
    rcases List.mem_append.mp hc with h | h
    · exact escapeChar_noLt a c h
    · exact ih c h

/-! ## Characterisation of the first-occurrence tag rewrite -/

/-- Exact effect of replace_tag_content on a decomposed template: with
the opening tag first occurring after the prefix and the closing tag
first occurring (from the opening position on) after the content, the
rewrite replaces exactly the content and the rest is returned
byte-identical. -/
theorem replace_tag_content_eq (tag a x b value : Str)
    (hopen : ∀ k, k < a.length →
      ¬ occAt (openTagOf tag) (a ++ openTagOf tag ++ x ++ closeTagOf tag ++ b) k)
    (hclose : ∀ k, k < a.length + (openTagOf tag).length + x.length →
      a.length ≤ k →
      ¬ occAt (closeTagOf tag) (a ++ openTagOf tag ++ x ++ closeTagOf tag ++ b) k) :
    replace_tag_content (a ++ openTagOf tag ++ x ++ closeTagOf tag ++ b) tag value =
      Except.ok (a ++ openTagOf tag ++ value ++ closeTagOf tag ++ b) := by
  set D := a ++ openTagOf tag ++ x ++ closeTagOf tag ++ b with hD
  have hdropA : D.drop a.length = openTagOf tag ++ (x ++ (closeTagOf tag ++ b)) := by
    rw [show D = a ++ (openTagOf tag ++ (x ++ (closeTagOf tag ++ b))) from by
      rw [hD]; simp [List.append_assoc]]
    exact List.drop_left _ _
  have ho : occAt (openTagOf tag) D a.length := by
    unfold occAt
    rw [hdropA]
    exact List.prefix_append _ _
  have hfind : findSub D (openTagOf tag) = some a.length :=
    findSub_eq_some ho (fun k hk => hopen k hk)
  have hdropC : D.drop (a.length + (openTagOf tag).length + x.length) =
      closeTagOf tag ++ b := by
    rw [show D = ((a ++ openTagOf tag) ++ x) ++ (closeTagOf tag ++ b) from by
      rw [hD]; simp [List.append_assoc]]
    refine List.drop_left' ?_
    simp
    omega
  have hc : occAt (closeTagOf tag) D
      (a.length + (openTagOf tag).length + x.length) := by
    unfold occAt
    rw [hdropC]
    exact List.prefix_append _ _
  have hfindc : findFrom D (closeTagOf tag) a.length =
      some (a.length + (openTagOf tag).length + x.length) := by
    refine findFrom_eq_some (by omega) hc ?_
    intro k hk1 hk2
    exact hclose k hk2 hk1
  unfold replace_tag_content
  simp only [hfind, hfindc]
  have htake : D.take (a.length + (openTagOf tag).length) = a ++ openTagOf tag := by
    rw [show D = (a ++ openTagOf tag) ++ (x ++ (closeTagOf tag ++ b)) from by
      rw [hD]; simp [List.append_assoc]]
    refine List.take_left' ?_
    simp
  rw [htake, hdropC]
  simp [List.append_assoc]

/-- C9: the credential rewrite applied by the renderer to the ID and
Password tags replaces the content of only the first occurrence of the
tag.  With the opening tag first occurring after the prefix a and the
closing tag first occurring after the content x, the output keeps the
prefix a and the whole suffix b byte-identical, so every later
occurrence of the tag inside b is untouched. -/
theorem C9_credential_rewrite_first_only (tag a x b value : Str)
    (htag : tag = "ID".data ∨ tag = "Password".data)
    (hopen : ∀ k, k < a.length →
      ¬ occAt (openTagOf tag) (a ++ openTagOf tag ++ x ++ closeTagOf tag ++ b) k)
    (hclose : ∀ k, k < a.length + (openTagOf tag).length + x.length →
      a.length ≤ k →
      ¬ occAt (closeTagOf tag) (a ++ openTagOf tag ++ x ++ closeTagOf tag ++ b) k) :
    replace_tag_content (a ++ openTagOf tag ++ x ++ closeTagOf tag ++ b) tag value =
      Except.ok (a ++ openTagOf tag ++ value ++ closeTagOf tag ++ b) :=
  replace_tag_content_eq tag a x b value hopen hclose

/-- Witness for C9 at a template with two ID tags: the first is rewritten
and the second stays byte-identical. -/
theorem C9_credential_rewrite_first_only_witness :
    replace_tag_content
      ("<q>".data ++ openTagOf "ID".data ++ "u".data ++ closeTagOf "ID".data ++
        "<ID>v</ID>".data) "ID".data "NEW".data =
      Except.ok ("<q>".data ++ openTagOf "ID".data ++ "NEW".data ++
        closeTagOf "ID".data ++ "<ID>v</ID>".data) :=
  C9_credential_rewrite_first_only "ID".data "<q>".data "u".data "<ID>v</ID>".data
    "NEW".data (Or.inl rfl) (by decide) (by decide)

/-! ## Characterisation of the block removal -/

/-- Last-character condition for a decomposition part: empty or ending
in a non-whitespace character. -/
def lastNotWs (l : Str) : Prop := ∀ c, l.getLast? = some c → isPySpace c = false

instance (l : Str) : Decidable (lastNotWs l) := by
  cases h : l.getLast? with
  | none => exact isTrue (by intro c hc; rw [h] at hc; cases hc)
  | some x =>
    by_cases hx : isPySpace x = false
    · exact isTrue (by intro c hc; rw [h] at hc; cases hc; exact hx)
    · exact isFalse (by intro hh; exact hx (hh x h))

theorem cross_head_mem {pat s t z : Str} {c : Char} (hst : s ++ t = pat)
    (htne : t ≠ []) (htp : t <+: z) (hz : z.head? = some c) : c ∈ pat := by
  have hh := pre_head htp htne hz
  rw [← hst]
  exact List.mem_append_right s (head?_mem hh)

theorem cross_head_mem_tail {pat s t z : Str} {c : Char} (hst : s ++ t = pat)
    (hsne : s ≠ []) (htne : t ≠ []) (htp : t <+: z) (hz : z.head? = some c) :
    c ∈ pat.tail := by
  have hh := pre_head htp htne hz
  have hct : c ∈ t := head?_mem hh
  cases s with
  | nil => exact absurd rfl hsne
  | cons a s2 =>
    have hv3 : pat.tail = s2 ++ t := by rw [← hst]; rfl
    rw [hv3]
    exact List.mem_append_right s2 hct

/-- Exact effect of remove_first_tag_block on a decomposed document with
a first block surrounded by maximal whitespace runs: the block and the
runs collapse to a single newline and the rest is returned
byte-identical. -/
theorem remove_first_tag_block_eq (tag a ws1 x ws2 b : Str)
    (hws1 : ∀ c ∈ ws1, isPySpace c = true)
    (hws2 : ∀ c ∈ ws2, isPySpace c = true)
    (ha : lastNotWs a) (hb : headNotWs b)
    (hopen : ∀ k, k < a.length + ws1.length →
      ¬ occAt (openTagOf tag)
        (a ++ ws1 ++ openTagOf tag ++ x ++ closeTagOf tag ++ ws2 ++ b) k)
    (hclose : ∀ k,
      k < a.length + ws1.length + (openTagOf tag).length + x.length →
      a.length + ws1.length + (openTagOf tag).length ≤ k →
      ¬ occAt (closeTagOf tag)
        (a ++ ws1 ++ openTagOf tag ++ x ++ closeTagOf tag ++ ws2 ++ b) k) :
    remove_first_tag_block
      (a ++ ws1 ++ openTagOf tag ++ x ++ closeTagOf tag ++ ws2 ++ b) tag =
      a ++ '\n' :: b := by
  set D := a ++ ws1 ++ openTagOf tag ++ x ++ closeTagOf tag ++ ws2 ++ b with hD
  have hdropO : D.drop (a.length + ws1.length) =
      openTagOf tag ++ (x ++ (closeTagOf tag ++ (ws2 ++ b))) := by
    rw [show D = (a ++ ws1) ++
        (openTagOf tag ++ (x ++ (closeTagOf tag ++ (ws2 ++ b)))) from by
      rw [hD]; simp [List.append_assoc]]
    refine List.drop_left' ?_
    simp
  have ho : occAt (openTagOf tag) D (a.length + ws1.length) := by
    unfold occAt
    rw [hdropO]
    exact List.prefix_append _ _
  have hfind : findSub D (openTagOf tag) = some (a.length + ws1.length) :=
    findSub_eq_some ho (fun k hk => hopen k (by simpa using hk))
  have hdropC : D.drop
      (a.length + ws1.length + (openTagOf tag).length + x.length) =
      closeTagOf tag ++ (ws2 ++ b) := by
    rw [show D = (((a ++ ws1) ++ openTagOf tag) ++ x) ++
        (closeTagOf tag ++ (ws2 ++ b)) from by
      rw [hD]; simp [List.append_assoc]]
    refine List.drop_left' ?_
    simp
    omega
  have hc : occAt (closeTagOf tag) D
      (a.length + ws1.length + (openTagOf tag).length + x.length) := by
    unfold occAt
    rw [hdropC]
    exact List.prefix_append _ _
  have hfindc : findFrom D (closeTagOf tag)
      (a.length + ws1.length + (openTagOf tag).length) =
      some (a.length + ws1.length + (openTagOf tag).length + x.length) := by
    refine findFrom_eq_some (by omega) hc ?_
    intro k hk1 hk2
    exact hclose k hk2 hk1
  unfold remove_first_tag_block
  simp only [hfind, hfindc]
  have htakeI : D.take (a.length + ws1.length) = a ++ ws1 := by
    rw [show D = (a ++ ws1) ++
        (openTagOf tag ++ (x ++ (closeTagOf tag ++ (ws2 ++ b)))) from by
      rw [hD]; simp [List.append_assoc]]
    refine List.take_left' ?_
    simp
  have hwsL : wsCount (D.take (a.length + ws1.length)).reverse = ws1.length := by
    rw [htakeI, List.reverse_append]
    have := @wsCount_exact ws1.reverse a.reverse
      (fun c hc => hws1 c (List.mem_reverse.mp hc))
      (fun c hc => ha c (by rwa [← List.head?_reverse]))
    simpa using this
  have hdropCE : D.drop
      (a.length + ws1.length + (openTagOf tag).length + x.length +
        (closeTagOf tag).length) = ws2 ++ b := by
    rw [show D = ((((a ++ ws1) ++ openTagOf tag) ++ x) ++ closeTagOf tag) ++
        (ws2 ++ b) from by
      rw [hD]; simp [List.append_assoc]]
    refine List.drop_left' ?_
    simp
    omega
  have hwsR : wsCount (D.drop
      (a.length + ws1.length + (openTagOf tag).length + x.length +
        (closeTagOf tag).length)) = ws2.length := by
    rw [hdropCE]
    exact wsCount_exact hws2 hb
  have htakeLo : D.take (a.length + ws1.length - ws1.length) = a := by
    have he : a.length + ws1.length - ws1.length = a.length := by omega
    rw [he]
    rw [show D = a ++ (ws1 ++
        (openTagOf tag ++ (x ++ (closeTagOf tag ++ (ws2 ++ b))))) from by
      rw [hD]; simp [List.append_assoc]]
    exact List.take_left _ _
  have hdropHi : D.drop
      (a.length + ws1.length + (openTagOf tag).length + x.length +
        (closeTagOf tag).length + ws2.length) = b := by
    rw [hD]
    refine List.drop_left' ?_
    simp
    try omega
  rw [hwsL, htakeLo, hwsR, hdropHi]
  simp

/-- Removal of the only block leaves no occurrence of a good pattern
absent from the kept parts. -/
theorem remove_block_result_noOcc {pat a b : Str} (hpat : patGood pat)
    (hna : ¬ hasOcc pat a) (hnb : ¬ hasOcc pat b) :
    ¬ hasOcc pat (a ++ '\n' :: b) := by
  intro h
  rcases hasOcc_append_elim h with h1 | h1 | ⟨s, t, hst, hsne, htne, hsu, htp, hpl⟩
  · exact hna h1
  · rcases h1 with ⟨i, hi⟩
    match i with
    | 0 =>
      have hh := occAt_head hi hpat.1
      simp at hh
    | i + 1 =>
      exact hnb ⟨i, by simpa [occAt] using hi⟩
  · have hc := cross_head_mem hst htne htp (rfl : ('\n' :: b).head? = some '\n')
    exact hpat.2.2.2.1 hc

/-- Decomposition of a document around its only tag block: the block is
the first occurrence of the tag pair, the whitespace runs around it are
maximal, and no other occurrence of the opening or closing tag exists in
the kept parts. -/
def uniqueBlockDecomp (tag D a ws1 x ws2 b : Str) : Prop :=
  D = a ++ ws1 ++ openTagOf tag ++ x ++ closeTagOf tag ++ ws2 ++ b ∧
  (∀ c ∈ ws1, isPySpace c = true) ∧ (∀ c ∈ ws2, isPySpace c = true) ∧
  lastNotWs a ∧ headNotWs b ∧
  (∀ k, k < a.length + ws1.length → ¬ occAt (openTagOf tag) D k) ∧
  (∀ k, k < a.length + ws1.length + (openTagOf tag).length + x.length →
    a.length + ws1.length + (openTagOf tag).length ≤ k →
    ¬ occAt (closeTagOf tag) D k) ∧
  ¬ hasOcc (openTagOf tag) a ∧ ¬ hasOcc (openTagOf tag) b ∧
  ¬ hasOcc (closeTagOf tag) a ∧ ¬ hasOcc (closeTagOf tag) b

instance (tag D a ws1 x ws2 b : Str) :
    Decidable (uniqueBlockDecomp tag D a ws1 x ws2 b) := by
  unfold uniqueBlockDecomp; infer_instance

theorem remove_block_exact {tag D a ws1 x ws2 b : Str}
    (h : uniqueBlockDecomp tag D a ws1 x ws2 b) :
    remove_first_tag_block D tag = a ++ '\n' :: b := by
  obtain ⟨hdec, hws1, hws2, ha, hb, hopen, hclose, _, _, _, _⟩ := h
  subst hdec
  exact remove_first_tag_block_eq tag a ws1 x ws2 b hws1 hws2 ha hb hopen hclose

theorem decomp_hasOcc_left {tag D a ws1 x ws2 b pat : Str}
    (h : D = a ++ ws1 ++ openTagOf tag ++ x ++ closeTagOf tag ++ ws2 ++ b)
    (hp : hasOcc pat a) : hasOcc pat D := by
  subst h
  exact hasOcc_append_left _ (hasOcc_append_left _ (hasOcc_append_left _
    (hasOcc_append_left _ (hasOcc_append_left _ (hasOcc_append_left _ hp)))))

theorem decomp_hasOcc_right {tag D a ws1 x ws2 b pat : Str}
    (h : D = a ++ ws1 ++ openTagOf tag ++ x ++ closeTagOf tag ++ ws2 ++ b)
    (hp : hasOcc pat b) : hasOcc pat D := by
  subst h
  exact hasOcc_append_right _ hp

theorem exbind_ok {α β : Type} (a : α) (f : α → Except Str β) :
    (Except.ok a >>= f) = f a := rfl

theorem exbind_err {α β : Type} (e : Str) (f : α → Except Str β) :
    ((Except.error e : Except Str α) >>= f) = Except.error e := rfl

/-- Core of the removal claims: an unsupported image tag makes the whole
pipeline remove the access-token and the authentication blocks, and when
each block is the unique one of its tag the output carries no trace of
either tag. -/
theorem mainRender_removes_blocks
    (template bind : Str) (serverIpOpt : Option Str)
    (username password apiToken port tlsPort : Str) (omitFlag : Bool)
    (imageTag : Option Str)
    (hsup : managers_authentication_supported imageTag = false)
    (t4 a1 ws1 x1 ws2 b1 a2 ws3 x2 ws4 b2 : Str)
    (hpre : renderPre template bind (serverIpOpt.getD bind) port tlsPort
      username password = Except.ok t4)
    (hd1 : uniqueBlockDecomp "AccessTokens".data t4 a1 ws1 x1 ws2 b1)
    (hd2 : uniqueBlockDecomp "Authentication".data (a1 ++ '\n' :: b1)
      a2 ws3 x2 ws4 b2) :
    mainRender template bind serverIpOpt username password apiToken port
      tlsPort omitFlag imageTag = Except.ok (a2 ++ '\n' :: b2) ∧
    ¬ hasOcc (openTagOf "AccessTokens".data) (a2 ++ '\n' :: b2) ∧
    ¬ hasOcc (closeTagOf "AccessTokens".data) (a2 ++ '\n' :: b2) ∧
    ¬ hasOcc (openTagOf "Authentication".data) (a2 ++ '\n' :: b2) ∧
    ¬ hasOcc (closeTagOf "Authentication".data) (a2 ++ '\n' :: b2) := by
  have hr1 : remove_first_tag_block t4 "AccessTokens".data = a1 ++ '\n' :: b1 :=
    remove_block_exact hd1
  have hr2 : remove_first_tag_block (a1 ++ '\n' :: b1) "Authentication".data =
      a2 ++ '\n' :: b2 := remove_block_exact hd2
  constructor
  · unfold mainRender render
    rw [hsup]
    simp only [Bool.false_and, if_false, Bool.false_eq_true, if_neg]
    rw [hpre, exbind_ok]
    unfold authStage
    rw [if_pos rfl, hr1, hr2]
  · have hAopen : ¬ hasOcc (openTagOf "AccessTokens".data) (a1 ++ '\n' :: b1) :=
      remove_block_result_noOcc (by decide) hd1.2.2.2.2.2.2.2.1 hd1.2.2.2.2.2.2.2.2.1
    have hAclose : ¬ hasOcc (closeTagOf "AccessTokens".data) (a1 ++ '\n' :: b1) :=
      remove_block_result_noOcc (by decide) hd1.2.2.2.2.2.2.2.2.2.1 hd1.2.2.2.2.2.2.2.2.2.2
    have hd2dec := hd2.1
    refine ⟨?_, ?_, ?_, ?_⟩
    · exact remove_block_result_noOcc (by decide)
        (fun hp => hAopen (decomp_hasOcc_left hd2dec hp))
        (fun hp => hAopen (decomp_hasOcc_right hd2dec hp))
    · exact remove_block_result_noOcc (by decide)
        (fun hp => hAclose (decomp_hasOcc_left hd2dec hp))
        (fun hp => hAclose (decomp_hasOcc_right hd2dec hp))
    · exact remove_block_result_noOcc (by decide) hd2.2.2.2.2.2.2.2.1
        hd2.2.2.2.2.2.2.2.2.1
    · exact remove_block_result_noOcc (by decide) hd2.2.2.2.2.2.2.2.2.2.1
        hd2.2.2.2.2.2.2.2.2.2.2

theorem gate_below (s : Str) (mj mn pt : Nat)
    (hver : semverPrefixMatch s = some (mj, mn, pt)) (hmj : mj = 0)
    (hmn : mn < 16) : managers_authentication_supported (some s) = false := by
  show (match semverPrefixMatch s with
    | none => false
    | some (mj, mn, _) => if mj = 0 ∧ mn < 16 then false else true) = false
  rw [hver]
  exact if_pos ⟨hmj, hmn⟩

theorem gate_nonsemver (s : Str) (hver : semverPrefixMatch s = none) :
    managers_authentication_supported (some s) = false := by
  show (match semverPrefixMatch s with
    | none => false
    | some (mj, mn, _) => if mj = 0 ∧ mn < 16 then false else true) = false
  rw [hver]

/-- C2: for an image tag carrying a semver version with major 0 and
minor below 16, the gate reports no support, and rendering removes the
access-token and authentication blocks entirely: with each block the
unique one of its tag after the credential stage, the output contains no
occurrence of either opening or closing tag. -/
theorem C2_below_threshold_removes_blocks
    (s : Str) (mj mn pt : Nat)
    (hver : semverPrefixMatch s = some (mj, mn, pt)) (hmj : mj = 0)
    (hmn : mn < 16)
    (template bind : Str) (serverIpOpt : Option Str)
    (username password apiToken port tlsPort : Str) (omitFlag : Bool)
    (t4 a1 ws1 x1 ws2 b1 a2 ws3 x2 ws4 b2 : Str)
    (hpre : renderPre template bind (serverIpOpt.getD bind) port tlsPort
      username password = Except.ok t4)
    (hd1 : uniqueBlockDecomp "AccessTokens".data t4 a1 ws1 x1 ws2 b1)
    (hd2 : uniqueBlockDecomp "Authentication".data (a1 ++ '\n' :: b1)
      a2 ws3 x2 ws4 b2) :
    managers_authentication_supported (some s) = false ∧
    mainRender template bind serverIpOpt username password apiToken port
      tlsPort omitFlag (some s) = Except.ok (a2 ++ '\n' :: b2) ∧
    ¬ hasOcc (openTagOf "AccessTokens".data) (a2 ++ '\n' :: b2) ∧
    ¬ hasOcc (closeTagOf "AccessTokens".data) (a2 ++ '\n' :: b2) ∧
    ¬ hasOcc (openTagOf "Authentication".data) (a2 ++ '\n' :: b2) ∧
    ¬ hasOcc (closeTagOf "Authentication".data) (a2 ++ '\n' :: b2) := by
  have hg := gate_below s mj mn pt hver hmj hmn
  exact ⟨hg, mainRender_removes_blocks template bind serverIpOpt username
    password apiToken port tlsPort omitFlag (some s) hg t4 a1 ws1 x1 ws2 b1
    a2 ws3 x2 ws4 b2 hpre hd1 hd2⟩

/-- Witness for C2 on a concrete template with one access-token block and
one authentication block, rendered for the 0.15.2 image tag. -/
theorem C2_below_threshold_removes_blocks_witness :
    managers_authentication_supported (some "0.15.2".data) = false ∧
    mainRender ("<Server><Bind><Address>a</Address><Port>p</Port><TLSPort>t</TLSPort></Bind><ID>i</ID><Password>w</Password> <AccessTokens><AccessToken>k</AccessToken></AccessTokens> <Authentication>z</Authentication></Server>" : String).data
      "B".data none "u".data "w".data "tok".data "9".data "8".data false
      (some "0.15.2".data) =
      Except.ok (("<Server><Bind><Address>B</Address><Port>9</Port><TLSPort>8</TLSPort></Bind><ID>u</ID><Password>w</Password>" : String).data ++
        '\n' :: "</Server>".data) ∧
    ¬ hasOcc (openTagOf "AccessTokens".data)
      (("<Server><Bind><Address>B</Address><Port>9</Port><TLSPort>8</TLSPort></Bind><ID>u</ID><Password>w</Password>" : String).data ++
        '\n' :: "</Server>".data) ∧
    ¬ hasOcc (closeTagOf "AccessTokens".data)
      (("<Server><Bind><Address>B</Address><Port>9</Port><TLSPort>8</TLSPort></Bind><ID>u</ID><Password>w</Password>" : String).data ++
        '\n' :: "</Server>".data) ∧
    ¬ hasOcc (openTagOf "Authentication".data)
      (("<Server><Bind><Address>B</Address><Port>9</Port><TLSPort>8</TLSPort></Bind><ID>u</ID><Password>w</Password>" : String).data ++
        '\n' :: "</Server>".data) ∧
    ¬ hasOcc (closeTagOf "Authentication".data)
      (("<Server><Bind><Address>B</Address><Port>9</Port><TLSPort>8</TLSPort></Bind><ID>u</ID><Password>w</Password>" : String).data ++
        '\n' :: "</Server>".data) :=
  C2_below_threshold_removes_blocks "0.15.2".data 0 15 2 rfl rfl (by decide)
    ("<Server><Bind><Address>a</Address><Port>p</Port><TLSPort>t</TLSPort></Bind><ID>i</ID><Password>w</Password> <AccessTokens><AccessToken>k</AccessToken></AccessTokens> <Authentication>z</Authentication></Server>" : String).data
    "B".data none "u".data "w".data "tok".data "9".data "8".data false
    ("<Server><Bind><Address>B</Address><Port>9</Port><TLSPort>8</TLSPort></Bind><ID>u</ID><Password>w</Password> <AccessTokens><AccessToken>k</AccessToken></AccessTokens> <Authentication>z</Authentication></Server>" : String).data
    ("<Server><Bind><Address>B</Address><Port>9</Port><TLSPort>8</TLSPort></Bind><ID>u</ID><Password>w</Password>" : String).data
    " ".data "<AccessToken>k</AccessToken>".data " ".data
    "<Authentication>z</Authentication></Server>".data
    ("<Server><Bind><Address>B</Address><Port>9</Port><TLSPort>8</TLSPort></Bind><ID>u</ID><Password>w</Password>" : String).data
    "\n".data "z".data [] "</Server>".data
    rfl (by decide) (by decide)

/-- C10: with no image tag supplied the gate treats managers
authentication as supported; with a supplied tag that does not carry an
optionally v-prefixed semver triple the gate treats it as unsupported and
rendering removes the access-token and authentication blocks, with the
same uniqueness reading as in the below-threshold case. -/
theorem C10_absent_or_nonsemver_tag
    (s : Str) (hver : semverPrefixMatch s = none)
    (template bind : Str) (serverIpOpt : Option Str)
    (username password apiToken port tlsPort : Str) (omitFlag : Bool)
    (t4 a1 ws1 x1 ws2 b1 a2 ws3 x2 ws4 b2 : Str)
    (hpre : renderPre template bind (serverIpOpt.getD bind) port tlsPort
      username password = Except.ok t4)
    (hd1 : uniqueBlockDecomp "AccessTokens".data t4 a1 ws1 x1 ws2 b1)
    (hd2 : uniqueBlockDecomp "Authentication".data (a1 ++ '\n' :: b1)
      a2 ws3 x2 ws4 b2) :
    managers_authentication_supported none = true ∧
    managers_authentication_supported (some s) = false ∧
    mainRender template bind serverIpOpt username password apiToken port
      tlsPort omitFlag (some s) = Except.ok (a2 ++ '\n' :: b2) ∧
    ¬ hasOcc (openTagOf "AccessTokens".data) (a2 ++ '\n' :: b2) ∧
    ¬ hasOcc (closeTagOf "AccessTokens".data) (a2 ++ '\n' :: b2) ∧
    ¬ hasOcc (openTagOf "Authentication".data) (a2 ++ '\n' :: b2) ∧
    ¬ hasOcc (closeTagOf "Authentication".data) (a2 ++ '\n' :: b2) := by
  have hg := gate_nonsemver s hver
  exact ⟨rfl, hg, mainRender_removes_blocks template bind serverIpOpt username
    password apiToken port tlsPort omitFlag (some s) hg t4 a1 ws1 x1 ws2 b1
    a2 ws3 x2 ws4 b2 hpre hd1 hd2⟩

/-- Witness for C10 with the image tag latest, which has no semver
prefix. -/
theorem C10_absent_or_nonsemver_tag_witness :
    managers_authentication_supported none = true ∧
    managers_authentication_supported (some "latest".data) = false ∧
    mainRender ("<Server><Bind><Address>a</Address><Port>p</Port><TLSPort>t</TLSPort></Bind><ID>i</ID><Password>w</Password> <AccessTokens><AccessToken>k</AccessToken></AccessTokens> <Authentication>z</Authentication></Server>" : String).data
      "B".data none "u".data "w".data "tok".data "9".data "8".data false
      (some "latest".data) =
      Except.ok (("<Server><Bind><Address>B</Address><Port>9</Port><TLSPort>8</TLSPort></Bind><ID>u</ID><Password>w</Password>" : String).data ++
        '\n' :: "</Server>".data) ∧
    ¬ hasOcc (openTagOf "AccessTokens".data)
      (("<Server><Bind><Address>B</Address><Port>9</Port><TLSPort>8</TLSPort></Bind><ID>u</ID><Password>w</Password>" : String).data ++
        '\n' :: "</Server>".data) ∧
    ¬ hasOcc (closeTagOf "AccessTokens".data)
      (("<Server><Bind><Address>B</Address><Port>9</Port><TLSPort>8</TLSPort></Bind><ID>u</ID><Password>w</Password>" : String).data ++
        '\n' :: "</Server>".data) ∧
    ¬ hasOcc (openTagOf "Authentication".data)
      (("<Server><Bind><Address>B</Address><Port>9</Port><TLSPort>8</TLSPort></Bind><ID>u</ID><Password>w</Password>" : String).data ++
        '\n' :: "</Server>".data) ∧
    ¬ hasOcc (closeTagOf "Authentication".data)
      (("<Server><Bind><Address>B</Address><Port>9</Port><TLSPort>8</TLSPort></Bind><ID>u</ID><Password>w</Password>" : String).data ++
        '\n' :: "</Server>".data) :=
  C10_absent_or_nonsemver_tag "latest".data rfl
    ("<Server><Bind><Address>a</Address><Port>p</Port><TLSPort>t</TLSPort></Bind><ID>i</ID><Password>w</Password> <AccessTokens><AccessToken>k</AccessToken></AccessTokens> <Authentication>z</Authentication></Server>" : String).data
    "B".data none "u".data "w".data "tok".data "9".data "8".data false
    ("<Server><Bind><Address>B</Address><Port>9</Port><TLSPort>8</TLSPort></Bind><ID>u</ID><Password>w</Password> <AccessTokens><AccessToken>k</AccessToken></AccessTokens> <Authentication>z</Authentication></Server>" : String).data
    ("<Server><Bind><Address>B</Address><Port>9</Port><TLSPort>8</TLSPort></Bind><ID>u</ID><Password>w</Password>" : String).data
    " ".data "<AccessToken>k</AccessToken>".data " ".data
    "<Authentication>z</Authentication></Server>".data
    ("<Server><Bind><Address>B</Address><Port>9</Port><TLSPort>8</TLSPort></Bind><ID>u</ID><Password>w</Password>" : String).data
    "\n".data "z".data [] "</Server>".data
    rfl (by decide) (by decide)

/-- C6: for an image tag at or above the support threshold, no opt-out
flag and a non-empty API token, rendering rewrites the access-token
content to the escaped token and leaves the authentication block
present: the output is the credential-stage text with exactly the token
content replaced, and the authentication tag still occurs in it. -/
theorem C6_supported_token_rewrites
    (s : Str) (mj mn pt : Nat)
    (hver : semverPrefixMatch s = some (mj, mn, pt))
    (hhi : ¬ (mj = 0 ∧ mn < 16))
    (template bind : Str) (serverIpOpt : Option Str)
    (username password apiToken port tlsPort : Str)
    (hApi : apiToken ≠ [])
    (t4 a x b : Str)
    (hpre : renderPre template bind (serverIpOpt.getD bind) port tlsPort
      username password = Except.ok t4)
    (hdec : t4 = a ++ openTagOf "AccessToken".data ++ x ++
      closeTagOf "AccessToken".data ++ b)
    (hopen : ∀ k, k < a.length → ¬ occAt (openTagOf "AccessToken".data) t4 k)
    (hclose : ∀ k,
      k < a.length + (openTagOf "AccessToken".data).length + x.length →
      a.length ≤ k → ¬ occAt (closeTagOf "AccessToken".data) t4 k)
    (hauth : hasOcc (openTagOf "Authentication".data) a ∨
      hasOcc (openTagOf "Authentication".data) b) :
    managers_authentication_supported (some s) = true ∧
    mainRender template bind serverIpOpt username password apiToken port
      tlsPort false (some s) =
      Except.ok (a ++ openTagOf "AccessToken".data ++ xml_escape apiToken ++
        closeTagOf "AccessToken".data ++ b) ∧
    hasOcc (openTagOf "Authentication".data)
      (a ++ openTagOf "AccessToken".data ++ xml_escape apiToken ++
        closeTagOf "AccessToken".data ++ b) := by
  subst hdec
  have hg : managers_authentication_supported (some s) = true := by
    show (match semverPrefixMatch s with
      | none => false
      | some (mj, mn, _) => if mj = 0 ∧ mn < 16 then false else true) = true
    rw [hver]
    exact if_neg hhi
  refine ⟨hg, ?_, ?_⟩
  · unfold mainRender render
    rw [hg]
    simp only [Bool.true_and, Bool.not_false, if_true]
    rw [hpre, exbind_ok]
    unfold authStage
    rw [if_neg (by simp : ¬ ((true : Bool) = false))]
    rw [if_pos hApi]
    exact replace_tag_content_eq "AccessToken".data a x b (xml_escape apiToken)
      hopen hclose
  · rcases hauth with h | h
    · exact hasOcc_append_left _ (hasOcc_append_left _ (hasOcc_append_left _
        (hasOcc_append_left _ h)))
    · exact hasOcc_append_right _ h

/-- Witness for C6 on a concrete template, rendered for the 1.0.0 image
tag with the token tok. -/
theorem C6_supported_token_rewrites_witness :
    managers_authentication_supported (some "1.0.0".data) = true ∧
    mainRender ("<Server><Bind><Address>a</Address><Port>p</Port><TLSPort>t</TLSPort></Bind><ID>i</ID><Password>w</Password> <AccessTokens><AccessToken>k</AccessToken></AccessTokens> <Authentication>z</Authentication></Server>" : String).data
      "B".data none "u".data "w".data "tok".data "9".data "8".data false
      (some "1.0.0".data) =
      Except.ok (("<Server><Bind><Address>B</Address><Port>9</Port><TLSPort>8</TLSPort></Bind><ID>u</ID><Password>w</Password> <AccessTokens>" : String).data ++
        openTagOf "AccessToken".data ++ xml_escape "tok".data ++
        closeTagOf "AccessToken".data ++
        ("</AccessTokens> <Authentication>z</Authentication></Server>" : String).data) ∧
    hasOcc (openTagOf "Authentication".data)
      (("<Server><Bind><Address>B</Address><Port>9</Port><TLSPort>8</TLSPort></Bind><ID>u</ID><Password>w</Password> <AccessTokens>" : String).data ++
        openTagOf "AccessToken".data ++ xml_escape "tok".data ++
        closeTagOf "AccessToken".data ++
        ("</AccessTokens> <Authentication>z</Authentication></Server>" : String).data) :=
  C6_supported_token_rewrites "1.0.0".data 1 0 0 rfl (by decide)
    ("<Server><Bind><Address>a</Address><Port>p</Port><TLSPort>t</TLSPort></Bind><ID>i</ID><Password>w</Password> <AccessTokens><AccessToken>k</AccessToken></AccessTokens> <Authentication>z</Authentication></Server>" : String).data
    "B".data none "u".data "w".data "tok".data "9".data "8".data
    (by decide)
    ("<Server><Bind><Address>B</Address><Port>9</Port><TLSPort>8</TLSPort></Bind><ID>u</ID><Password>w</Password> <AccessTokens><AccessToken>k</AccessToken></AccessTokens> <Authentication>z</Authentication></Server>" : String).data
    ("<Server><Bind><Address>B</Address><Port>9</Port><TLSPort>8</TLSPort></Bind><ID>u</ID><Password>w</Password> <AccessTokens>" : String).data
    "k".data
    ("</AccessTokens> <Authentication>z</Authentication></Server>" : String).data
    rfl rfl (by decide) (by decide) (Or.inr (by decide))

theorem decomp_occ_open (tag a x b : Str) :
    occAt (openTagOf tag) (a ++ openTagOf tag ++ x ++ closeTagOf tag ++ b)
      a.length := by
  unfold occAt
  rw [show a ++ openTagOf tag ++ x ++ closeTagOf tag ++ b =
      a ++ (openTagOf tag ++ (x ++ (closeTagOf tag ++ b))) from by
    simp [List.append_assoc]]
  rw [List.drop_left]
  exact List.prefix_append _ _

theorem containsSub_true_of_occ {data pat : Str} {i : Nat}
    (h : occAt pat data i) : containsSub data pat = true := by
  unfold containsSub
  exact hasOcc_iff_findSub.mp ⟨i, h⟩

/-- C5: inside the server bind section the address rewrite prefers the
modern Address tag: with both tags present the Address content is
replaced and the rest of the bind body, including the legacy IP tag and
its content, is returned byte-identical; and whenever the modern tag is
absent and the legacy tag present, the IP content is replaced
instead. -/
theorem C5_bind_address_preference
    (bindBody addr a x b : Str)
    (hdec : bindBody = a ++ openTagOf "Address".data ++ x ++
      closeTagOf "Address".data ++ b)
    (hopen : ∀ k, k < a.length →
      ¬ occAt (openTagOf "Address".data) bindBody k)
    (hclose : ∀ k,
      k < a.length + (openTagOf "Address".data).length + x.length →
      a.length ≤ k → ¬ occAt (closeTagOf "Address".data) bindBody k)
    (hip : hasOcc (openTagOf "IP".data) a ∨ hasOcc (openTagOf "IP".data) b) :
    bindAddressStep bindBody addr =
      Except.ok (a ++ openTagOf "Address".data ++ addr ++
        closeTagOf "Address".data ++ b) ∧
    (∀ body2 a2 x2 b2,
      ¬ hasOcc (openTagOf "Address".data) body2 →
      body2 = a2 ++ openTagOf "IP".data ++ x2 ++ closeTagOf "IP".data ++ b2 →
      (∀ k, k < a2.length → ¬ occAt (openTagOf "IP".data) body2 k) →
      (∀ k, k < a2.length + (openTagOf "IP".data).length + x2.length →
        a2.length ≤ k → ¬ occAt (closeTagOf "IP".data) body2 k) →
      bindAddressStep body2 addr =
        Except.ok (a2 ++ openTagOf "IP".data ++ addr ++
          closeTagOf "IP".data ++ b2)) := by
  constructor
  · subst hdec
    unfold bindAddressStep
    rw [if_pos (containsSub_true_of_occ (decomp_occ_open "Address".data a x b))]
    exact replace_tag_content_eq "Address".data a x b addr hopen hclose
  · intro body2 a2 x2 b2 hno hdec2 hopen2 hclose2
    subst hdec2
    unfold bindAddressStep
    have hcf : containsSub
        (a2 ++ openTagOf "IP".data ++ x2 ++ closeTagOf "IP".data ++ b2)
        (openTagOf "Address".data) = false := by
      unfold containsSub
      rw [findSub_eq_none hno]
      rfl
    rw [hcf]
    rw [if_neg (by simp : ¬ ((false : Bool) = true))]
    rw [if_pos (containsSub_true_of_occ (decomp_occ_open "IP".data a2 x2 b2))]
    exact replace_tag_content_eq "IP".data a2 x2 b2 addr hopen2 hclose2

/-- Witness for C5 on a bind body carrying both the modern and the
legacy tag: the modern tag content is rewritten and the legacy tag with
its content is returned byte-identical. -/
theorem C5_bind_address_preference_witness :
    bindAddressStep ([] ++ openTagOf "Address".data ++ "old".data ++
      closeTagOf "Address".data ++ "<IP>legacy</IP>".data) "NEW".data =
      Except.ok ([] ++ openTagOf "Address".data ++ "NEW".data ++
        closeTagOf "Address".data ++ "<IP>legacy</IP>".data) :=
  (C5_bind_address_preference
    ([] ++ openTagOf "Address".data ++ "old".data ++
      closeTagOf "Address".data ++ "<IP>legacy</IP>".data)
    "NEW".data [] "old".data "<IP>legacy</IP>".data
    rfl (by decide) (by decide) (Or.inr (by decide))).1

/-! ## Occurrence preservation through the pipeline stages -/

theorem hasOcc_take {pat l : Str} {n : Nat} (h : hasOcc pat (l.take n)) :
    hasOcc pat l :=
  hasOcc_of_infix (takeIsPre n l).isInfix h

theorem hasOcc_drop {pat l : Str} {n : Nat} (h : hasOcc pat (l.drop n)) :
    hasOcc pat l :=
  hasOcc_of_infix (dropIsSuf n l).isInfix h

theorem hasOcc_take_drop {pat l : Str} {s e : Nat}
    (h : hasOcc pat ((l.take e).drop s)) : hasOcc pat l :=
  hasOcc_take (hasOcc_drop h)

theorem hasOcc_cons {pat : Str} {c : Char} {l : Str} (h : hasOcc pat l) :
    hasOcc pat (c :: l) := by
  rcases h with ⟨i, hi⟩
  exact ⟨i + 1, by simpa [occAt] using hi⟩

/-- Kill: a bracket-headed pattern cannot occur strictly inside a literal
whose only bracket is its head, and cannot occur at the head unless the
literal and the pattern overlap as prefixes. -/
theorem no_occ_in_singleLt {pat v : Str} (hph : pat.head? = some '<')
    (hlt : '<' ∉ v.tail) (hnp : ¬ pat <+: v) : ¬ hasOcc pat v := by
  rintro ⟨i, hi⟩
  match i with
  | 0 => exact hnp (by simpa [occAt] using hi)
  | i + 1 =>
    have hh := occAt_head hi hph
    have h1 : '<' ∈ v.drop (i + 1) := head?_mem hh
    have h2 : v.tail.drop i = v.drop (i + 1) := by
      rw [← List.drop_one, List.drop_drop, Nat.add_comm]
    rw [← h2] at h1
    exact hlt (mem_of_mem_drop h1)

theorem cross_from_singleLt {pat v s t : Str} (hph : pat.head? = some '<')
    (hlt : '<' ∉ v.tail) (hnl : ¬ v <+: pat)
    (hst : s ++ t = pat) (hsne : s ≠ []) (hsu : s <:+ v) : False := by
  have hsh : s.head? = some '<' := pre_head ⟨t, hst⟩ hsne hph
  rcases hsu with ⟨w, hw⟩
  cases w with
  | nil =>
    have hv : s = v := by simpa using hw
    subst hv
    exact hnl ⟨t, hst⟩
  | cons wa ws0 =>
    have hv3 : v.tail = ws0 ++ s := by rw [← hw]; rfl
    apply hlt
    rw [hv3]
    exact List.mem_append_right ws0 (head?_mem hsh)

/-- Junction elimination with a single-bracket literal on the left. -/
theorem hasOcc_lit_left {pat lit z : Str} (hph : pat.head? = some '<')
    (hlt : '<' ∉ lit.tail) (hnp : ¬ pat <+: lit) (hnl : ¬ lit <+: pat)
    (h : hasOcc pat (lit ++ z)) : hasOcc pat z := by
  rcases hasOcc_append_elim h with h1 | h1 | ⟨s, t, hst, hsne, htne, hsu, htp, hpl⟩
  · exact absurd h1 (no_occ_in_singleLt hph hlt hnp)
  · exact h1
  · exact (cross_from_singleLt hph hlt hnl hst hsne hsu).elim

/-- Junction elimination with a bracket-free value on the left. -/
theorem hasOcc_noLt_left {pat v z : Str} (hph : pat.head? = some '<')
    (hv : noLt v) (h : hasOcc pat (v ++ z)) : hasOcc pat z := by
  rcases hasOcc_append_elim h with h1 | h1 | ⟨s, t, hst, hsne, htne, hsu, htp, hpl⟩
  · exact absurd h1 (no_occ_in_noLt hph hv)
  · exact h1
  · exact (no_cross_from_noLt hph hv hsu ⟨t, hst⟩ hsne).elim

/-- Junction elimination when the right side starts with a bracket. -/
theorem hasOcc_split_headLt {pat u z : Str} (hlt : '<' ∉ pat.tail)
    (hz : z.head? = some '<') (h : hasOcc pat (u ++ z)) :
    hasOcc pat u ∨ hasOcc pat z := by
  rcases hasOcc_append_elim h with h1 | h1 | ⟨s, t, hst, hsne, htne, hsu, htp, hpl⟩
  · exact Or.inl h1
  · exact Or.inr h1
  · exact absurd (cross_head_mem_tail hst hsne htne htp hz) hlt

/-- Junction elimination when the left side ends with the closing
bracket. -/
theorem hasOcc_split_gtEnd {pat u z : Str}
    (hgt : '>' ∉ pat.take (pat.length - 1)) (hu : u.getLast? = some '>')
    (h : hasOcc pat (u ++ z)) : hasOcc pat u ∨ hasOcc pat z := by
  rcases hasOcc_append_elim h with h1 | h1 | ⟨s, t, hst, hsne, htne, hsu, htp, hpl⟩
  · exact Or.inl h1
  · exact Or.inr h1
  · exact (no_cross_from_gtEnd hgt hu hsu ⟨t, hst⟩ hsne hpl).elim

/-- Junction elimination when the right side starts with a character the
pattern does not contain. -/
theorem hasOcc_split_headNotIn {pat u z : Str} {c : Char}
    (hz : z.head? = some c) (hcp : c ∉ pat) (h : hasOcc pat (u ++ z)) :
    hasOcc pat u ∨ hasOcc pat z := by
  rcases hasOcc_append_elim h with h1 | h1 | ⟨s, t, hst, hsne, htne, hsu, htp, hpl⟩
  · exact Or.inl h1
  · exact Or.inr h1
  · exact absurd (cross_head_mem hst htne htp hz) hcp

theorem openTag_getLast (tag : Str) : (openTagOf tag).getLast? = some '>' := by
  show (('<' :: tag) ++ ['>']).getLast? = some '>'
  rw [List.getLast?_concat]

theorem closeTag_getLast (tag : Str) : (closeTagOf tag).getLast? = some '>' := by
  show (('<' :: '/' :: tag) ++ ['>']).getLast? = some '>'
  rw [List.getLast?_concat]

theorem take_after_occ_getLast {pat l : Str} {i : Nat} {c : Char}
    (h : occAt pat l i) (hc : pat.getLast? = some c) :
    (l.take (i + pat.length)).getLast? = some c := by
  rcases h with ⟨t, ht⟩
  have h1 : l.take (i + pat.length) = l.take i ++ pat := by
    rw [List.take_add]
    congr 1
    rw [← ht]
    exact List.take_left pat t
  rw [h1, List.getLast?_append, hc]
  rfl

/-- Exact effect of replace_tag_content without firstness assumptions:
the ok result is an occurrence-preserving splice. -/
theorem replace_tag_content_preserve {data tag value res pat : Str}
    (h : replace_tag_content data tag value = Except.ok res)
    (hph : pat.head? = some '<') (hlt : '<' ∉ pat.tail)
    (hgt : '>' ∉ pat.take (pat.length - 1)) (hval : noLt value) :
    hasOcc pat res → hasOcc pat data := by
  unfold replace_tag_content at h
  cases hf : findSub data (openTagOf tag) with
  | none => rw [hf] at h; cases h
  | some i =>
    simp only [hf] at h
    cases hff : findFrom data (closeTagOf tag) i with
    | none => simp only [hff] at h; cases h
    | some j =>
      simp only [hff] at h
      injection h with h
      subst h
      intro ho
      have hiocc := findSub_some_occAt hf
      have hjocc := (findFrom_some_occAt hff).2
      have hz : (data.drop j).head? = some '<' := occAt_head hjocc rfl
      rcases hasOcc_split_headLt hlt hz ho with h1 | h1
      · have hA : (data.take (i + (openTagOf tag).length)).getLast? =
            some '>' := take_after_occ_getLast hiocc (openTag_getLast tag)
        rcases hasOcc_split_gtEnd hgt hA h1 with h2 | h2
        · exact hasOcc_take h2
        · exact absurd h2 (no_occ_in_noLt hph hval)
      · exact hasOcc_drop h1

theorem wsCount_take_ws (l : Str) : ∀ c ∈ l.take (wsCount l), isPySpace c = true := by
  induction l with
  | nil => simp
  | cons a t ih =>
    by_cases ha : isPySpace a = true
    · have hw : wsCount (a :: t) = wsCount t + 1 := by
        show (if isPySpace a = true then wsCount t + 1 else 0) = _
        rw [if_pos ha]
      rw [hw]
      intro c hc
      rcases List.mem_cons.mp hc with rfl | hc2
      · exact ha
      · exact ih c hc2
    · have hw : wsCount (a :: t) = 0 := by
        show (if isPySpace a = true then wsCount t + 1 else 0) = _
        rw [if_neg ha]
      rw [hw]
      simp

theorem ws_split (l : Str) : l = l.take (wsCount l) ++ l.drop (wsCount l) :=
  (List.take_append_drop _ l).symm

theorem matchServerBind_decomp {cl : Bool} {l r : Str}
    (h : matchServerBind cl l = some r) :
    ∃ ws1 ws2, (∀ c ∈ ws1, isPySpace c = true) ∧
      (∀ c ∈ ws2, isPySpace c = true) ∧
      l = (if cl then "</".data else "<".data) ++ ws1 ++ "Server.bind".data ++
        ws2 ++ '>' :: r := by
  unfold matchServerBind at h
  cases h1 : stripLit (if cl then "</".data else "<".data) l with
  | none => rw [h1] at h; cases h
  | some r1 =>
    rw [h1] at h
    simp only [Option.bind_some, Option.some_bind] at h
    cases h2 : stripLit "Server.bind".data (r1.drop (wsCount r1)) with
    | none => rw [h2] at h; cases h
    | some r3 =>
      rw [h2] at h
      simp only [Option.bind_some, Option.some_bind] at h
      cases h4 : r3.drop (wsCount r3) with
      | nil => rw [h4] at h; cases h
      | cons c3 r5 =>
        rw [h4] at h
        by_cases hc3 : c3 = '>'
        · subst hc3
          simp only [Option.some.injEq] at h
          subst h
          refine ⟨r1.take (wsCount r1), r3.take (wsCount r3),
            wsCount_take_ws r1, wsCount_take_ws r3, ?_⟩
          have e1 : l = (if cl then "</".data else "<".data) ++ r1 :=
            stripLit_eq h1
          have e2 : r1.drop (wsCount r1) = "Server.bind".data ++ r3 :=
            stripLit_eq h2
          have e3 : r1 = r1.take (wsCount r1) ++ ("Server.bind".data ++ r3) := by
            rw [← e2]; exact ws_split r1
          have e4 : r3 = r3.take (wsCount r3) ++ ('>' :: r5) := by
            rw [← h4]; exact ws_split r3
          have e3b : r1 = r1.take (wsCount r1) ++ ("Server.bind".data ++
              (r3.take (wsCount r3) ++ ('>' :: r5))) :=
            e3.trans (congrArg
              (fun z => r1.take (wsCount r1) ++ ("Server.bind".data ++ z)) e4)
          have e5 : l = (if cl then "</".data else "<".data) ++
              (r1.take (wsCount r1) ++ ("Server.bind".data ++
                (r3.take (wsCount r3) ++ ('>' :: r5)))) :=
            e1.trans (congrArg
              (fun z => (if cl then "</".data else "<".data) ++ z) e3b)
          rw [e5]
          simp [List.append_assoc]
        · simp [hc3] at h

theorem matchServerBind_shorter {cl : Bool} {l r : Str}
    (h : matchServerBind cl l = some r) : r.length < l.length := by
  rcases matchServerBind_decomp h with ⟨ws1, ws2, _, _, hl⟩
  have := congrArg List.length hl
  simp at this
  cases cl <;> simp at this <;> omega

theorem subSBFuel_cons_some {cl : Bool} {repl : Str} {fuel : Nat}
    {c : Char} {rest r : Str} (hm : matchServerBind cl (c :: rest) = some r) :
    subSBFuel cl repl (fuel + 1) (c :: rest) =
      repl ++ subSBFuel cl repl fuel r := by
  show (match matchServerBind cl (c :: rest) with
    | some r => repl ++ subSBFuel cl repl fuel r
    | none => c :: subSBFuel cl repl fuel rest) = _
  rw [hm]

theorem subSBFuel_cons_none {cl : Bool} {repl : Str} {fuel : Nat}
    {c : Char} {rest : Str} (hm : matchServerBind cl (c :: rest) = none) :
    subSBFuel cl repl (fuel + 1) (c :: rest) =
      c :: subSBFuel cl repl fuel rest := by
  show (match matchServerBind cl (c :: rest) with
    | some r => repl ++ subSBFuel cl repl fuel r
    | none => c :: subSBFuel cl repl fuel rest) = _
  rw [hm]

theorem subSBFuel_pre_reflect {cl : Bool} {repl : Str}
    (hr : repl.head? = some '<') :
    ∀ fuel l pfx, l.length ≤ fuel → '<' ∉ pfx →
      pfx <+: subSBFuel cl repl fuel l → pfx <+: l := by
  intro fuel
  induction fuel with
  | zero => intro l pfx _ _ h; exact h
  | succ fuel ih =>
    intro l pfx hl hlt h
    cases l with
    | nil => exact h
    | cons c rest =>
      cases hm : matchServerBind cl (c :: rest) with
      | some r =>
        rw [subSBFuel_cons_some hm] at h
        cases pfx with
        | nil => exact List.nil_prefix
        | cons p pfx2 =>
          have hz : (repl ++ subSBFuel cl repl fuel r).head? = some '<' := by
            cases repl with
            | nil => cases hr
            | cons rc rr => cases hr; rfl
          have hp := pre_head h (by simp) hz
          have : p = '<' := by simpa using hp
          subst this
          exact absurd (List.mem_cons_self _ _) hlt
      | none =>
        rw [subSBFuel_cons_none hm] at h
        cases pfx with
        | nil => exact List.nil_prefix
        | cons p pfx2 =>
          rcases h with ⟨tt, htt⟩
          rw [List.cons_append] at htt
          injection htt with h1 h2
          subst h1
          have hpr : pfx2 <+: rest := ih rest pfx2 (by simp at hl; omega)
            (fun hm2 => hlt (List.mem_cons_of_mem _ hm2)) ⟨tt, h2⟩
          rcases hpr with ⟨t2, ht2⟩
          exact ⟨t2, by rw [List.cons_append, ht2]⟩

theorem subSBFuel_preserve {cl : Bool} {repl pat : Str}
    (hph : pat.head? = some '<') (hplt : '<' ∉ pat.tail)
    (hr : repl.head? = some '<') (hrlt : '<' ∉ repl.tail)
    (hnp : ¬ pat <+: repl) (hnr : ¬ repl <+: pat) :
    ∀ fuel l, l.length ≤ fuel →
      hasOcc pat (subSBFuel cl repl fuel l) → hasOcc pat l := by
  intro fuel
  induction fuel with
  | zero => intro l _ h; exact h
  | succ fuel ih =>
    intro l hl h
    cases l with
    | nil => exact h
    | cons c rest =>
      cases hm : matchServerBind cl (c :: rest) with
      | some r =>
        rw [subSBFuel_cons_some hm] at h
        have hshort := matchServerBind_shorter hm
        have hocc_r : hasOcc pat r := by
          refine ih r ?_ (hasOcc_lit_left hph hrlt hnp hnr h)
          have : (c :: rest).length ≤ fuel + 1 := hl
          simp at this hshort ⊢
          omega
        rcases matchServerBind_decomp hm with ⟨ws1, ws2, _, _, hl2⟩
        rw [hl2]
        exact hasOcc_append_right _ (hasOcc_cons hocc_r)
      | none =>
        rw [subSBFuel_cons_none hm] at h
        rcases h with ⟨i, hi⟩
        match i with
        | 0 =>
          have hi0 : pat <+: c :: subSBFuel cl repl fuel rest := by
            simpa [occAt] using hi
          cases pat with
          | nil => cases hph
          | cons p ps =>
            rcases hi0 with ⟨tt, htt⟩
            rw [List.cons_append] at htt
            injection htt with h1 h2
            subst h1
            have hps : ps <+: rest := by
              refine subSBFuel_pre_reflect hr fuel rest ps ?_ ?_ ⟨tt, h2⟩
              · simp at hl
                omega
              · intro hm2
                exact hplt (by simpa using hm2)
            rcases hps with ⟨t2, ht2⟩
            exact ⟨0, by
              simp only [occAt, List.drop_zero]
              exact ⟨t2, by rw [List.cons_append, ht2]⟩⟩
        | i + 1 =>
          have h2 : hasOcc pat (subSBFuel cl repl fuel rest) :=
            ⟨i, by simpa [occAt] using hi⟩
          have := ih rest (by simp at hl; omega) h2
          exact hasOcc_cons this

theorem subServerBind_preserve {cl : Bool} {repl pat l : Str}
    (hph : pat.head? = some '<') (hplt : '<' ∉ pat.tail)
    (hr : repl.head? = some '<') (hrlt : '<' ∉ repl.tail)
    (hnp : ¬ pat <+: repl) (hnr : ¬ repl <+: pat)
    (h : hasOcc pat (subServerBind cl repl l)) : hasOcc pat l :=
  subSBFuel_preserve hph hplt hr hrlt hnp hnr l.length l le_rfl h

theorem normalizeServerBind_preserve {pat t : Str}
    (hph : pat.head? = some '<') (hplt : '<' ∉ pat.tail)
    (h1 : ¬ pat <+: "<Bind>".data) (h2 : ¬ ("<Bind>".data : Str) <+: pat)
    (h3 : ¬ pat <+: "</Bind>".data) (h4 : ¬ ("</Bind>".data : Str) <+: pat)
    (h : hasOcc pat (normalizeServerBind t)) : hasOcc pat t := by
  unfold normalizeServerBind at h
  exact subServerBind_preserve hph hplt (by decide) (by decide) h1 h2
    (subServerBind_preserve hph hplt (by decide) (by decide) h3 h4 h)

theorem matchLazyBlock_decomp {op cl l inner r : Str}
    (h : matchLazyBlock op cl l = some (inner, r)) :
    l = op ++ inner ++ cl ++ r := by
  unfold matchLazyBlock at h
  cases h1 : stripLit op l with
  | none => rw [h1] at h; cases h
  | some r1 =>
    rw [h1] at h
    simp only [Option.some_bind] at h
    cases h2 : findSub r1 cl with
    | none => rw [h2] at h; cases h
    | some k =>
      rw [h2] at h
      simp only [Option.map_some', Option.some.injEq, Prod.mk.injEq] at h
      obtain ⟨hi, hr⟩ := h
      have hocc := findSub_some_occAt h2
      rcases hocc with ⟨t, ht⟩
      have htd : t = r1.drop (k + cl.length) := by
        have := congrArg (List.drop cl.length) ht
        rw [List.drop_left] at this
        rw [this, List.drop_drop, Nat.add_comm]
      have hr1 : r1 = r1.take k ++ (cl ++ r1.drop (k + cl.length)) := by
        conv_lhs => rw [← List.take_append_drop k r1]
        congr 1
        rw [← ht, htd]
      rw [stripLit_eq h1, ← hi, ← hr]
      have hcong := congrArg (fun z => op ++ z) hr1
      simpa [List.append_assoc] using hcong

theorem matchLazyBlock_shorter {op cl l inner r : Str}
    (hop : op ≠ []) (hcl : cl ≠ [])
    (h : matchLazyBlock op cl l = some (inner, r)) : r.length < l.length := by
  have := congrArg List.length (matchLazyBlock_decomp h)
  simp at this
  cases op with
  | nil => exact absurd rfl hop
  | cons a as =>
    cases cl with
    | nil => exact absurd rfl hcl
    | cons b bs =>
      simp at this
      omega

theorem rfindAux_some {d p : Str} {k j : Nat} (h : rfindAux d p k = some j) :
    occAt p d j ∧ j ≤ k := by
  induction k with
  | zero =>
    unfold rfindAux at h
    by_cases hp : p.isPrefixOf d
    · rw [if_pos hp] at h
      cases h
      exact ⟨by simpa [occAt] using List.isPrefixOf_iff_prefix.mp hp, le_rfl⟩
    · rw [if_neg hp] at h; cases h
  | succ k ih =>
    unfold rfindAux at h
    by_cases hp : p.isPrefixOf (d.drop (k + 1))
    · rw [if_pos hp] at h
      cases h
      exact ⟨by simpa [occAt] using List.isPrefixOf_iff_prefix.mp hp, le_rfl⟩
    · rw [if_neg hp] at h
      obtain ⟨h1, h2⟩ := ih h
      exact ⟨h1, by omega⟩

theorem rfindAux_max {d p : Str} {k j : Nat} (h : rfindAux d p k = some j) :
    ∀ m, j < m → m ≤ k → ¬ occAt p d m := by
  induction k with
  | zero => intro m hm1 hm2; omega
  | succ k ih =>
    unfold rfindAux at h
    by_cases hp : p.isPrefixOf (d.drop (k + 1))
    · rw [if_pos hp] at h
      cases h
      intro m hm1 hm2
      omega
    · rw [if_neg hp] at h
      intro m hm1 hm2
      rcases Nat.lt_or_ge m (k + 1) with hlt | hge
      · exact ih h m hm1 (by omega)
      · have : m = k + 1 := by omega
        subst this
        intro hocc
        exact hp (List.isPrefixOf_iff_prefix.mpr (by simpa [occAt] using hocc))

theorem rfindAux_none {d p : Str} {k : Nat} (h : rfindAux d p k = none) :
    ∀ m, m ≤ k → ¬ occAt p d m := by
  induction k with
  | zero =>
    unfold rfindAux at h
    by_cases hp : p.isPrefixOf d
    · rw [if_pos hp] at h; cases h
    · intro m hm
      have : m = 0 := by omega
      subst this
      intro hocc
      exact hp (List.isPrefixOf_iff_prefix.mpr (by simpa [occAt] using hocc))
  | succ k ih =>
    unfold rfindAux at h
    by_cases hp : p.isPrefixOf (d.drop (k + 1))
    · rw [if_pos hp] at h; cases h
    · rw [if_neg hp] at h
      intro m hm
      rcases Nat.lt_or_ge m (k + 1) with hlt | hge
      · exact ih h m (by omega)
      · have : m = k + 1 := by omega
        subst this
        intro hocc
        exact hp (List.isPrefixOf_iff_prefix.mpr (by simpa [occAt] using hocc))

theorem occAt_le_length {p d : Str} {m : Nat} (hp : p ≠ []) (h : occAt p d m) :
    m ≤ d.length := by
  by_contra hm
  push_neg at hm
  have hd : d.drop m = [] := List.drop_eq_nil_of_le (by omega)
  rcases h with ⟨t, ht⟩
  rw [hd] at ht
  cases p with
  | nil => exact hp rfl
  | cons a as => simp at ht

theorem rfindSub_some {d p : Str} {j : Nat} (hp : p ≠ [])
    (h : rfindSub d p = some j) :
    occAt p d j ∧ ∀ m, j < m → ¬ occAt p d m := by
  obtain ⟨h1, _⟩ := rfindAux_some h
  refine ⟨h1, ?_⟩
  intro m hm hocc
  exact rfindAux_max h m hm (occAt_le_length hp hocc) hocc

theorem rfindSub_none {d p : Str} (h : rfindSub d p = none) (hp : p ≠ []) :
    ¬ hasOcc p d := by
  rintro ⟨m, hm⟩
  exact rfindAux_none h m (occAt_le_length hp hm) hm

theorem getLast?_cons_some {a : Char} {xs : Str} {c : Char}
    (h : xs.getLast? = some c) : (a :: xs).getLast? = some c := by
  cases xs with
  | nil => cases h
  | cons b t => rw [List.getLast?_cons_cons]; exact h

theorem split_take_drop {l : Str} {s e : Nat} (h : s ≤ e) :
    l = l.take s ++ (l.take e).drop s ++ l.drop e := by
  rw [show l.take s ++ (l.take e).drop s ++ l.drop e =
      (l.take s ++ (l.take e).drop s) ++ l.drop e from rfl]
  conv_lhs => rw [← List.take_append_drop e l]
  congr 1
  conv_lhs => rw [← List.take_append_drop s (l.take e)]
  congr 1
  rw [List.take_take]
  congr 1
  omega

theorem serverHeadSplit_facts {l : Str} {s e : Nat}
    (h : serverHeadSplit l = some (s, e)) :
    (l.take s).getLast? = some '>' ∧ occAt "</Server>".data l e ∧
      s ≤ e ∧ s ≤ l.length := by
  unfold serverHeadSplit at h
  cases h1 : stripLit "<Server".data l with
  | none => rw [h1] at h; cases h
  | some r1 =>
    rw [h1] at h
    simp only [Option.some_bind] at h
    cases h2 : findSub r1 ['>'] with
    | none => rw [h2] at h; cases h
    | some g =>
      rw [h2] at h
      simp only [Option.some_bind] at h
      cases h3 : rfindSub (l.drop ("<Server".data.length + g + 1))
          "</Server>".data with
      | none => rw [h3] at h; cases h
      | some k =>
        rw [h3] at h
        simp only [Option.map_some', Option.some.injEq, Prod.mk.injEq] at h
        obtain ⟨hs, he⟩ := h
        subst hs
        subst he
        have hl : l = "<Server".data ++ r1 := stripLit_eq h1
        have hocc_g : occAt ['>'] r1 g := findSub_some_occAt h2
        have hglt : g < r1.length := by
          have := occAt_le_length (by simp) hocc_g
          rcases hocc_g with ⟨t, ht⟩
          have := congrArg List.length ht
          simp at this
          omega
        have hocc_close := (rfindSub_some (by simp) h3).1
        refine ⟨?_, ?_, ?_, ?_⟩
        · have htake : l.take ("<Server".data.length + g + 1) =
              "<Server".data ++ r1.take (g + 1) := by
            rw [hl]
            rw [show "<Server".data.length + g + 1 =
              "<Server".data.length + (g + 1) from by omega]
            exact List.take_append _
          rw [htake]
          have hr1take : r1.take (g + 1) = r1.take g ++ ['>'] := by
            rw [List.take_add]
            congr 1
            rcases hocc_g with ⟨t, ht⟩
            rw [← ht]
            rfl
          rw [hr1take, List.getLast?_append, List.getLast?_concat]
          rfl
        · rw [occAt_drop] at hocc_close
          have : "<Server".data.length + g + 1 + k =
              "<Server".data.length + g + 1 + k := rfl
          exact hocc_close
        · omega
        · have hlen := congrArg List.length hl
          simp at hlen ⊢
          omega

theorem serverScan_facts :
    ∀ (l : Str) (s e : Nat), serverScan l = some (s, e) →
      (l.take s).getLast? = some '>' ∧ occAt "</Server>".data l e ∧
        s ≤ e ∧ s ≤ l.length := by
  intro l
  induction l with
  | nil => intro s e h; cases h
  | cons c rest ih =>
    intro s e h
    unfold serverScan at h
    cases hm : serverHeadSplit (c :: rest) with
    | some p =>
      rw [hm] at h
      cases h
      exact serverHeadSplit_facts hm
    | none =>
      rw [hm] at h
      cases hs : serverScan rest with
      | none => rw [hs] at h; cases h
      | some p =>
        rw [hs] at h
        simp only [Option.map_some', Option.some.injEq] at h
        obtain ⟨h1, h2, h3, h4⟩ := ih p.1 p.2 (by rw [hs])
        have hse : s = p.1 + 1 ∧ e = p.2 + 1 := by
          have := h.symm
          rw [Prod.ext_iff] at this
          exact ⟨this.1, this.2⟩
        obtain ⟨rfl, rfl⟩ := hse
        refine ⟨?_, ?_, by omega, by simpa using h4⟩
        · rw [List.take_succ_cons]
          exact getLast?_cons_some h1
        · rcases h2 with ⟨t, ht⟩
          exact ⟨t, ht⟩

theorem serverSplit_facts {text : Str} {s e : Nat}
    (h : serverSplit text = some (s, e)) :
    (text.take s).getLast? = some '>' ∧ occAt "</Server>".data text e ∧
      s ≤ e ∧ s ≤ text.length :=
  serverScan_facts text s e h

theorem bindSplit_facts {body : Str} {bi be : Nat}
    (h : bindSplit body = some (bi, be)) :
    (body.take bi).getLast? = some '>' ∧ occAt "</Bind>".data body be ∧
      bi ≤ be := by
  unfold bindSplit at h
  cases h1 : findSub body "<Bind>".data with
  | none => rw [h1] at h; cases h
  | some i =>
    rw [h1] at h
    simp only [Option.some_bind] at h
    cases h2 : findFrom body "</Bind>".data (i + 6) with
    | none => rw [h2] at h; cases h
    | some j =>
      rw [h2] at h
      simp only [Option.map_some', Option.some.injEq, Prod.mk.injEq] at h
      obtain ⟨hbi, hbe⟩ := h
      subst hbi
      subst hbe
      obtain ⟨hj, hocc⟩ := findFrom_some_occAt h2
      refine ⟨?_, hocc, by omega⟩
      have := take_after_occ_getLast (findSub_some_occAt h1)
        (by rfl : ("<Bind>".data : Str).getLast? = some '>')
      simpa using this

theorem subnSigFuel_cons_some {port tls : Str} {fuel : Nat} {c : Char}
    {rest inner r : Str}
    (hm : matchLazyBlock sigOpen sigClose (c :: rest) = some (inner, r)) :
    subnSigFuel port tls (fuel + 1) (c :: rest) = (do
      let i1 ← replace_tag_content inner "Port".data port
      let i2 ← replace_tag_content i1 "TLSPort".data tls
      let p ← subnSigFuel port tls fuel r
      Except.ok (sigOpen ++ i2 ++ sigClose ++ p.1, p.2 + 1)) := by
  show (match matchLazyBlock sigOpen sigClose (c :: rest) with
    | some (inner, r) => do
        let i1 ← replace_tag_content inner "Port".data port
        let i2 ← replace_tag_content i1 "TLSPort".data tls
        let p ← subnSigFuel port tls fuel r
        Except.ok (sigOpen ++ i2 ++ sigClose ++ p.1, p.2 + 1)
    | none => do
        let p ← subnSigFuel port tls fuel rest
        Except.ok (c :: p.1, p.2)) = _
  rw [hm]

theorem subnSigFuel_cons_none {port tls : Str} {fuel : Nat} {c : Char}
    {rest : Str}
    (hm : matchLazyBlock sigOpen sigClose (c :: rest) = none) :
    subnSigFuel port tls (fuel + 1) (c :: rest) = (do
      let p ← subnSigFuel port tls fuel rest
      Except.ok (c :: p.1, p.2)) := by
  show (match matchLazyBlock sigOpen sigClose (c :: rest) with
    | some (inner, r) => do
        let i1 ← replace_tag_content inner "Port".data port
        let i2 ← replace_tag_content i1 "TLSPort".data tls
        let p ← subnSigFuel port tls fuel r
        Except.ok (sigOpen ++ i2 ++ sigClose ++ p.1, p.2 + 1)
    | none => do
        let p ← subnSigFuel port tls fuel rest
        Except.ok (c :: p.1, p.2)) = _
  rw [hm]

theorem subnSigFuel_pre_reflect {port tls : Str} :
    ∀ fuel l res n (pfx : Str), '<' ∉ pfx →
      subnSigFuel port tls fuel l = Except.ok (res, n) →
      pfx <+: res → pfx <+: l := by
  intro fuel
  induction fuel with
  | zero =>
    intro l res n pfx hlt h hp
    injection h with h
    injection h with h1 h2
    rw [← h1] at hp
    exact hp
  | succ fuel ih =>
    intro l res n pfx hlt h hp
    cases l with
    | nil =>
      injection h with h
      injection h with h1 h2
      rw [← h1] at hp
      exact hp
    | cons c rest =>
      cases hm : matchLazyBlock sigOpen sigClose (c :: rest) with
      | some pr =>
        obtain ⟨inner, r⟩ := pr
        rw [subnSigFuel_cons_some hm] at h
        cases hP : replace_tag_content inner "Port".data port with
        | error e => rw [hP, exbind_err] at h; cases h
        | ok i1 =>
          rw [hP, exbind_ok] at h
          cases hT : replace_tag_content i1 "TLSPort".data tls with
          | error e => rw [hT, exbind_err] at h; cases h
          | ok i2 =>
            rw [hT, exbind_ok] at h
            cases hS : subnSigFuel port tls fuel r with
            | error e => rw [hS, exbind_err] at h; cases h
            | ok p =>
              rw [hS, exbind_ok] at h
              injection h with h
              injection h with h1 h2
              rw [← h1] at hp
              cases pfx with
              | nil => exact List.nil_prefix
              | cons q qs =>
                have hq := pre_head hp (by simp) (rfl :
                  (sigOpen ++ i2 ++ sigClose ++ p.1).head? = some '<')
                have : q = '<' := by simpa using hq
                subst this
                exact absurd (List.mem_cons_self _ _) hlt
      | none =>
        rw [subnSigFuel_cons_none hm] at h
        cases hS : subnSigFuel port tls fuel rest with
        | error e => rw [hS, exbind_err] at h; cases h
        | ok p =>
          rw [hS, exbind_ok] at h
          injection h with h
          injection h with h1 h2
          rw [← h1] at hp
          cases pfx with
          | nil => exact List.nil_prefix
          | cons q qs =>
            rcases hp with ⟨tt, htt⟩
            rw [List.cons_append] at htt
            injection htt with hq1 hq2
            subst hq1
            have hqs : qs <+: rest := ih rest p.1 p.2 qs
              (fun hm2 => hlt (List.mem_cons_of_mem _ hm2))
              (by simpa using hS) ⟨tt, hq2⟩
            rcases hqs with ⟨t2, ht2⟩
            exact ⟨t2, by rw [List.cons_append, ht2]⟩

theorem subnSigFuel_preserve {port tls pat : Str}
    (hph : pat.head? = some '<') (hplt : '<' ∉ pat.tail)
    (hgt : '>' ∉ pat.take (pat.length - 1))
    (hvp : noLt port) (hvt : noLt tls)
    (hp1 : ¬ pat <+: sigOpen) (hp2 : ¬ sigOpen <+: pat)
    (hp3 : ¬ pat <+: sigClose) (hp4 : ¬ sigClose <+: pat) :
    ∀ fuel l res n, subnSigFuel port tls fuel l = Except.ok (res, n) →
      hasOcc pat res → hasOcc pat l := by
  intro fuel
  induction fuel with
  | zero =>
    intro l res n h ho
    injection h with h
    injection h with h1 h2
    rw [← h1] at ho
    exact ho
  | succ fuel ih =>
    intro l res n h ho
    cases l with
    | nil =>
      injection h with h
      injection h with h1 h2
      rw [← h1] at ho
      exact ho
    | cons c rest =>
      cases hm : matchLazyBlock sigOpen sigClose (c :: rest) with
      | some pr =>
        obtain ⟨inner, r⟩ := pr
        rw [subnSigFuel_cons_some hm] at h
        cases hP : replace_tag_content inner "Port".data port with
        | error e => rw [hP, exbind_err] at h; cases h
        | ok i1 =>
          rw [hP, exbind_ok] at h
          cases hT : replace_tag_content i1 "TLSPort".data tls with
          | error e => rw [hT, exbind_err] at h; cases h
          | ok i2 =>
            rw [hT, exbind_ok] at h
            cases hS : subnSigFuel port tls fuel r with
            | error e => rw [hS, exbind_err] at h; cases h
            | ok p =>
              rw [hS, exbind_ok] at h
              injection h with h
              injection h with h1 h2
              rw [← h1] at ho
              have ho2 : hasOcc pat (sigOpen ++ (i2 ++ (sigClose ++ p.1))) := by
                simpa [List.append_assoc] using ho
              have h5 := hasOcc_lit_left hph (by decide) hp1 hp2 ho2
              have hdec := matchLazyBlock_decomp hm
              rcases hasOcc_split_headLt hplt
                  (rfl : (sigClose ++ p.1).head? = some '<') h5 with h6 | h6
              · have h7 := replace_tag_content_preserve hT hph hplt hgt hvt h6
                have h8 := replace_tag_content_preserve hP hph hplt hgt hvp h7
                rw [hdec]
                exact hasOcc_append_left _ (hasOcc_append_left _
                  (hasOcc_append_right _ h8))
              · have h7 := hasOcc_lit_left hph (by decide) hp3 hp4 h6
                have h8 := ih r p.1 p.2 (by simpa using hS) h7
                rw [hdec]
                exact hasOcc_append_right _ h8
      | none =>
        rw [subnSigFuel_cons_none hm] at h
        cases hS : subnSigFuel port tls fuel rest with
        | error e => rw [hS, exbind_err] at h; cases h
        | ok p =>
          rw [hS, exbind_ok] at h
          injection h with h
          injection h with h1 h2
          rw [← h1] at ho
          rcases ho with ⟨i, hi⟩
          match i with
          | 0 =>
            have hi0 : pat <+: c :: p.1 := by simpa [occAt] using hi
            cases pat with
            | nil => cases hph
            | cons q ps =>
              rcases hi0 with ⟨tt, htt⟩
              rw [List.cons_append] at htt
              injection htt with hq1 hq2
              subst hq1
              have hps : ps <+: rest :=
                subnSigFuel_pre_reflect fuel rest p.1 p.2 ps
                  (by intro hm2; exact hplt (by simpa using hm2))
                  (by simpa using hS) ⟨tt, hq2⟩
              rcases hps with ⟨t2, ht2⟩
              exact ⟨0, by
                simp only [occAt, List.drop_zero]
                exact ⟨t2, by rw [List.cons_append, ht2]⟩⟩
          | i + 1 =>
            have h2 : hasOcc pat p.1 := ⟨i, by simpa [occAt] using hi⟩
            exact hasOcc_cons (ih rest p.1 p.2 (by simpa using hS) h2)

theorem bindAddressStep_preserve {bb addr res pat : Str}
    (h : bindAddressStep bb addr = Except.ok res)
    (hph : pat.head? = some '<') (hplt : '<' ∉ pat.tail)
    (hgt : '>' ∉ pat.take (pat.length - 1)) (hv : noLt addr) :
    hasOcc pat res → hasOcc pat bb := by
  unfold bindAddressStep at h
  split_ifs at h with hc1 hc2
  · exact replace_tag_content_preserve h hph hplt hgt hv
  · exact replace_tag_content_preserve h hph hplt hgt hv
  · injection h with h
    rw [← h]
    exact id

theorem bindPortsStep_preserve {bb port tls res pat : Str}
    (h : bindPortsStep bb port tls = Except.ok res)
    (hph : pat.head? = some '<') (hplt : '<' ∉ pat.tail)
    (hgt : '>' ∉ pat.take (pat.length - 1))
    (hvp : noLt port) (hvt : noLt tls)
    (hp1 : ¬ pat <+: sigOpen) (hp2 : ¬ sigOpen <+: pat)
    (hp3 : ¬ pat <+: sigClose) (hp4 : ¬ sigClose <+: pat) :
    hasOcc pat res → hasOcc pat bb := by
  unfold bindPortsStep at h
  cases hs : subnSignalling port tls bb with
  | error e => rw [hs, exbind_err] at h; cases h
  | ok p =>
    rw [hs, exbind_ok] at h
    unfold subnSignalling at hs
    by_cases hz : p.2 = 0
    · rw [if_pos hz] at h
      cases hP : replace_tag_content p.1 "Port".data port with
      | error e => rw [hP, exbind_err] at h; cases h
      | ok b1 =>
        rw [hP, exbind_ok] at h
        intro ho
        have h1 := replace_tag_content_preserve h hph hplt hgt hvt ho
        have h2 := replace_tag_content_preserve hP hph hplt hgt hvp h1
        exact subnSigFuel_preserve hph hplt hgt hvp hvt hp1 hp2 hp3 hp4
          bb.length bb p.1 p.2 (by simpa using hs) h2
    · rw [if_neg hz] at h
      injection h with h
      rw [← h]
      intro ho
      exact subnSigFuel_preserve hph hplt hgt hvp hvt hp1 hp2 hp3 hp4
        bb.length bb p.1 p.2 (by simpa using hs) ho

/-! ## Toolkit: the all-occurrences tag scanner -/

theorem matchTagTriple_decomp {tag l cnt r : Str}
    (h : matchTagTriple tag l = some (cnt, r)) :
    l = openTagOf tag ++ cnt ++ closeTagOf tag ++ r ∧ '<' ∉ cnt := by
  unfold matchTagTriple at h
  cases h1 : stripLit (openTagOf tag) l with
  | none => rw [h1] at h; cases h
  | some r1 =>
    rw [h1] at h
    simp only [Option.some_bind] at h
    cases h2 : stripLit (closeTagOf tag)
        (r1.drop (r1.takeWhile (fun c => !(c = '<' : Bool))).length) with
    | none => rw [h2] at h; cases h
    | some r2 =>
      rw [h2] at h
      simp only [Option.map_some', Option.some.injEq, Prod.mk.injEq] at h
      obtain ⟨hc, hr⟩ := h
      constructor
      · have hl := stripLit_eq h1
        have hr1 := stripLit_eq h2
        rcases List.takeWhile_prefix
          (fun c => !(c = '<' : Bool)) (l := r1) with ⟨t, ht⟩
        have hdrop : r1.drop
            (r1.takeWhile (fun c => !(c = '<' : Bool))).length = t := by
          have h3 := congrArg
            (List.drop (r1.takeWhile (fun c => !(c = '<' : Bool))).length) ht
          rw [List.drop_left] at h3
          exact h3.symm
        rw [hdrop] at hr1
        rw [hl, ← ht, hr1, ← hc, ← hr]
        simp [List.append_assoc]
      · rw [← hc]
        intro hm
        have := List.mem_takeWhile_imp hm
        simp at this

theorem subnAllFuel_cons_some {tag value : Str} {fuel : Nat} {c : Char}
    {rest cnt r : Str}
    (hm : matchTagTriple tag (c :: rest) = some (cnt, r)) :
    subnAllFuel tag value (fuel + 1) (c :: rest) =
      (openTagOf tag ++ value ++ closeTagOf tag ++
        (subnAllFuel tag value fuel r).1,
        (subnAllFuel tag value fuel r).2 + 1) := by
  show (match matchTagTriple tag (c :: rest) with
    | some (_, r2) =>
      (openTagOf tag ++ value ++ closeTagOf tag ++
        (subnAllFuel tag value fuel r2).1,
        (subnAllFuel tag value fuel r2).2 + 1)
    | none =>
      (c :: (subnAllFuel tag value fuel rest).1,
        (subnAllFuel tag value fuel rest).2)) = _
  rw [hm]

theorem subnAllFuel_cons_none {tag value : Str} {fuel : Nat} {c : Char}
    {rest : Str}
    (hm : matchTagTriple tag (c :: rest) = none) :
    subnAllFuel tag value (fuel + 1) (c :: rest) =
      (c :: (subnAllFuel tag value fuel rest).1,
        (subnAllFuel tag value fuel rest).2) := by
  show (match matchTagTriple tag (c :: rest) with
    | some (_, r2) =>
      (openTagOf tag ++ value ++ closeTagOf tag ++
        (subnAllFuel tag value fuel r2).1,
        (subnAllFuel tag value fuel r2).2 + 1)
    | none =>
      (c :: (subnAllFuel tag value fuel rest).1,
        (subnAllFuel tag value fuel rest).2)) = _
  rw [hm]

/-- Pattern-side compatibility conditions letting a tag rewrite preserve
the occurrences of an unrelated tag pattern. -/
def tagSafe (pat tag : Str) : Prop :=
  '<' ∉ (openTagOf tag).tail ∧ '<' ∉ (closeTagOf tag).tail ∧
  ¬ pat <+: openTagOf tag ∧ ¬ openTagOf tag <+: pat ∧
  ¬ pat <+: closeTagOf tag ∧ ¬ closeTagOf tag <+: pat

theorem subnAllFuel_pre_reflect {tag value : Str} :
    ∀ fuel l res n (pfx : Str), '<' ∉ pfx →
      subnAllFuel tag value fuel l = (res, n) → pfx <+: res → pfx <+: l := by
  intro fuel
  induction fuel with
  | zero =>
    intro l res n pfx hlt h hp
    injection h with h1 h2
    rw [← h1] at hp
    exact hp
  | succ fuel ih =>
    intro l res n pfx hlt h hp
    cases l with
    | nil =>
      injection h with h1 h2
      rw [← h1] at hp
      exact hp
    | cons c rest =>
      cases hm : matchTagTriple tag (c :: rest) with
      | some pr =>
        obtain ⟨cnt, r⟩ := pr
        rw [subnAllFuel_cons_some hm] at h
        injection h with h1 h2
        rw [← h1] at hp
        cases pfx with
        | nil => exact List.nil_prefix
        | cons q qs =>
          have hq := pre_head hp (by simp)
            (rfl : (openTagOf tag ++ value ++ closeTagOf tag ++
              (subnAllFuel tag value fuel r).1).head? = some '<')
          have : q = '<' := by simpa using hq
          subst this
          exact absurd (List.mem_cons_self _ _) hlt
      | none =>
        rw [subnAllFuel_cons_none hm] at h
        injection h with h1 h2
        rw [← h1] at hp
        cases pfx with
        | nil => exact List.nil_prefix
        | cons q qs =>
          rcases hp with ⟨tt, htt⟩
          rw [List.cons_append] at htt
          injection htt with hq1 hq2
          subst hq1
          have hqs : qs <+: rest := ih rest
            (subnAllFuel tag value fuel rest).1
            (subnAllFuel tag value fuel rest).2 qs
            (fun hm2 => hlt (List.mem_cons_of_mem _ hm2)) rfl ⟨tt, hq2⟩
          rcases hqs with ⟨t2, ht2⟩
          exact ⟨t2, by rw [List.cons_append, ht2]⟩

theorem subnAllFuel_preserve {tag value pat : Str}
    (hph : pat.head? = some '<') (hplt : '<' ∉ pat.tail)
    (hgt : '>' ∉ pat.take (pat.length - 1)) (hv : noLt value)
    (hts : tagSafe pat tag) :
    ∀ fuel l, hasOcc pat (subnAllFuel tag value fuel l).1 → hasOcc pat l := by
  obtain ⟨ho1, ho2, hp1, hp2, hp3, hp4⟩ := hts
  intro fuel
  induction fuel with
  | zero => intro l ho; exact ho
  | succ fuel ih =>
    intro l ho
    cases l with
    | nil => exact ho
    | cons c rest =>
      cases hm : matchTagTriple tag (c :: rest) with
      | some pr =>
        obtain ⟨cnt, r⟩ := pr
        rw [subnAllFuel_cons_some hm] at ho
        have ho2b : hasOcc pat (openTagOf tag ++ (value ++ (closeTagOf tag ++
            (subnAllFuel tag value fuel r).1))) := by
          simpa [List.append_assoc] using ho
        have h5 := hasOcc_lit_left hph ho1 hp1 hp2 ho2b
        have h6 := hasOcc_noLt_left hph hv h5
        have h7 := hasOcc_lit_left hph ho2 hp3 hp4 h6
        have h8 := ih r h7
        rw [(matchTagTriple_decomp hm).1]
        exact hasOcc_append_right _ h8
      | none =>
        rw [subnAllFuel_cons_none hm] at ho
        rcases ho with ⟨i, hi⟩
        match i with
        | 0 =>
          have hi0 : pat <+: c :: (subnAllFuel tag value fuel rest).1 := by
            simpa [occAt] using hi
          cases pat with
          | nil => cases hph
          | cons q ps =>
            rcases hi0 with ⟨tt, htt⟩
            rw [List.cons_append] at htt
            injection htt with hq1 hq2
            subst hq1
            have hps : ps <+: rest := subnAllFuel_pre_reflect fuel rest
              (subnAllFuel tag value fuel rest).1
              (subnAllFuel tag value fuel rest).2 ps
              (by intro hm2; exact hplt (by simpa using hm2)) rfl ⟨tt, hq2⟩
            rcases hps with ⟨t2, ht2⟩
            exact ⟨0, by
              simp only [occAt, List.drop_zero]
              exact ⟨t2, by rw [List.cons_append, ht2]⟩⟩
        | i + 1 =>
          have h2 : hasOcc pat (subnAllFuel tag value fuel rest).1 :=
            ⟨i, by simpa [occAt] using hi⟩
          exact hasOcc_cons (ih rest h2)

theorem subnAllFuel_head {tag value : Str} :
    ∀ fuel l, (subnAllFuel tag value fuel l).1.head? = l.head? := by
  intro fuel
  induction fuel with
  | zero => intro l; rfl
  | succ fuel ih =>
    intro l
    cases l with
    | nil => rfl
    | cons c rest =>
      cases hm : matchTagTriple tag (c :: rest) with
      | some pr =>
        obtain ⟨cnt, r⟩ := pr
        rw [subnAllFuel_cons_some hm]
        have hdec := (matchTagTriple_decomp hm).1
        have hc : c = '<' := by
          have h1 := congrArg List.head? hdec
          rw [show (openTagOf tag ++ cnt ++ closeTagOf tag ++ r).head? =
            some '<' from rfl] at h1
          exact Option.some.inj h1
        subst hc
        rfl
      | none =>
        rw [subnAllFuel_cons_none hm]
        rfl

theorem subnAllFuel_nilFuel {tag value : Str} (fuel : Nat) :
    subnAllFuel tag value fuel [] = ([], 0) := by
  cases fuel <;> rfl

theorem subnAllFuel_endsGt {tag value : Str} :
    ∀ fuel l, l.getLast? = some '>' →
      (subnAllFuel tag value fuel l).1.getLast? = some '>' := by
  intro fuel
  induction fuel with
  | zero => intro l h; exact h
  | succ fuel ih =>
    intro l h
    cases l with
    | nil => simp at h
    | cons c rest =>
      cases hm : matchTagTriple tag (c :: rest) with
      | some pr =>
        obtain ⟨cnt, r⟩ := pr
        rw [subnAllFuel_cons_some hm]
        have hdec := (matchTagTriple_decomp hm).1
        by_cases hr0 : r = []
        · have hp1 : (subnAllFuel tag value fuel r).1 = [] := by
            rw [hr0, subnAllFuel_nilFuel]
          show (openTagOf tag ++ value ++ closeTagOf tag ++
            (subnAllFuel tag value fuel r).1).getLast? = some '>'
          rw [hp1, List.append_nil, List.getLast?_append, closeTag_getLast]
          rfl
        · have hrs : r <:+ c :: rest := ⟨openTagOf tag ++ cnt ++ closeTagOf tag,
            hdec.symm⟩
          have hrlast : r.getLast? = some '>' := suf_getLast hrs hr0 h
          have hplast := ih r hrlast
          show (openTagOf tag ++ value ++ closeTagOf tag ++
            (subnAllFuel tag value fuel r).1).getLast? = some '>'
          rw [List.getLast?_append, hplast]
          rfl
      | none =>
        rw [subnAllFuel_cons_none hm]
        cases hr0 : rest with
        | nil =>
          subst hr0
          show (c :: (subnAllFuel tag value fuel []).1).getLast? = some '>'
          rw [subnAllFuel_nilFuel]
          exact h
        | cons d ds =>
          subst hr0
          have hrl : (d :: ds).getLast? = some '>' := by
            rw [List.getLast?_cons_cons] at h
            exact h
          have hp := ih (d :: ds) hrl
          exact getLast?_cons_some hp

theorem replace_all_optional_preserve {data tag value pat : Str}
    (hph : pat.head? = some '<') (hplt : '<' ∉ pat.tail)
    (hgt : '>' ∉ pat.take (pat.length - 1)) (hv : noLt value)
    (hts : tagSafe pat tag)
    (h : hasOcc pat (replace_all_optional data tag value)) : hasOcc pat data :=
  subnAllFuel_preserve hph hplt hgt hv hts data.length data h

theorem replace_all_optional_head (data tag value : Str) :
    (replace_all_optional data tag value).head? = data.head? :=
  subnAllFuel_head data.length data

theorem replace_all_optional_endsGt {data tag value : Str}
    (h : data.getLast? = some '>') :
    (replace_all_optional data tag value).getLast? = some '>' :=
  subnAllFuel_endsGt data.length data h

theorem opt_step_preserve {sb tag bind pat : Str}
    (hph : pat.head? = some '<') (hplt : '<' ∉ pat.tail)
    (hgt : '>' ∉ pat.take (pat.length - 1)) (hv : noLt bind)
    (hts : tagSafe pat tag)
    (h : hasOcc pat (if containsSub sb (openTagOf tag) then
      replace_all_optional sb tag bind else sb)) : hasOcc pat sb := by
  by_cases hc : containsSub sb (openTagOf tag)
  · rw [if_pos hc] at h
    exact replace_all_optional_preserve hph hplt hgt hv hts h
  · rw [if_neg hc] at h
    exact h

theorem opt_step_head (sb tag bind : Str) :
    (if containsSub sb (openTagOf tag) then
      replace_all_optional sb tag bind else sb).head? = sb.head? := by
  by_cases hc : containsSub sb (openTagOf tag)
  · rw [if_pos hc]
    exact replace_all_optional_head sb tag bind
  · rw [if_neg hc]

theorem opt_step_endsGt {sb tag bind : Str} (h : sb.getLast? = some '>') :
    (if containsSub sb (openTagOf tag) then
      replace_all_optional sb tag bind else sb).getLast? = some '>' := by
  by_cases hc : containsSub sb (openTagOf tag)
  · rw [if_pos hc]
    exact replace_all_optional_endsGt h
  · rw [if_neg hc]
    exact h

/-! ## Toolkit: the legacy control-module rewrite -/

theorem controlSplit_facts {text : Str} {cs ce : Nat}
    (h : controlSplit text = some (cs, ce)) :
    occAt "<Control>".data text cs ∧
      ∃ j, ce = j + 10 ∧ occAt "</Control>".data text j ∧ cs + 9 ≤ j := by
  unfold controlSplit at h
  cases h1 : findSub text "<Control>".data with
  | none => rw [h1] at h; cases h
  | some i =>
    rw [h1] at h
    simp only [Option.some_bind] at h
    cases h2 : findFrom text "</Control>".data (i + 9) with
    | none => rw [h2] at h; cases h
    | some j =>
      rw [h2] at h
      simp only [Option.map_some', Option.some.injEq, Prod.mk.injEq] at h
      obtain ⟨hcs, hce⟩ := h
      subst hcs
      subst hce
      obtain ⟨hj, hocc⟩ := findFrom_some_occAt h2
      exact ⟨findSub_some_occAt h1, j, rfl, hocc, hj⟩

theorem innerServerSplit_facts {cb : Str} {ss se : Nat}
    (h : innerServerSplit cb = some (ss, se)) :
    occAt "<Server>".data cb ss ∧
      ∃ j, se = j + 9 ∧ occAt "</Server>".data cb j ∧ ss + 8 ≤ j := by
  unfold innerServerSplit at h
  cases h1 : findSub cb "<Server>".data with
  | none => rw [h1] at h; cases h
  | some i =>
    rw [h1] at h
    simp only [Option.some_bind] at h
    cases h2 : findFrom cb "</Server>".data (i + 8) with
    | none => rw [h2] at h; cases h
    | some j =>
      rw [h2] at h
      simp only [Option.map_some', Option.some.injEq, Prod.mk.injEq] at h
      obtain ⟨hss, hse⟩ := h
      subst hss
      subst hse
      obtain ⟨hj, hocc⟩ := findFrom_some_occAt h2
      exact ⟨findSub_some_occAt h1, j, rfl, hocc, hj⟩

theorem head?_drop_take {l : Str} {s e : Nat} {c : Char} (hse : s < e)
    (h : (l.drop s).head? = some c) : ((l.take e).drop s).head? = some c := by
  rw [List.drop_take]
  cases hl : l.drop s with
  | nil => rw [hl] at h; cases h
  | cons a as =>
    rw [hl] at h
    injection h with h
    subst h
    rw [show e - s = (e - s - 1) + 1 from by omega, List.take_succ_cons]
    rfl

theorem ne_nil_of_head {l : Str} {c : Char} (h : l.head? = some c) :
    l ≠ [] := by
  intro hn
  rw [hn] at h
  cases h

theorem head?_append_some {l l2 : Str} {c : Char} (h : l.head? = some c) :
    (l ++ l2).head? = some c := by
  cases l with
  | nil => cases h
  | cons a as => simpa using h

theorem scopedReplaceControlBindings_preserve {text bind pat : Str}
    (hph : pat.head? = some '<') (hplt : '<' ∉ pat.tail)
    (hgt : '>' ∉ pat.take (pat.length - 1)) (hv : noLt bind)
    (hB : tagSafe pat "Bind".data) (hI : tagSafe pat "IP".data)
    (hA : tagSafe pat "Address".data) :
    hasOcc pat (scopedReplaceControlBindings text bind) → hasOcc pat text := by
  intro ho
  unfold scopedReplaceControlBindings at ho
  cases hC : controlSplit text with
  | none => simp only [hC] at ho; exact ho
  | some cp =>
    obtain ⟨cs, ce⟩ := cp
    simp only [hC] at ho
    cases hS : innerServerSplit ((text.take ce).drop cs) with
    | none => simp only [hS] at ho; exact ho
    | some sp =>
      obtain ⟨ss, se⟩ := sp
      simp only [hS] at ho
      obtain ⟨hcop, j, hce, hccl, hcj⟩ := controlSplit_facts hC
      obtain ⟨hsop, j2, hse, hscl, hsj⟩ := innerServerSplit_facts hS
      set cb := (text.take ce).drop cs with hcb
      set sb := (cb.take se).drop ss with hsb
      set s1 := if containsSub sb (openTagOf "Bind".data) then
        replace_all_optional sb "Bind".data bind else sb with hs1
      set s2 := if containsSub s1 (openTagOf "IP".data) then
        replace_all_optional s1 "IP".data bind else s1 with hs2
      set s3 := if containsSub s2 (openTagOf "Address".data) then
        replace_all_optional s2 "Address".data bind else s2 with hs3
      have hcbh : cb.head? = some '<' := by
        rw [hcb]
        exact head?_drop_take (by omega) (occAt_head hcop rfl)
      have hcbne : cb ≠ [] := ne_nil_of_head hcbh
      have hcblast : cb.getLast? = some '>' := by
        have h1 : (text.take ce).getLast? = some '>' := by
          have h2 := take_after_occ_getLast hccl
            (rfl : ("</Control>".data : Str).getLast? = some '>')
          rw [hce]
          simpa using h2
        rw [hcb]
        exact suf_getLast (dropIsSuf cs (text.take ce)) (by rw [← hcb]; exact hcbne) h1
      have hsbh : sb.head? = some '<' := by
        rw [hsb]
        exact head?_drop_take (by omega) (occAt_head hsop rfl)
      have hsbne : sb ≠ [] := ne_nil_of_head hsbh
      have hsblast : sb.getLast? = some '>' := by
        have h1 : (cb.take se).getLast? = some '>' := by
          have h2 := take_after_occ_getLast hscl
            (rfl : ("</Server>".data : Str).getLast? = some '>')
          rw [hse]
          simpa using h2
        rw [hsb]
        exact suf_getLast (dropIsSuf ss (cb.take se)) (by rw [← hsb]; exact hsbne) h1
      have h3head : s3.head? = some '<' := by
        rw [hs3, opt_step_head, hs2, opt_step_head, hs1, opt_step_head]
        exact hsbh
      have h3ne : s3 ≠ [] := ne_nil_of_head h3head
      have h3last : s3.getLast? = some '>' := by
        rw [hs3]
        apply opt_step_endsGt
        rw [hs2]
        apply opt_step_endsGt
        rw [hs1]
        exact opt_step_endsGt hsblast
      have h3pres : hasOcc pat s3 → hasOcc pat sb := by
        intro hx
        rw [hs3] at hx
        have hx2 := opt_step_preserve hph hplt hgt hv hA hx
        rw [hs2] at hx2
        have hx1 := opt_step_preserve hph hplt hgt hv hI hx2
        rw [hs1] at hx1
        exact opt_step_preserve hph hplt hgt hv hB hx1
      rw [List.append_assoc] at ho
      have hXW_head : ((cb.take ss ++ s3 ++ cb.drop se) ++ text.drop ce).head? =
          some '<' := by
        cases hts : (cb.take ss).head? with
        | none =>
          have hnil : cb.take ss = [] := by
            cases hq : cb.take ss with
            | nil => rfl
            | cons a as => rw [hq] at hts; cases hts
          rw [hnil]
          simp only [List.nil_append]
          exact head?_append_some (head?_append_some h3head)
        | some a =>
          have h5 := pre_head (takeIsPre ss cb) (ne_nil_of_head hts) hcbh
          rw [hts] at h5
          injection h5 with h5
          subst h5
          exact head?_append_some (head?_append_some (head?_append_some hts))
      rcases hasOcc_split_headLt hplt hXW_head ho with h1 | h1
      · exact hasOcc_take h1
      · have hXlast : (cb.take ss ++ s3 ++ cb.drop se).getLast? = some '>' := by
          by_cases htd : cb.drop se = []
          · rw [htd, List.append_nil, List.getLast?_append, h3last]
            rfl
          · have hdlast : (cb.drop se).getLast? = some '>' :=
              suf_getLast (dropIsSuf se cb) htd hcblast
            rw [List.getLast?_append, hdlast]
            rfl
        rcases hasOcc_split_gtEnd hgt hXlast h1 with h2 | h2
        · have hABlast : (cb.take ss ++ s3).getLast? = some '>' := by
            rw [List.getLast?_append, h3last]
            rfl
          rcases hasOcc_split_gtEnd hgt hABlast h2 with h3 | h3
          · rcases hasOcc_split_headLt hplt h3head h3 with h4 | h4
            · have h5 := hasOcc_take h4
              rw [hcb] at h5
              exact hasOcc_take_drop h5
            · have h5 := h3pres h4
              rw [hsb] at h5
              have h6 := hasOcc_take_drop h5
              rw [hcb] at h6
              exact hasOcc_take_drop h6
          · have h5 := hasOcc_drop h3
            rw [hcb] at h5
            exact hasOcc_take_drop h5
        · exact hasOcc_drop h2

/-! ## Toolkit: the root-IP scan -/

theorem rootIpFuel_cons_some {body ip : Str} {fuel : Nat} {c : Char}
    {rest inner r : Str} {off : Nat}
    (hm : matchLazyBlock ipOpen ipClose (c :: rest) = some (inner, r)) :
    rootIpFuel body ip (fuel + 1) (c :: rest) off =
      (if skipAt body (off + 4) then
        rootIpFuel body ip fuel r (off + 4 + inner.length + 5)
      else some (body.take (off + 4) ++ ip ++
        body.drop (off + 4 + inner.length))) := by
  show (match matchLazyBlock ipOpen ipClose (c :: rest) with
    | some (inner2, r2) =>
      if skipAt body (off + 4) then
        rootIpFuel body ip fuel r2 (off + 4 + inner2.length + 5)
      else some (body.take (off + 4) ++ ip ++
        body.drop (off + 4 + inner2.length))
    | none => rootIpFuel body ip fuel rest (off + 1)) = _
  rw [hm]

theorem rootIpFuel_cons_none {body ip : Str} {fuel : Nat} {c : Char}
    {rest : Str} {off : Nat}
    (hm : matchLazyBlock ipOpen ipClose (c :: rest) = none) :
    rootIpFuel body ip (fuel + 1) (c :: rest) off =
      rootIpFuel body ip fuel rest (off + 1) := by
  show (match matchLazyBlock ipOpen ipClose (c :: rest) with
    | some (inner2, r2) =>
      if skipAt body (off + 4) then
        rootIpFuel body ip fuel r2 (off + 4 + inner2.length + 5)
      else some (body.take (off + 4) ++ ip ++
        body.drop (off + 4 + inner2.length))
    | none => rootIpFuel body ip fuel rest (off + 1)) = _
  rw [hm]

theorem rootIpFuel_preserve {body ip pat : Str}
    (hph : pat.head? = some '<') (hplt : '<' ∉ pat.tail)
    (hgt : '>' ∉ pat.take (pat.length - 1)) (hv : noLt ip) :
    ∀ fuel l off, body.drop off = l →
      ∀ res, rootIpFuel body ip fuel l off = some res →
      hasOcc pat res → hasOcc pat body := by
  intro fuel
  induction fuel with
  | zero => intro l off hinv res h; cases h
  | succ fuel ih =>
    intro l off hinv res h ho
    cases l with
    | nil => cases h
    | cons c rest =>
      cases hm : matchLazyBlock ipOpen ipClose (c :: rest) with
      | some pr =>
        obtain ⟨inner, r⟩ := pr
        rw [rootIpFuel_cons_some hm] at h
        have hdec := matchLazyBlock_decomp hm
        have hb2 : body.drop off = ipOpen ++ inner ++ ipClose ++ r := by
          rw [hinv, hdec]
        by_cases hskip : skipAt body (off + 4)
        · rw [if_pos hskip] at h
          apply ih r (off + 4 + inner.length + 5) ?_ res h ho
          rw [show off + 4 + inner.length + 5 = off + (4 + inner.length + 5) from
            by omega, ← List.drop_drop, hb2,
            show ipOpen ++ inner ++ ipClose ++ r =
              (ipOpen ++ inner ++ ipClose) ++ r from by
                simp [List.append_assoc]]
          exact List.drop_left' (by simp [ipOpen, ipClose]; omega)
        · rw [if_neg hskip] at h
          injection h with h
          rw [← h] at ho
          have hb3 : body.drop (off + 4 + inner.length) = ipClose ++ r := by
            rw [show off + 4 + inner.length = off + (4 + inner.length) from
              by omega, ← List.drop_drop, hb2,
              show ipOpen ++ inner ++ ipClose ++ r =
                (ipOpen ++ inner) ++ (ipClose ++ r) from by
                  simp [List.append_assoc]]
            exact List.drop_left' (by simp [ipOpen]; omega)
          have hz : (body.drop (off + 4 + inner.length)).head? = some '<' := by
            rw [hb3]
            rfl
          rcases hasOcc_split_headLt hplt hz ho with h1 | h1
          · have hocc : occAt ipOpen body off := ⟨inner ++ (ipClose ++ r), by
              rw [hb2]; simp [List.append_assoc]⟩
            have hA : (body.take (off + 4)).getLast? = some '>' := by
              have h2 := take_after_occ_getLast hocc
                (rfl : (ipOpen : Str).getLast? = some '>')
              simpa using h2
            rcases hasOcc_split_gtEnd hgt hA h1 with h2 | h2
            · exact hasOcc_take h2
            · exact absurd h2 (no_occ_in_noLt hph hv)
          · exact hasOcc_drop h1
      | none =>
        rw [rootIpFuel_cons_none hm] at h
        apply ih rest (off + 1) ?_ res h ho
        rw [← List.drop_drop, hinv]
        rfl

theorem replaceRootIp_preserve {text ip res pat : Str}
    (h : replaceRootIp text ip = Except.ok res)
    (hph : pat.head? = some '<') (hplt : '<' ∉ pat.tail)
    (hgt : '>' ∉ pat.take (pat.length - 1)) (hv : noLt ip) :
    hasOcc pat res → hasOcc pat text := by
  unfold replaceRootIp at h
  cases hS : serverSplit text with
  | none => rw [hS] at h; cases h
  | some se0 =>
    obtain ⟨s, e⟩ := se0
    simp only [hS] at h
    cases hF : rootIpFuel ((text.take e).drop s) ip
        ((text.take e).drop s).length ((text.take e).drop s) 0 with
    | none =>
      rw [hF] at h
      injection h with h
      rw [← h]
      exact id
    | some nb =>
      rw [hF] at h
      injection h with h
      rw [← h]
      intro ho
      obtain ⟨hsg, hsc, hsle, hsl⟩ := serverSplit_facts hS
      have hz : (text.drop e).head? = some '<' := occAt_head hsc rfl
      rw [List.append_assoc] at ho
      have hnb : hasOcc pat nb → hasOcc pat text := fun hx =>
        hasOcc_take_drop (rootIpFuel_preserve hph hplt hgt hv
          ((text.take e).drop s).length ((text.take e).drop s) 0 rfl nb hF hx)
      rcases hasOcc_append_elim ho with h1 | h1 | ⟨s2, t2, hst, hsne, htne, hsu, htp, hpl⟩
      · exact hasOcc_take h1
      · rcases hasOcc_split_headLt hplt hz h1 with h2 | h2
        · exact hnb h2
        · exact hasOcc_drop h2
      · exact (no_cross_from_gtEnd hgt hsg hsu ⟨t2, hst⟩ hsne hpl).elim

/-! ## Toolkit: the bind-rewrite stage and the credential gate -/

theorem replaceRootBindings_preserve {text address port tls res pat : Str}
    (h : replaceRootBindings text address port tls = Except.ok res)
    (hph : pat.head? = some '<') (hplt : '<' ∉ pat.tail)
    (hgt : '>' ∉ pat.take (pat.length - 1))
    (hva : noLt address) (hvp : noLt port) (hvt : noLt tls)
    (hp1 : ¬ pat <+: sigOpen) (hp2 : ¬ sigOpen <+: pat)
    (hp3 : ¬ pat <+: sigClose) (hp4 : ¬ sigClose <+: pat) :
    hasOcc pat res → hasOcc pat text := by
  unfold replaceRootBindings at h
  cases hS : serverSplit text with
  | none => rw [hS] at h; cases h
  | some se0 =>
    obtain ⟨s, e⟩ := se0
    simp only [hS] at h
    cases hB : bindSplit ((text.take e).drop s) with
    | none => simp only [hB] at h; cases h
    | some bb =>
      obtain ⟨bi, be⟩ := bb
      simp only [hB] at h
      cases hA : bindAddressStep ((((text.take e).drop s).take be).drop bi)
          address with
      | error er => rw [hA, exbind_err] at h; cases h
      | ok bb2 =>
        rw [hA, exbind_ok] at h
        cases hP : bindPortsStep bb2 port tls with
        | error er => rw [hP, exbind_err] at h; cases h
        | ok bb3 =>
          rw [hP, exbind_ok] at h
          injection h with h
          rw [← h]
          intro ho
          obtain ⟨hsg, hsc, hse, hsl⟩ := serverSplit_facts hS
          obtain ⟨hbg, hbc, hbe⟩ := bindSplit_facts hB
          have hz1 : (text.drop e).head? = some '<' := occAt_head hsc rfl
          rcases hasOcc_split_headLt hplt hz1 ho with h1 | h1
          · rcases hasOcc_split_gtEnd hgt hsg h1 with h2 | h2
            · exact hasOcc_take h2
            · have hz2 : (((text.take e).drop s).drop be).head? = some '<' :=
                occAt_head hbc rfl
              rcases hasOcc_split_headLt hplt hz2 h2 with h3 | h3
              · rcases hasOcc_split_gtEnd hgt hbg h3 with h4 | h4
                · exact hasOcc_take_drop (hasOcc_take h4)
                · have h5 := bindPortsStep_preserve hP hph hplt hgt hvp hvt
                    hp1 hp2 hp3 hp4 h4
                  have h6 := bindAddressStep_preserve hA hph hplt hgt hva h5
                  exact hasOcc_take_drop (hasOcc_take_drop h6)
              · exact hasOcc_take_drop (hasOcc_drop h3)
          · exact hasOcc_drop h1

theorem replace_tag_content_err_of_no_open {data tag value : Str}
    (h : ¬ hasOcc (openTagOf tag) data) :
    replace_tag_content data tag value =
      Except.error ("missing ".data ++ openTagOf tag ++ " in template".data) := by
  unfold replace_tag_content
  rw [findSub_eq_none h]

theorem replace_tag_content_ok_hasOcc {data tag value res : Str}
    (h : replace_tag_content data tag value = Except.ok res) :
    hasOcc (openTagOf tag) data := by
  unfold replace_tag_content at h
  cases hf : findSub data (openTagOf tag) with
  | none => rw [hf] at h; cases h
  | some i => exact ⟨i, findSub_some_occAt hf⟩

instance tagSafeDec (pat tag : Str) : Decidable (tagSafe pat tag) := by
  unfold tagSafe
  infer_instance

/-- Occurrence preservation through the stages preceding the credential
rewrites: any occurrence of a compatible tag pattern in the document the
credential stage sees was already present in the template. -/
theorem credChain {template bind serverIp port tlsPort : Str} {t2 t3 : Str}
    {pat : Str}
    (hR : replaceRootBindings (normalizeServerBind template) (xml_escape bind)
      (xml_escape port) (xml_escape tlsPort) = Except.ok t2)
    (hI : replaceRootIp t2 (xml_escape serverIp) = Except.ok t3)
    (hph : pat.head? = some '<') (hplt : '<' ∉ pat.tail)
    (hgt : '>' ∉ pat.take (pat.length - 1))
    (hsig1 : ¬ pat <+: sigOpen) (hsig2 : ¬ sigOpen <+: pat)
    (hsig3 : ¬ pat <+: sigClose) (hsig4 : ¬ sigClose <+: pat)
    (hb1 : ¬ pat <+: "<Bind>".data) (hb2 : ¬ ("<Bind>".data : Str) <+: pat)
    (hb3 : ¬ pat <+: "</Bind>".data) (hb4 : ¬ ("</Bind>".data : Str) <+: pat)
    (htB : tagSafe pat "Bind".data) (htI : tagSafe pat "IP".data)
    (htA : tagSafe pat "Address".data)
    (ho : hasOcc pat (scopedReplaceControlBindings t3 (xml_escape bind))) :
    hasOcc pat template :=
  normalizeServerBind_preserve hph hplt hb1 hb2 hb3 hb4
    (replaceRootBindings_preserve hR hph hplt hgt (xml_escape_noLt bind)
      (xml_escape_noLt port) (xml_escape_noLt tlsPort) hsig1 hsig2 hsig3 hsig4
      (replaceRootIp_preserve hI hph hplt hgt (xml_escape_noLt serverIp)
        (scopedReplaceControlBindings_preserve hph hplt hgt
          (xml_escape_noLt bind) htB htI htA ho)))

/-- A successful run of the pre-authentication pipeline certifies that
the template contained both credential opening tags. -/
theorem renderPre_ok_credentials {template bind serverIp port tlsPort
    username password t : Str}
    (h : renderPre template bind serverIp port tlsPort username password =
      Except.ok t) :
    hasOcc (openTagOf "ID".data) template ∧
      hasOcc (openTagOf "Password".data) template := by
  unfold renderPre at h
  cases hR : replaceRootBindings (normalizeServerBind template)
      (xml_escape bind) (xml_escape port) (xml_escape tlsPort) with
  | error e => rw [hR, exbind_err] at h; cases h
  | ok t2 =>
    rw [hR, exbind_ok] at h
    cases hI : replaceRootIp t2 (xml_escape serverIp) with
    | error e => rw [hI, exbind_err] at h; cases h
    | ok t3 =>
      rw [hI, exbind_ok] at h
      cases hID : replace_tag_content
          (scopedReplaceControlBindings t3 (xml_escape bind)) "ID".data
          (xml_escape username) with
      | error e => rw [hID, exbind_err] at h; cases h
      | ok t5 =>
        rw [hID, exbind_ok] at h
        have hIDocc := replace_tag_content_ok_hasOcc hID
        have hPWocc := replace_tag_content_ok_hasOcc h
        constructor
        · exact credChain hR hI (by decide) (by decide) (by decide) (by decide)
            (by decide) (by decide) (by decide) (by decide) (by decide)
            (by decide) (by decide) (by decide) (by decide) (by decide) hIDocc
        · have h5 := replace_tag_content_preserve hID (by decide) (by decide)
            (by decide) (xml_escape_noLt username) hPWocc
          exact credChain hR hI (by decide) (by decide) (by decide) (by decide)
            (by decide) (by decide) (by decide) (by decide) (by decide)
            (by decide) (by decide) (by decide) (by decide) (by decide) h5

/-- C1: a template missing its first ID opening tag or its first Password
opening tag makes the renderer abort fatally with an error message.  In
this development an error value of render models the fatal abort of the
source, which is raised before the output file is opened, so no output
is written; the ok value is the only text ever written. -/
theorem C1_missing_credentials_fatal
    (template bind serverIp port tlsPort username password apiToken : Str)
    (inc : Bool)
    (h : ¬ hasOcc (openTagOf "ID".data) template ∨
         ¬ hasOcc (openTagOf "Password".data) template) :
    ∃ msg, render template bind serverIp port tlsPort username password
      apiToken inc = Except.error msg := by
  unfold render
  cases hPre : renderPre template bind serverIp port tlsPort username
      password with
  | error e => exact ⟨e, by rw [exbind_err]⟩
  | ok t =>
    have hcred := renderPre_ok_credentials hPre
    rcases h with h | h
    · exact absurd hcred.1 h
    · exact absurd hcred.2 h

theorem C1_missing_credentials_fatal_witness :
    (¬ hasOcc (openTagOf "ID".data) "<Server><Bind></Bind></Server>".data ∨
     ¬ hasOcc (openTagOf "Password".data)
       "<Server><Bind></Bind></Server>".data) ∧
    ∃ msg, render "<Server><Bind></Bind></Server>".data "b".data "i".data
      "p".data "t".data "u".data "w".data "k".data true =
      Except.error msg :=
  ⟨Or.inl (by decide),
    C1_missing_credentials_fatal _ _ _ _ _ _ _ _ _ (Or.inl (by decide))⟩

theorem rootIpFuel_none_of_allskip {body ip : Str}
    (hall : ∀ p, occAt ipOpen body p → skipAt body (p + 4) = true) :
    ∀ fuel l off, body.drop off = l → rootIpFuel body ip fuel l off = none := by
  intro fuel
  induction fuel with
  | zero => intro l off hinv; rfl
  | succ fuel ih =>
    intro l off hinv
    cases l with
    | nil => rfl
    | cons c rest =>
      cases hm : matchLazyBlock ipOpen ipClose (c :: rest) with
      | some pr =>
        obtain ⟨inner, r⟩ := pr
        have hdec := matchLazyBlock_decomp hm
        have hb2 : body.drop off = ipOpen ++ inner ++ ipClose ++ r := by
          rw [hinv, hdec]
        have hocc : occAt ipOpen body off := ⟨inner ++ (ipClose ++ r), by
          rw [hb2]; simp [List.append_assoc]⟩
        rw [rootIpFuel_cons_some hm, if_pos (hall off hocc)]
        apply ih r (off + 4 + inner.length + 5)
        rw [show off + 4 + inner.length + 5 = off + (4 + inner.length + 5) from
          by omega, ← List.drop_drop, hb2,
          show ipOpen ++ inner ++ ipClose ++ r =
            (ipOpen ++ inner ++ ipClose) ++ r from by simp [List.append_assoc]]
        exact List.drop_left' (by simp [ipOpen, ipClose]; omega)
      | none =>
        rw [rootIpFuel_cons_none hm]
        apply ih rest (off + 1)
        rw [← List.drop_drop, hinv]
        rfl

theorem rootIpFuel_some_decomp {body ip : Str} :
    ∀ fuel l off, body.drop off = l → ∀ res,
      rootIpFuel body ip fuel l off = some res →
      ∃ u x w, body = u ++ (ipOpen ++ (x ++ (ipClose ++ w))) ∧
        skipAt body (u.length + 4) = false ∧
        res = u ++ (ipOpen ++ (ip ++ (ipClose ++ w))) := by
  intro fuel
  induction fuel with
  | zero => intro l off hinv res h; cases h
  | succ fuel ih =>
    intro l off hinv res h
    cases l with
    | nil => cases h
    | cons c rest =>
      cases hm : matchLazyBlock ipOpen ipClose (c :: rest) with
      | some pr =>
        obtain ⟨inner, r⟩ := pr
        have hdec := matchLazyBlock_decomp hm
        have hb2 : body.drop off = ipOpen ++ inner ++ ipClose ++ r := by
          rw [hinv, hdec]
        rw [rootIpFuel_cons_some hm] at h
        by_cases hskip : skipAt body (off + 4)
        · rw [if_pos hskip] at h
          apply ih r (off + 4 + inner.length + 5) ?_ res h
          rw [show off + 4 + inner.length + 5 = off + (4 + inner.length + 5)
            from by omega, ← List.drop_drop, hb2,
            show ipOpen ++ inner ++ ipClose ++ r =
              (ipOpen ++ inner ++ ipClose) ++ r from by simp [List.append_assoc]]
          exact List.drop_left' (by simp [ipOpen, ipClose]; omega)
        · rw [if_neg hskip] at h
          injection h with h
          simp only [Bool.not_eq_true] at hskip
          have hoff : off < body.length := by
            have h2 := congrArg List.length hinv
            simp at h2
            omega
          have hu : (body.take off).length = off := by
            rw [List.length_take]
            omega
          have hd4 : body.drop (off + 4 + inner.length) = ipClose ++ r := by
            rw [show off + 4 + inner.length = off + (4 + inner.length) from
              by omega, ← List.drop_drop, hb2,
              show ipOpen ++ inner ++ ipClose ++ r =
                (ipOpen ++ inner) ++ (ipClose ++ r) from by
                  simp [List.append_assoc]]
            exact List.drop_left' (by simp [ipOpen]; omega)
          have ht4 : body.take (off + 4) = body.take off ++ ipOpen := by
            rw [List.take_add]
            congr 1
            rw [hb2, show ipOpen ++ inner ++ ipClose ++ r =
              ipOpen ++ (inner ++ ipClose ++ r) from by simp [List.append_assoc]]
            exact List.take_left' (by simp [ipOpen])
          refine ⟨body.take off, inner, r, ?_, ?_, ?_⟩
          · conv_lhs => rw [← List.take_append_drop off body]
            rw [hb2]
            simp [List.append_assoc]
          · rw [hu]
            exact hskip
          · rw [← h, ht4, hd4]
            simp [List.append_assoc]
      | none =>
        rw [rootIpFuel_cons_none hm] at h
        apply ih rest (off + 1) ?_ res h
        rw [← List.drop_drop, hinv]
        rfl

/-- C3: with a root server element located, the root-IP rewrite never
fails: when every full IP block inside the server body starts at a
position the nesting test skips - in particular when there is no IP
block at all - the document is returned unchanged; otherwise the result
is the document with exactly one IP content spliced, at a block the
nesting test accepts (it lies in no unclosed bind or virtual-hosts
section), with every byte before and after that block, including every
nested IP occurrence, kept identical. -/
theorem C3_root_ip_rewrite (text ip : Str) {s e : Nat}
    (hS : serverSplit text = some (s, e)) :
    ((∀ p, occAt ipOpen ((text.take e).drop s) p →
        skipAt ((text.take e).drop s) (p + 4) = true) →
      replaceRootIp text ip = Except.ok text) ∧
    (replaceRootIp text ip = Except.ok text ∨
      ∃ u x w, (text.take e).drop s = u ++ (ipOpen ++ (x ++ (ipClose ++ w))) ∧
        skipAt ((text.take e).drop s) (u.length + 4) = false ∧
        replaceRootIp text ip = Except.ok
          (text.take s ++ (u ++ (ipOpen ++ (ip ++ (ipClose ++ w)))) ++
            text.drop e)) := by
  constructor
  · intro hall
    have hnone := @rootIpFuel_none_of_allskip ((text.take e).drop s) ip hall
      ((text.take e).drop s).length ((text.take e).drop s) 0 rfl
    unfold replaceRootIp
    simp only [hS, hnone]
  · cases hF : rootIpFuel ((text.take e).drop s) ip
        ((text.take e).drop s).length ((text.take e).drop s) 0 with
    | none =>
      left
      unfold replaceRootIp
      simp only [hS, hF]
    | some nb =>
      right
      obtain ⟨u, x, w, hbd, hskip, hres⟩ := rootIpFuel_some_decomp
        ((text.take e).drop s).length ((text.take e).drop s) 0 rfl nb hF
      refine ⟨u, x, w, hbd, hskip, ?_⟩
      unfold replaceRootIp
      simp only [hS, hF]
      rw [hres]

theorem C3_root_ip_rewrite_witness :
    serverSplit "<Server><Bind><IP>n</IP></Bind><IP>o</IP></Server>".data = some (8, 41) ∧
    (((∀ p, occAt ipOpen (("<Server><Bind><IP>n</IP></Bind><IP>o</IP></Server>".data.take 41).drop 8) p →
        skipAt (("<Server><Bind><IP>n</IP></Bind><IP>o</IP></Server>".data.take 41).drop 8) (p + 4) = true) →
      replaceRootIp "<Server><Bind><IP>n</IP></Bind><IP>o</IP></Server>".data "9".data = Except.ok "<Server><Bind><IP>n</IP></Bind><IP>o</IP></Server>".data) ∧
    (replaceRootIp "<Server><Bind><IP>n</IP></Bind><IP>o</IP></Server>".data "9".data = Except.ok "<Server><Bind><IP>n</IP></Bind><IP>o</IP></Server>".data ∨
      ∃ u x w, ("<Server><Bind><IP>n</IP></Bind><IP>o</IP></Server>".data.take 41).drop 8 =
          u ++ (ipOpen ++ (x ++ (ipClose ++ w))) ∧
        skipAt (("<Server><Bind><IP>n</IP></Bind><IP>o</IP></Server>".data.take 41).drop 8) (u.length + 4) = false ∧
        replaceRootIp "<Server><Bind><IP>n</IP></Bind><IP>o</IP></Server>".data "9".data = Except.ok
          ("<Server><Bind><IP>n</IP></Bind><IP>o</IP></Server>".data.take 8 ++ (u ++ (ipOpen ++ ("9".data ++ (ipClose ++ w)))) ++
            "<Server><Bind><IP>n</IP></Bind><IP>o</IP></Server>".data.drop 41))) :=
  ⟨rfl, C3_root_ip_rewrite "<Server><Bind><IP>n</IP></Bind><IP>o</IP></Server>".data "9".data rfl⟩

/-! ## The frame relation of the renderer -/

/-- Tag names whose content the renderer targets for replacement. -/
def targetTags : List Str :=
  ["Address".data, "IP".data, "Port".data, "TLSPort".data, "ID".data,
   "Password".data, "AccessToken".data, "Bind".data]

/-- Tag names whose whole block the authentication branch may remove. -/
def removedTags : List Str := ["AccessTokens".data, "Authentication".data]

/-- One targeted edit of the renderer: the content of a targeted tag
replaced, a removable block together with its whitespace runs dropped
for a single newline, or one legacy spelled bind tag normalised. -/
inductive FrameStep : Str → Str → Prop where
  | tagContent (tag x v a b : Str) (ht : tag ∈ targetTags) :
      FrameStep (a ++ (openTagOf tag ++ (x ++ (closeTagOf tag ++ b))))
        (a ++ (openTagOf tag ++ (v ++ (closeTagOf tag ++ b))))
  | blockRemoval (tag x ws1 ws2 a b : Str) (ht : tag ∈ removedTags)
      (h1 : ∀ c ∈ ws1, isPySpace c = true)
      (h2 : ∀ c ∈ ws2, isPySpace c = true) :
      FrameStep
        (a ++ (ws1 ++ (openTagOf tag ++ (x ++ (closeTagOf tag ++ (ws2 ++ b))))))
        (a ++ ('\n' :: b))
  | legacy (cl : Bool) (ws1 ws2 a b : Str)
      (h1 : ∀ c ∈ ws1, isPySpace c = true)
      (h2 : ∀ c ∈ ws2, isPySpace c = true) :
      FrameStep
        (a ++ ((if cl then "</".data else "<".data) ++ (ws1 ++
          ("Server.bind".data ++ (ws2 ++ ('>' :: b))))))
        (a ++ ((if cl then "</Bind>".data else "<Bind>".data) ++ b))

/-- Chains of targeted edits: the output is the input with a finite
sequence of targeted edits applied and everything else untouched. -/
def Frame : Str → Str → Prop := Relation.ReflTransGen FrameStep

theorem frame_refl (x : Str) : Frame x x := Relation.ReflTransGen.refl

theorem frame_trans {x y z : Str} (h1 : Frame x y) (h2 : Frame y z) :
    Frame x z := Relation.ReflTransGen.trans h1 h2

theorem frame_single {x y : Str} (h : FrameStep x y) : Frame x y :=
  Relation.ReflTransGen.single h

theorem frameStep_append_left (c : Str) {x y : Str} (h : FrameStep x y) :
    FrameStep (c ++ x) (c ++ y) := by
  cases h with
  | tagContent tag x v a b ht =>
    have h2 := FrameStep.tagContent tag x v (c ++ a) b ht
    simpa [List.append_assoc] using h2
  | blockRemoval tag x ws1 ws2 a b ht h1 h2 =>
    have h3 := FrameStep.blockRemoval tag x ws1 ws2 (c ++ a) b ht h1 h2
    simpa [List.append_assoc] using h3
  | legacy cl ws1 ws2 a b h1 h2 =>
    have h3 := FrameStep.legacy cl ws1 ws2 (c ++ a) b h1 h2
    simpa [List.append_assoc] using h3

theorem frameStep_append_right (c : Str) {x y : Str} (h : FrameStep x y) :
    FrameStep (x ++ c) (y ++ c) := by
  cases h with
  | tagContent tag x v a b ht =>
    have h2 := FrameStep.tagContent tag x v a (b ++ c) ht
    simpa [List.append_assoc] using h2
  | blockRemoval tag x ws1 ws2 a b ht h1 h2 =>
    have h3 := FrameStep.blockRemoval tag x ws1 ws2 a (b ++ c) ht h1 h2
    simpa [List.append_assoc] using h3
  | legacy cl ws1 ws2 a b h1 h2 =>
    have h3 := FrameStep.legacy cl ws1 ws2 a (b ++ c) h1 h2
    simpa [List.append_assoc] using h3

theorem frame_append_left (c : Str) {x y : Str} (h : Frame x y) :
    Frame (c ++ x) (c ++ y) := by
  induction h with
  | refl => exact frame_refl _
  | tail h1 h2 ih =>
    exact Relation.ReflTransGen.tail ih (frameStep_append_left c h2)

theorem frame_append_right (c : Str) {x y : Str} (h : Frame x y) :
    Frame (x ++ c) (y ++ c) := by
  induction h with
  | refl => exact frame_refl _
  | tail h1 h2 ih =>
    exact Relation.ReflTransGen.tail ih (frameStep_append_right c h2)

theorem frame_cons (c : Char) {x y : Str} (h : Frame x y) :
    Frame (c :: x) (c :: y) := by
  have h2 := frame_append_left [c] h
  simpa using h2

theorem wsCount_le (l : Str) : wsCount l ≤ l.length := by
  induction l with
  | nil => exact Nat.le_refl 0
  | cons c r ih =>
    show (if isPySpace c then wsCount r + 1 else 0) ≤ r.length + 1
    split_ifs
    · omega
    · omega

theorem replace_tag_content_ok_decomp {data tag value res : Str}
    (hlt : '<' ∉ tag) (hsl : '/' ∉ tag)
    (h : replace_tag_content data tag value = Except.ok res) :
    ∃ a x b, data = a ++ (openTagOf tag ++ (x ++ (closeTagOf tag ++ b))) ∧
      res = a ++ (openTagOf tag ++ (value ++ (closeTagOf tag ++ b))) := by
  unfold replace_tag_content at h
  cases hf : findSub data (openTagOf tag) with
  | none => rw [hf] at h; cases h
  | some i =>
    simp only [hf] at h
    cases hj : findFrom data (closeTagOf tag) i with
    | none => simp only [hj] at h; cases h
    | some j =>
      simp only [hj] at h
      injection h with h
      have hiocc := findSub_some_occAt hf
      obtain ⟨hij, hjocc⟩ := findFrom_some_occAt hj
      have holen : i + (openTagOf tag).length ≤ j := by
        by_contra hcon
        push_neg at hcon
        rcases Nat.eq_or_lt_of_le hij with heq | hlt2
        · rw [← heq] at hjocc
          rcases List.prefix_or_prefix_of_prefix hiocc hjocc with hpp | hpp
          · rcases hpp with ⟨t, htp⟩
            have htp2 : (tag ++ ['>']) ++ t = '/' :: (tag ++ ['>']) := by
              have h4 : ('<' :: (tag ++ ['>'])) ++ t =
                  '<' :: '/' :: (tag ++ ['>']) := htp
              rw [List.cons_append] at h4
              injection h4 with h5 h6
              try exact h6
            cases tag with
            | nil => simp at htp2
            | cons a as =>
              have h7 : a = '/' := by
                have h8 := congrArg List.head? htp2
                simpa using h8
              subst h7
              exact hsl (List.mem_cons_self _ _)
          · have h3 := hpp.length_le
            simp [openTagOf, closeTagOf] at h3
        · have hd : (data.drop j).head? = some '<' := occAt_head hjocc rfl
          rcases hiocc with ⟨t, ht⟩
          have holeneq : (openTagOf tag).length = tag.length + 2 := by
            simp [openTagOf]
          have hdij : data.drop j = (openTagOf tag).drop (j - i) ++ t := by
            have h4 : data.drop j = (data.drop i).drop (j - i) := by
              rw [List.drop_drop]
              congr 1
              omega
            rw [h4, ← ht]
            exact List.drop_append_of_le_length (by omega)
          have hne : (openTagOf tag).drop (j - i) ≠ [] := by
            intro h5
            have h6 := congrArg List.length h5
            simp at h6
            omega
          have h7 : ((openTagOf tag).drop (j - i)).head? = some '<' := by
            rw [hdij] at hd
            cases h8 : (openTagOf tag).drop (j - i) with
            | nil => exact absurd h8 hne
            | cons q qs =>
              rw [h8] at hd
              simp at hd
              simp [hd]
          have h9 : '<' ∈ (openTagOf tag).tail := by
            have h10 : '<' ∈ (openTagOf tag).drop (j - i) := head?_mem h7
            have h11 : (openTagOf tag).drop (j - i) =
                (openTagOf tag).tail.drop (j - i - 1) := by
              rw [← List.drop_one, List.drop_drop]
              congr 1
              omega
            rw [h11] at h10
            exact mem_of_mem_drop h10
          have h12 : (openTagOf tag).tail = tag ++ ['>'] := rfl
          rw [h12] at h9
          rcases List.mem_append.mp h9 with h13 | h13
          · exact hlt h13
          · simp at h13
      have hdj : data.drop j = closeTagOf tag ++
          data.drop (j + (closeTagOf tag).length) := by
        rcases hjocc with ⟨t, ht⟩
        have h2 := congrArg (List.drop (closeTagOf tag).length) ht
        rw [List.drop_left, List.drop_drop] at h2
        rw [← ht, h2]
      have hto : data.take (i + (openTagOf tag).length) =
          data.take i ++ openTagOf tag := by
        rw [List.take_add]
        congr 1
        rcases hiocc with ⟨t, ht⟩
        rw [← ht]
        exact List.take_left _ _
      refine ⟨data.take i, (data.take j).drop (i + (openTagOf tag).length),
        data.drop (j + (closeTagOf tag).length), ?_, ?_⟩
      · conv_lhs => rw [@split_take_drop data (i + (openTagOf tag).length) j
          holen]
        rw [hto, hdj]
        simp [List.append_assoc]
      · rw [← h, hto, hdj]
        simp [List.append_assoc]

theorem replace_tag_content_frame {data tag value res : Str}
    (hlt : '<' ∉ tag) (hsl : '/' ∉ tag) (ht : tag ∈ targetTags)
    (h : replace_tag_content data tag value = Except.ok res) :
    Frame data res := by
  obtain ⟨a, x, b, h1, h2⟩ := replace_tag_content_ok_decomp hlt hsl h
  rw [h1, h2]
  exact frame_single (FrameStep.tagContent tag x value a b ht)

theorem remove_first_tag_block_frame {data tag : Str} (ht : tag ∈ removedTags) :
    Frame data (remove_first_tag_block data tag) := by
  cases hf : findSub data (openTagOf tag) with
  | none =>
    have he : remove_first_tag_block data tag = data := by
      unfold remove_first_tag_block
      rw [hf]
    rw [he]
    exact frame_refl data
  | some i =>
    cases hj : findFrom data (closeTagOf tag) (i + (openTagOf tag).length) with
    | none =>
      have he : remove_first_tag_block data tag = data := by
        unfold remove_first_tag_block
        simp only [hf, hj]
      rw [he]
      exact frame_refl data
    | some j =>
      have he : remove_first_tag_block data tag =
          data.take (i - wsCount (data.take i).reverse) ++ ['\n'] ++
          data.drop (j + (closeTagOf tag).length +
            wsCount (data.drop (j + (closeTagOf tag).length))) := by
        unfold remove_first_tag_block
        simp only [hf, hj]
      rw [he]
      have hiocc := findSub_some_occAt hf
      obtain ⟨holen, hjocc⟩ := findFrom_some_occAt hj
      have hilen : i ≤ data.length :=
        occAt_le_length (by simp [openTagOf]) hiocc
      have hk1le : wsCount (data.take i).reverse ≤ i := by
        have h1 := wsCount_le (data.take i).reverse
        rw [List.length_reverse, List.length_take] at h1
        omega
      have hL : data.take i =
          ((data.take i).reverse.drop (wsCount (data.take i).reverse)).reverse ++
          ((data.take i).reverse.take (wsCount (data.take i).reverse)).reverse := by
        conv_lhs => rw [← List.reverse_reverse (data.take i)]
        conv_lhs => rw [show (data.take i).reverse =
          (data.take i).reverse.take (wsCount (data.take i).reverse) ++
          (data.take i).reverse.drop (wsCount (data.take i).reverse) from
          (List.take_append_drop _ _).symm]
        rw [List.reverse_append]
      have hws1 : ∀ c ∈ ((data.take i).reverse.take
          (wsCount (data.take i).reverse)).reverse, isPySpace c = true := by
        intro c hc
        rw [List.mem_reverse] at hc
        exact wsCount_take_ws _ c hc
      have hlen1 : (((data.take i).reverse.drop
          (wsCount (data.take i).reverse)).reverse).length =
          i - wsCount (data.take i).reverse := by
        rw [List.length_reverse, List.length_drop, List.length_reverse,
          List.length_take]
        omega
      have htake_lo : data.take (i - wsCount (data.take i).reverse) =
          ((data.take i).reverse.drop (wsCount (data.take i).reverse)).reverse := by
        have h1 : data.take (i - wsCount (data.take i).reverse) =
            (data.take i).take (i - wsCount (data.take i).reverse) := by
          rw [List.take_take]
          congr 1
          omega
        rw [h1]
        have h2 := congrArg
          (fun z => List.take (i - wsCount (data.take i).reverse) z) hL
        simp only at h2
        rw [h2]
        exact List.take_left' hlen1
      have hdj : data.drop j = closeTagOf tag ++
          data.drop (j + (closeTagOf tag).length) := by
        rcases hjocc with ⟨t, ht2⟩
        have h2 := congrArg (List.drop (closeTagOf tag).length) ht2
        rw [List.drop_left, List.drop_drop] at h2
        rw [← ht2, h2]
      have hto : data.take (i + (openTagOf tag).length) =
          data.take i ++ openTagOf tag := by
        rw [List.take_add]
        congr 1
        rcases hiocc with ⟨t, ht2⟩
        rw [← ht2]
        exact List.take_left _ _
      have hws2 := wsCount_take_ws (data.drop (j + (closeTagOf tag).length))
      have hdrop2 : data.drop (j + (closeTagOf tag).length) =
          (data.drop (j + (closeTagOf tag).length)).take
            (wsCount (data.drop (j + (closeTagOf tag).length))) ++
          data.drop (j + (closeTagOf tag).length +
            wsCount (data.drop (j + (closeTagOf tag).length))) := by
        conv_lhs => rw [ws_split (data.drop (j + (closeTagOf tag).length))]
        congr 1
        rw [List.drop_drop]
      have heq1 : data =
          ((data.take i).reverse.drop (wsCount (data.take i).reverse)).reverse ++
          (((data.take i).reverse.take (wsCount (data.take i).reverse)).reverse ++
          (openTagOf tag ++ ((data.take j).drop (i + (openTagOf tag).length) ++
          (closeTagOf tag ++
          ((data.drop (j + (closeTagOf tag).length)).take
            (wsCount (data.drop (j + (closeTagOf tag).length))) ++
          data.drop (j + (closeTagOf tag).length +
            wsCount (data.drop (j + (closeTagOf tag).length)))))))) := by
        conv_lhs => rw [@split_take_drop data (i + (openTagOf tag).length) j
          holen]
        rw [hto, hdj]
        conv_lhs => rw [hL, hdrop2]
        simp [List.append_assoc]
      have hstep := FrameStep.blockRemoval tag
        ((data.take j).drop (i + (openTagOf tag).length))
        (((data.take i).reverse.take (wsCount (data.take i).reverse)).reverse)
        ((data.drop (j + (closeTagOf tag).length)).take
          (wsCount (data.drop (j + (closeTagOf tag).length))))
        (((data.take i).reverse.drop (wsCount (data.take i).reverse)).reverse)
        (data.drop (j + (closeTagOf tag).length +
          wsCount (data.drop (j + (closeTagOf tag).length))))
        ht hws1 hws2
      have hres := frame_single hstep
      rw [← heq1] at hres
      rw [htake_lo]
      simpa [List.append_assoc] using hres

theorem subSBFuel_frame (cl : Bool) : ∀ fuel l,
    Frame l (subSBFuel cl (if cl then "</Bind>".data else "<Bind>".data)
      fuel l) := by
  intro fuel
  induction fuel with
  | zero => intro l; exact frame_refl l
  | succ fuel ih =>
    intro l
    cases l with
    | nil => exact frame_refl []
    | cons c rest =>
      cases hm : matchServerBind cl (c :: rest) with
      | some r =>
        rw [subSBFuel_cons_some hm]
        rcases matchServerBind_decomp hm with ⟨ws1, ws2, hw1, hw2, hdec⟩
        have h1 : Frame (c :: rest)
            ((if cl then "</Bind>".data else "<Bind>".data) ++ r) := by
          rw [hdec]
          have h2 := frame_single (FrameStep.legacy cl ws1 ws2 [] r hw1 hw2)
          simpa [List.append_assoc] using h2
        exact frame_trans h1 (frame_append_left _ (ih r))
      | none =>
        rw [subSBFuel_cons_none hm]
        exact frame_cons c (ih rest)

theorem normalizeServerBind_frame (text : Str) :
    Frame text (normalizeServerBind text) := by
  have h1 : Frame text (subServerBind false "<Bind>".data text) :=
    subSBFuel_frame false text.length text
  have h2 : Frame (subServerBind false "<Bind>".data text)
      (subServerBind true "</Bind>".data
        (subServerBind false "<Bind>".data text)) :=
    subSBFuel_frame true (subServerBind false "<Bind>".data text).length
      (subServerBind false "<Bind>".data text)
  exact frame_trans h1 h2

theorem subnAllFuel_frame {tag value : Str} (ht : tag ∈ targetTags) :
    ∀ fuel l, Frame l (subnAllFuel tag value fuel l).1 := by
  intro fuel
  induction fuel with
  | zero => intro l; exact frame_refl l
  | succ fuel ih =>
    intro l
    cases l with
    | nil => exact frame_refl []
    | cons c rest =>
      cases hm : matchTagTriple tag (c :: rest) with
      | some pr =>
        obtain ⟨cnt, r⟩ := pr
        rw [subnAllFuel_cons_some hm]
        have h1 : Frame (c :: rest)
            (openTagOf tag ++ (value ++ (closeTagOf tag ++ r))) := by
          rw [(matchTagTriple_decomp hm).1]
          have h2 := frame_single (FrameStep.tagContent tag cnt value [] r ht)
          simpa [List.append_assoc] using h2
        have h3 : Frame (openTagOf tag ++ (value ++ (closeTagOf tag ++ r)))
            (openTagOf tag ++ (value ++ (closeTagOf tag ++
              (subnAllFuel tag value fuel r).1))) :=
          frame_append_left _ (frame_append_left _ (frame_append_left _ (ih r)))
        have h4 := frame_trans h1 h3
        show Frame (c :: rest) (openTagOf tag ++ value ++ closeTagOf tag ++
          (subnAllFuel tag value fuel r).1)
        simpa [List.append_assoc] using h4
      | none =>
        rw [subnAllFuel_cons_none hm]
        show Frame (c :: rest) (c :: (subnAllFuel tag value fuel rest).1)
        exact frame_cons c (ih rest)

theorem replace_all_optional_frame {tag : Str} (ht : tag ∈ targetTags)
    (data value : Str) : Frame data (replace_all_optional data tag value) :=
  subnAllFuel_frame ht data.length data

theorem opt_step_frame {tag : Str} (ht : tag ∈ targetTags) (sb bind : Str) :
    Frame sb (if containsSub sb (openTagOf tag) then
      replace_all_optional sb tag bind else sb) := by
  by_cases hc : containsSub sb (openTagOf tag)
  · rw [if_pos hc]
    exact replace_all_optional_frame ht sb bind
  · rw [if_neg hc]
    exact frame_refl sb

/-- The three optional control-module rewrites as one function of the
inner server body. -/
def ctrlS3 (sb bind : Str) : Str :=
  let s1 := if containsSub sb (openTagOf "Bind".data) then
    replace_all_optional sb "Bind".data bind else sb
  let s2 := if containsSub s1 (openTagOf "IP".data) then
    replace_all_optional s1 "IP".data bind else s1
  if containsSub s2 (openTagOf "Address".data) then
    replace_all_optional s2 "Address".data bind else s2

theorem ctrlS3_frame (sb bind : Str) : Frame sb (ctrlS3 sb bind) :=
  frame_trans (opt_step_frame (by decide) sb bind)
    (frame_trans (opt_step_frame (by decide) _ bind)
      (opt_step_frame (by decide) _ bind))

theorem scopedReplaceControlBindings_frame (text bind : Str) :
    Frame text (scopedReplaceControlBindings text bind) := by
  cases hC : controlSplit text with
  | none =>
    have he : scopedReplaceControlBindings text bind = text := by
      unfold scopedReplaceControlBindings
      rw [hC]
    rw [he]
    exact frame_refl text
  | some cp =>
    obtain ⟨cs, ce⟩ := cp
    cases hS : innerServerSplit ((text.take ce).drop cs) with
    | none =>
      have he : scopedReplaceControlBindings text bind = text := by
        unfold scopedReplaceControlBindings
        simp only [hC, hS]
      rw [he]
      exact frame_refl text
    | some sp =>
      obtain ⟨ss, se⟩ := sp
      have he : scopedReplaceControlBindings text bind =
          text.take cs ++ (((text.take ce).drop cs).take ss ++
            ctrlS3 (((((text.take ce).drop cs).take se).drop ss)) bind ++
            ((text.take ce).drop cs).drop se) ++ text.drop ce := by
        unfold scopedReplaceControlBindings ctrlS3
        simp only [hC, hS]
      rw [he]
      obtain ⟨hcop, j, hce, hccl, hcj⟩ := controlSplit_facts hC
      obtain ⟨hsop, j2, hse, hscl, hsj⟩ := innerServerSplit_facts hS
      have hcse : cs ≤ ce := by omega
      have hsse : ss ≤ se := by omega
      have hchain := ctrlS3_frame ((((text.take ce).drop cs).take se).drop ss)
        bind
      conv_lhs => rw [@split_take_drop text cs ce hcse]
      conv_lhs => rw [@split_take_drop ((text.take ce).drop cs) ss se hsse]
      exact frame_append_right _ (frame_append_left _
        (frame_append_right _ (frame_append_left _ hchain)))

theorem subnSigFuel_frame {port tls : Str} :
    ∀ fuel l res n, subnSigFuel port tls fuel l = Except.ok (res, n) →
      Frame l res := by
  intro fuel
  induction fuel with
  | zero =>
    intro l res n h
    injection h with h
    injection h with h1 h2
    rw [← h1]
    exact frame_refl l
  | succ fuel ih =>
    intro l res n h
    cases l with
    | nil =>
      injection h with h
      injection h with h1 h2
      rw [← h1]
      exact frame_refl []
    | cons c rest =>
      cases hm : matchLazyBlock sigOpen sigClose (c :: rest) with
      | some pr =>
        obtain ⟨inner, r⟩ := pr
        rw [subnSigFuel_cons_some hm] at h
        cases hP : replace_tag_content inner "Port".data port with
        | error e => rw [hP, exbind_err] at h; cases h
        | ok i1 =>
          rw [hP, exbind_ok] at h
          cases hT : replace_tag_content i1 "TLSPort".data tls with
          | error e => rw [hT, exbind_err] at h; cases h
          | ok i2 =>
            rw [hT, exbind_ok] at h
            cases hS : subnSigFuel port tls fuel r with
            | error e => rw [hS, exbind_err] at h; cases h
            | ok p =>
              rw [hS, exbind_ok] at h
              injection h with h
              injection h with h1 h2
              rw [← h1]
              have hin : Frame inner i2 := frame_trans
                (replace_tag_content_frame (by decide) (by decide)
                  (by decide) hP)
                (replace_tag_content_frame (by decide) (by decide)
                  (by decide) hT)
              have hr : Frame r p.1 := ih r p.1 p.2 (by simpa using hS)
              rw [matchLazyBlock_decomp hm]
              have h5 : Frame (sigOpen ++ (inner ++ (sigClose ++ r)))
                  (sigOpen ++ (i2 ++ (sigClose ++ p.1))) :=
                frame_append_left sigOpen (frame_trans
                  (frame_append_right (sigClose ++ r) hin)
                  (frame_append_left i2 (frame_append_left sigClose hr)))
              simpa [List.append_assoc] using h5
      | none =>
        rw [subnSigFuel_cons_none hm] at h
        cases hS : subnSigFuel port tls fuel rest with
        | error e => rw [hS, exbind_err] at h; cases h
        | ok p =>
          rw [hS, exbind_ok] at h
          injection h with h
          injection h with h1 h2
          rw [← h1]
          exact frame_cons c (ih rest p.1 p.2 (by simpa using hS))

theorem bindAddressStep_frame {bb addr res : Str}
    (h : bindAddressStep bb addr = Except.ok res) : Frame bb res := by
  unfold bindAddressStep at h
  split_ifs at h with hc1 hc2
  · exact replace_tag_content_frame (by decide) (by decide) (by decide) h
  · exact replace_tag_content_frame (by decide) (by decide) (by decide) h
  · injection h with h
    rw [← h]
    exact frame_refl bb

theorem bindPortsStep_frame {bb port tls res : Str}
    (h : bindPortsStep bb port tls = Except.ok res) : Frame bb res := by
  unfold bindPortsStep at h
  cases hs : subnSignalling port tls bb with
  | error e => rw [hs, exbind_err] at h; cases h
  | ok p =>
    rw [hs, exbind_ok] at h
    unfold subnSignalling at hs
    have hsig : Frame bb p.1 :=
      subnSigFuel_frame bb.length bb p.1 p.2 (by simpa using hs)
    by_cases hz : p.2 = 0
    · rw [if_pos hz] at h
      cases hP : replace_tag_content p.1 "Port".data port with
      | error e => rw [hP, exbind_err] at h; cases h
      | ok b1 =>
        rw [hP, exbind_ok] at h
        exact frame_trans hsig (frame_trans
          (replace_tag_content_frame (by decide) (by decide) (by decide) hP)
          (replace_tag_content_frame (by decide) (by decide) (by decide) h))
    · rw [if_neg hz] at h
      injection h with h
      rw [← h]
      exact hsig

theorem replaceRootBindings_frame {text address port tls res : Str}
    (h : replaceRootBindings text address port tls = Except.ok res) :
    Frame text res := by
  unfold replaceRootBindings at h
  cases hS : serverSplit text with
  | none => rw [hS] at h; cases h
  | some se0 =>
    obtain ⟨s, e⟩ := se0
    simp only [hS] at h
    cases hB : bindSplit ((text.take e).drop s) with
    | none => simp only [hB] at h; cases h
    | some bb =>
      obtain ⟨bi, be⟩ := bb
      simp only [hB] at h
      cases hA : bindAddressStep ((((text.take e).drop s).take be).drop bi)
          address with
      | error er => rw [hA, exbind_err] at h; cases h
      | ok bb2 =>
        rw [hA, exbind_ok] at h
        cases hP : bindPortsStep bb2 port tls with
        | error er => rw [hP, exbind_err] at h; cases h
        | ok bb3 =>
          rw [hP, exbind_ok] at h
          injection h with h
          rw [← h]
          obtain ⟨hsg, hsc, hse, hsl2⟩ := serverSplit_facts hS
          obtain ⟨hbg, hbc, hbe⟩ := bindSplit_facts hB
          have hchain : Frame ((((text.take e).drop s).take be).drop bi) bb3 :=
            frame_trans (bindAddressStep_frame hA) (bindPortsStep_frame hP)
          conv_lhs => rw [@split_take_drop text s e hse]
          conv_lhs => rw [@split_take_drop ((text.take e).drop s) bi be hbe]
          exact frame_append_right _ (frame_append_left _
            (frame_append_right _ (frame_append_left _ hchain)))

theorem replaceRootIp_frame {text ip res : Str}
    (h : replaceRootIp text ip = Except.ok res) : Frame text res := by
  unfold replaceRootIp at h
  cases hS : serverSplit text with
  | none => rw [hS] at h; cases h
  | some se0 =>
    obtain ⟨s, e⟩ := se0
    simp only [hS] at h
    cases hF : rootIpFuel ((text.take e).drop s) ip
        ((text.take e).drop s).length ((text.take e).drop s) 0 with
    | none =>
      rw [hF] at h
      injection h with h
      rw [← h]
      exact frame_refl text
    | some nb =>
      rw [hF] at h
      injection h with h
      rw [← h]
      obtain ⟨hsg, hsc, hse, hsl2⟩ := serverSplit_facts hS
      obtain ⟨u, x, w, hbd, hskip, hres⟩ := rootIpFuel_some_decomp
        ((text.take e).drop s).length ((text.take e).drop s) 0 rfl nb hF
      have hio : ipOpen = openTagOf "IP".data := by decide
      have hic : ipClose = closeTagOf "IP".data := by decide
      have hstep : Frame ((text.take e).drop s) nb := by
        conv_lhs => rw [hbd]
        rw [hres, hio, hic]
        exact frame_single (FrameStep.tagContent "IP".data x ip u w (by decide))
      conv_lhs => rw [@split_take_drop text s e hse]
      exact frame_append_right _ (frame_append_left _ hstep)

theorem renderPre_frame {template bind serverIp port tlsPort username
    password t : Str}
    (h : renderPre template bind serverIp port tlsPort username password =
      Except.ok t) : Frame template t := by
  unfold renderPre at h
  cases hR : replaceRootBindings (normalizeServerBind template)
      (xml_escape bind) (xml_escape port) (xml_escape tlsPort) with
  | error e => rw [hR, exbind_err] at h; cases h
  | ok t2 =>
    rw [hR, exbind_ok] at h
    cases hI : replaceRootIp t2 (xml_escape serverIp) with
    | error e => rw [hI, exbind_err] at h; cases h
    | ok t3 =>
      rw [hI, exbind_ok] at h
      cases hID : replace_tag_content
          (scopedReplaceControlBindings t3 (xml_escape bind)) "ID".data
          (xml_escape username) with
      | error e => rw [hID, exbind_err] at h; cases h
      | ok t5 =>
        rw [hID, exbind_ok] at h
        exact frame_trans (normalizeServerBind_frame template)
          (frame_trans (replaceRootBindings_frame hR)
            (frame_trans (replaceRootIp_frame hI)
              (frame_trans (scopedReplaceControlBindings_frame t3
                  (xml_escape bind))
                (frame_trans (replace_tag_content_frame (by decide) (by decide)
                  (by decide) hID)
                  (replace_tag_content_frame (by decide) (by decide)
                    (by decide) h)))))

theorem authStage_frame {text apiToken : Str} {inc : Bool} {res : Str}
    (h : authStage text apiToken inc = Except.ok res) : Frame text res := by
  unfold authStage at h
  by_cases hinc : inc = false
  · rw [if_pos hinc] at h
    injection h with h
    rw [← h]
    exact frame_trans (remove_first_tag_block_frame (by decide))
      (remove_first_tag_block_frame (by decide))
  · rw [if_neg hinc] at h
    by_cases htok : apiToken ≠ []
    · rw [if_pos htok] at h
      exact replace_tag_content_frame (by decide) (by decide) (by decide) h
    · rw [if_neg htok] at h
      injection h with h
      rw [← h]
      exact remove_first_tag_block_frame (by decide)

/-- C4: whenever rendering succeeds, the output document is the template
with a finite chain of targeted edits applied: each edit replaces the
content of one targeted tag (address, legacy IP, port, TLS port, bind,
credentials or the access token), removes one access-token or
authentication block with its whitespace runs for a single newline, or
normalises one legacy spelled bind tag; every byte outside the edited
regions is carried over identically. -/
theorem C4_render_frame {template bind serverIp port tlsPort username
    password apiToken : Str} {inc : Bool} {out : Str}
    (h : render template bind serverIp port tlsPort username password
      apiToken inc = Except.ok out) : Frame template out := by
  unfold render at h
  cases hPre : renderPre template bind serverIp port tlsPort username
      password with
  | error e => rw [hPre, exbind_err] at h; cases h
  | ok t =>
    rw [hPre, exbind_ok] at h
    exact frame_trans (renderPre_frame hPre) (authStage_frame h)

theorem C4_render_frame_witness :
    render "<Server><Bind><Address>a</Address><Port>p</Port><TLSPort>t</TLSPort></Bind><ID>i</ID><Password>w</Password> <AccessTokens><AccessToken>k</AccessToken></AccessTokens> <Authentication>z</Authentication></Server>".data "B".data "B".data "9".data "8".data "u".data
      "w".data "k".data true = Except.ok "<Server><Bind><Address>B</Address><Port>9</Port><TLSPort>8</TLSPort></Bind><ID>u</ID><Password>w</Password> <AccessTokens><AccessToken>k</AccessToken></AccessTokens> <Authentication>z</Authentication></Server>".data ∧
    Frame "<Server><Bind><Address>a</Address><Port>p</Port><TLSPort>t</TLSPort></Bind><ID>i</ID><Password>w</Password> <AccessTokens><AccessToken>k</AccessToken></AccessTokens> <Authentication>z</Authentication></Server>".data "<Server><Bind><Address>B</Address><Port>9</Port><TLSPort>8</TLSPort></Bind><ID>u</ID><Password>w</Password> <AccessTokens><AccessToken>k</AccessToken></AccessTokens> <Authentication>z</Authentication></Server>".data :=
by
  have hw : render
      "<Server><Bind><Address>a</Address><Port>p</Port><TLSPort>t</TLSPort></Bind><ID>i</ID><Password>w</Password> <AccessTokens><AccessToken>k</AccessToken></AccessTokens> <Authentication>z</Authentication></Server>".data
      "B".data "B".data "9".data "8".data "u".data "w".data "k".data true =
      Except.ok
      "<Server><Bind><Address>B</Address><Port>9</Port><TLSPort>8</TLSPort></Bind><ID>u</ID><Password>w</Password> <AccessTokens><AccessToken>k</AccessToken></AccessTokens> <Authentication>z</Authentication></Server>".data := by
    rfl
  exact ⟨hw, C4_render_frame hw⟩

end BitRiver
